import Mathlib

/-!
Verification of the sfgov-a11y-checker crawl-and-audit pipeline.

This file is a shallow embedding of the core of the repository:

* the six rule auditors (`src/lib/auditors/*.ts`, `src/lib/baseAuditor.ts`) as pure
  functions over a DOM tree, including their internal try/catch error handling,
* `RateLimiter.processItems` (`src/lib/rateLimiter.ts`) as a small-step scheduler over
  the suspended `processNext` continuations and in-flight workers, faithful to the
  single-threaded JavaScript event-loop semantics: every synchronous segment between
  `await` points is one atomic step, and the scheduler picks any runnable continuation,
* `AuditEngine.processUrls` / `AuditEngine.startAudit` (`src/lib/auditEngine.ts`) as a
  concrete worker machine plugged into the scheduler, with the callback invocations
  (`onProgress`, `onResults`, `onError`, `onComplete`) recorded in a ghost trace.

Theorems about the scheduler quantify over an arbitrary worker machine, so they cover
every processor callback the scheduler could be given.
-/

namespace A11y

/-! ## Data model (src/types/audit.ts) -/

/-- The enum `AuditType` of `src/types/audit.ts`. -/
inductive AuditType
  | imageMissingAlt
  | imageWithAlt
  | inaccessibleLink
  | inaccessibleButton
  | pdfLink
  | officeLink
  | tableInfo
  | headingHierarchy
  deriving DecidableEq, Repr

/-- The interface `AuditResult` of `src/types/audit.ts`: one finding. -/
structure AuditResult where
  fullUrl : String
  type : AuditType
  details : String
  linkText : String
  targetUrl : String
  imageFilename : String
  deriving DecidableEq, Repr

/-- A JavaScript `Error` value: its `name` and `message` properties, which are the only
properties the code reads (`error.name !== 'AbortError'`, `error.message`). -/
structure JsError where
  name : String
  message : String
  deriving DecidableEq, Repr

/-! ## DOM model

The auditors consume a parsed document (`HTMLProcessor.parseHTML` applies the browser's
`DOMParser`, an external collaborator).  We represent the parser's output directly as a
tree of element and text nodes; `querySelectorAll` returns matches in document order,
which for a tree is preorder. -/

/-- A DOM node: an element with tag name, attributes and child nodes, or a text node. -/
inductive Dnode
  | elem (tag : String) (attrs : List (String × String)) (kids : List Dnode)
  | text (s : String)

/-- The attribute lookup `element.getAttribute(name)`. -/
def getAttr (attrs : List (String × String)) (name : String) : Option String :=
  (attrs.find? (fun p => p.1 == name)).map Prod.snd

mutual
/-- The DOM property `node.textContent`: concatenation of all descendant text. -/
def textContent : Dnode → String
  | .elem _ _ kids => textContentList kids
  | .text s => s

def textContentList : List Dnode → String
  | [] => ""
  | n :: ns => textContent n ++ textContentList ns
end

mutual
/-- The query `document.querySelectorAll(sel)` for the simple selectors the auditors
use, as a predicate on tag name and attributes; matches are returned in document
(preorder) order, the node itself included. -/
def selectAll (p : String → List (String × String) → Bool) : Dnode → List Dnode
  | .elem t a kids =>
      (if p t a then [Dnode.elem t a kids] else []) ++ selectAllList p kids
  | .text _ => []

def selectAllList (p : String → List (String × String) → Bool) : List Dnode → List Dnode
  | [] => []
  | n :: ns => selectAll p n ++ selectAllList p ns
end

/-- The query `element.querySelectorAll(sel)`: descendants only, the element itself
excluded (as in the DOM). -/
def selectDesc (p : String → List (String × String) → Bool) : Dnode → List Dnode
  | .elem _ _ kids => selectAllList p kids
  | .text _ => []

/-- The first match of `element.querySelector(sel)` over descendants. -/
def selectFirst (p : String → List (String × String) → Bool) (n : Dnode) : Option Dnode :=
  (selectDesc p n).head?

/-- The tag name of a node (empty for text nodes). -/
def tagOf : Dnode → String
  | .elem t _ _ => t
  | .text _ => ""

/-- The attributes of a node (empty for text nodes). -/
def attrsOf : Dnode → List (String × String)
  | .elem _ a _ => a
  | .text _ => []

/-- The lookup `document.body`: the first `body` element of the document, or the
document root itself if none is present (DOMParser always synthesizes a body). -/
def docBody (doc : Dnode) : Dnode :=
  ((selectAll (fun t _ => t == "body") doc).head?).getD doc

/-- The lookup `document.getElementById(id)`: first element whose `id` attribute is the
given string. -/
def getElementById (doc : Dnode) (i : String) : Option Dnode :=
  (selectAll (fun _ a => getAttr a "id" == some i) doc).head?

/-! ## String helpers mirroring the JavaScript built-ins used by the code

These re-implement the JavaScript string operations over `List Char` (rather than
through Lean's byte-position based `String` functions) so that every definition in this
file evaluates inside the kernel on concrete inputs. -/

/-- The JavaScript test `haystack.includes(needle)`: substring containment, decided by
checking the needle against every suffix of the haystack. -/
def strIncludes (haystack needle : String) : Bool :=
  (List.range (haystack.toList.length + 1)).any
    (fun k => needle.toList.isPrefixOf (haystack.toList.drop k))

/-- The JavaScript `s.trim()`: strip leading and trailing whitespace. -/
def jsTrim (s : String) : String :=
  String.mk
    (((s.toList.dropWhile Char.isWhitespace).reverse.dropWhile Char.isWhitespace).reverse)

/-- The JavaScript `s.toLowerCase()` (on the ASCII range the code works with). -/
def jsLower (s : String) : String := String.mk (s.toList.map Char.toLower)

/-- The JavaScript `s.startsWith(pre)`. -/
def jsStartsWith (s pre : String) : Bool := pre.toList.isPrefixOf s.toList

/-- The JavaScript `s.endsWith(suf)`. -/
def jsEndsWith (s suf : String) : Bool :=
  suf.toList.reverse.isPrefixOf s.toList.reverse

/-- Drop the first `n` characters of a string. -/
def strDrop (s : String) (n : Nat) : String := String.mk (s.toList.drop n)

/-- Fuel-indexed worker for `jsSplitOn` (the separator is always nonempty here, so the
input shrinks at every step and the fuel never runs out). -/
def splitOnAux : Nat → List Char → List Char → List Char → List (List Char)
  | 0, _, _, acc => [acc.reverse]
  | fuel + 1, sep, cs, acc =>
      match cs with
      | [] => [acc.reverse]
      | c :: rest =>
          if sep.isPrefixOf cs then
            acc.reverse :: splitOnAux fuel sep (cs.drop sep.length) []
          else splitOnAux fuel sep rest (c :: acc)

/-- The JavaScript `s.split(sep)` for a nonempty separator. -/
def jsSplitOn (s sep : String) : List String :=
  (splitOnAux (s.toList.length + 1) sep.toList s.toList []).map String.mk

/-- Join a list of strings with a separator, as `array.join(sep)` does. -/
def joinSep (sep : String) : List String → String
  | [] => ""
  | [s] => s
  | s :: r :: rest => s ++ sep ++ joinSep sep (r :: rest)

/-- Fuel-indexed decimal digit list of a natural number. -/
def natToStrAux : Nat → Nat → List Char
  | 0, _ => []
  | fuel + 1, n =>
      if n < 10 then [Char.ofNat (48 + n)]
      else natToStrAux fuel (n / 10) ++ [Char.ofNat (48 + n % 10)]

/-- Decimal representation of a natural number, as JavaScript template interpolation
renders it. -/
def natToStr (n : Nat) : String := String.mk (natToStrAux (n + 1) n)

/-- Models the WHATWG `new URL(url)` constructor to the extent the code observes it:
for an absolute `http://` or `https://` URL it returns the `pathname` (the part of the
URL after the host and before any query or fragment, `"/"` when absent); for any other
input — in particular a relative URL such as `"/x.jpg"` — the constructor throws, which
we model as `none`. -/
def urlPathname (url : String) : Option String :=
  if jsStartsWith url "http://" then some (pathnameOf (strDrop url 7))
  else if jsStartsWith url "https://" then some (pathnameOf (strDrop url 8))
  else none
where
  /-- The pathname of `host/path?query#fragment`: drop the host, cut query/fragment. -/
  pathnameOf (hostRest : String) : String :=
    let noQuery := hostRest.toList.takeWhile (fun c => c ≠ '?' && c ≠ '#')
    let path := noQuery.dropWhile (fun c => c ≠ '/')
    if path.isEmpty then "/" else String.mk path

/-! ## AuditUtils (src/lib/baseAuditor.ts, class AuditUtils) -/

/-- `AuditUtils.containsTriggerPhrase` (baseAuditor.ts lines 126-129). -/
def containsTriggerPhrase (text : String) (triggerPhrases : List String) : Bool :=
  let normalizedText := jsTrim (jsLower text)
  triggerPhrases.any (fun phrase => strIncludes normalizedText (jsLower phrase))

/-- `AuditUtils.containsExcludedPhrase` (baseAuditor.ts lines 134-137). -/
def containsExcludedPhrase (text : String) (excludedPhrases : List String) : Bool :=
  let normalizedText := jsTrim (jsLower text)
  excludedPhrases.any (fun phrase => strIncludes normalizedText (jsLower phrase))

/-- `AuditUtils.extractFilename` (baseAuditor.ts lines 142-151): `new URL(url)` throws
on a scheme-less (e.g. relative) URL and the catch returns `""`; otherwise the last
`/`-separated segment of the pathname (`segments[segments.length-1] || ''`). -/
def extractFilename (url : String) : String :=
  match urlPathname url with
  | none => ""
  | some pathname => (jsSplitOn pathname "/").getLastD ""

/-- `AuditUtils.validateHeadingHierarchy`'s loop (baseAuditor.ts lines 164-180) on the
numeric level sequence: invalid as soon as some adjacent pair steps up by more than one
level (`current > previous + 1`). -/
def seqValid : List Nat → Bool
  | a :: b :: rest => (decide (b ≤ a + 1)) && seqValid (b :: rest)
  | _ => true

/-- The heading level read by `validateHeadingHierarchy`:
`parseInt(h.tagName.charAt(1))` for a tag `h1`..`h6`. -/
def headingLevel (tag : String) : Nat :=
  ((tag.toList.drop 1).headD '0').toNat - 48

/-! ## The raw-URL pattern of LinkAuditor (src/lib/auditors/linkAuditor.ts)

`RAW_URL_PATTERN` is the regex
`(?<!@)\b(?:https?:\/\/|www\.)[a-zA-Z0-9.-]+\.[a-zA-Z]{2,}(?:\/[^\s<>"']*)?` applied
globally to the page text. -/

/-- The character class `[a-zA-Z0-9.-]` of RAW_URL_PATTERN. -/
def urlBodyChar (c : Char) : Bool := c.isAlphanum || c == '.' || c == '-'

/-- The path character class `[^\s<>"']` of RAW_URL_PATTERN (39 is the apostrophe). -/
def pathOkChar (c : Char) : Bool :=
  !(c.isWhitespace || c == '<' || c == '>' || c == '"' || c.toNat == 39)

/-- The alternation `(?:https?:\/\/|www\.)` of RAW_URL_PATTERN. -/
def markerAt (cs : List Char) : Option (List Char) :=
  if "https://".toList.isPrefixOf cs then some "https://".toList
  else if "http://".toList.isPrefixOf cs then some "http://".toList
  else if "www.".toList.isPrefixOf cs then some "www.".toList
  else none

/-- The greedy backtracking match of `[a-zA-Z0-9.-]+\.[a-zA-Z]{2,}` against a run of
URL-body characters: the longest prefix ending in a dot followed by at least two
letters. -/
def domainMatch (body : List Char) : Option (List Char) :=
  ((List.range body.length).reverse).findSome? (fun j =>
    if 1 ≤ j && body.getD j 'x' == '.' then
      let letterRun := (body.drop (j + 1)).takeWhile Char.isAlpha
      if 2 ≤ letterRun.length then some (body.take (j + 1) ++ letterRun) else none
    else none)

/-- Fuel-indexed global scan for RAW_URL_PATTERN matches, tracking the previous
character for the `(?<!@)` and `\b` guards.  This models the JavaScript regex engine;
every theorem below only ever evaluates it on text containing no `http://`, `https://`
or `www.` marker, where any faithful model of the pattern returns no match. -/
def rawUrlScan : Nat → Option Char → List Char → List String
  | 0, _, _ => []
  | _ + 1, _, [] => []
  | fuel + 1, prev, c :: rest =>
      let boundaryBlocked :=
        match prev with
        | some p => p.isAlphanum || p == '_' || p == '@'
        | none => false
      match markerAt (c :: rest) with
      | some marker =>
          if boundaryBlocked then rawUrlScan fuel (some c) rest
          else
            let after := (c :: rest).drop marker.length
            let body := after.takeWhile urlBodyChar
            match domainMatch body with
            | some dom =>
                let after2 := after.drop dom.length
                let path :=
                  if after2.headD ' ' == '/' then after2.takeWhile pathOkChar else []
                let tok := marker ++ dom ++ path
                String.mk tok :: rawUrlScan fuel tok.getLast? ((c :: rest).drop tok.length)
            | none => rawUrlScan fuel (some c) rest
      | none => rawUrlScan fuel (some c) rest

/-- The match list `visibleText.match(RAW_URL_PATTERN) || []` of findRawUrls. -/
def rawUrlMatches (s : String) : List String :=
  rawUrlScan (s.toList.length + 1) none s.toList

/-! ## The auditors (src/lib/auditors/*.ts)

Each auditor's `audit(url, signal)` wraps its whole body in try/catch; the body may
throw (via `checkAbortSignal` or a failed fetch), and the catch funnels every failure
through `handleError`, which returns no results.  We embed the body as an
`Except JsError` computation and `audit` as the catch-wrapped body.  The fetch
(`fetchAndParseHTML`) resolves to a parsed document or rejects; it is passed in as an
`Except JsError Dnode` value. -/

/-- AbstractBaseAuditor.checkAbortSignal (baseAuditor.ts lines 112-116): throws a plain
Error (name "Error") when the signal is aborted. -/
def checkAbortSignal (aborted : Bool) : Except JsError Unit :=
  if aborted then .error ⟨"Error", "Audit was cancelled"⟩ else .ok ()

/-- AbstractBaseAuditor.handleError (baseAuditor.ts lines 104-107): log a warning and
return the empty result list. -/
def handleError (_e : JsError) (_url : String) : List AuditResult :=
  []

/-- A `forEach` over elements whose callback starts with `checkAbortSignal` and then
pushes `f x` onto the result array.  The abort flag is constant across the loop (the
loop body is synchronous, so the flag cannot change mid-loop). -/
def auditLoop (aborted : Bool) (f : α → List AuditResult) :
    List α → Except JsError (List AuditResult)
  | [] => .ok []
  | x :: rest => do
      let _ ← checkAbortSignal aborted
      let rs ← auditLoop aborted f rest
      .ok (f x ++ rs)

/-- The per-image case split of ImageAuditor.audit's forEach (imageAuditor.ts): a
missing or blank alt attribute yields an `ImageMissingAlt` finding with the src and the
extracted filename; otherwise an `ImageWithAlt` finding with details `alt="<text>"`. -/
def imageCheck (url : String) (img : Dnode) : AuditResult :=
  let altText := getAttr (attrsOf img) "alt"
  let src := (getAttr (attrsOf img) "src").getD ""
  let filename := extractFilename src
  match altText with
  | none => ⟨url, .imageMissingAlt, "", "", src, filename⟩
  | some alt =>
      if jsTrim alt == "" then ⟨url, .imageMissingAlt, "", "", src, filename⟩
      else ⟨url, .imageWithAlt, "alt=\"" ++ alt ++ "\"", "", src, filename⟩

/-- The try-block of ImageAuditor.audit. -/
def imageAuditBody (url : String) (fetched : Except JsError Dnode) (aborted : Bool) :
    Except JsError (List AuditResult) := do
  let _ ← checkAbortSignal aborted
  let doc ← fetched
  auditLoop aborted (fun img => [imageCheck url img])
    (selectAll (fun t _ => t == "img") doc)

/-- LinkAuditor.TRIGGER_PHRASES (and ButtonAuditor's identical copy). -/
def TRIGGER_PHRASES : List String :=
  ["click here", "read more", "learn more", "go here", "see more",
   "click", "details", "see details", "more", "see all", "view all"]

/-- LinkAuditor.EXCLUDED_PHRASES (and ButtonAuditor's identical copy). -/
def EXCLUDED_PHRASES : List String := ["learn more about us"]

/-- LinkAuditor.VALID_TLDS. -/
def VALID_TLDS : List String :=
  [".com", ".org", ".net", ".gov", ".edu", ".info", ".io", ".co", ".us", ".ca"]

/-- The per-anchor check of LinkAuditor.findInaccessibleLinks: vague trigger-phrase
text not containing an excluded phrase yields an `InaccessibleLink` finding. -/
def linkCheck (url : String) (a : Dnode) : List AuditResult :=
  let linkText := jsLower (jsTrim (textContent a))
  let href := (getAttr (attrsOf a) "href").getD ""
  if containsTriggerPhrase linkText TRIGGER_PHRASES then
    if containsExcludedPhrase linkText EXCLUDED_PHRASES then []
    else [⟨url, .inaccessibleLink, "", jsTrim (textContent a), href, ""⟩]
  else []

/-- LinkAuditor.isValidUrl: not an email-like token, and ends in a recognized TLD. -/
def isValidUrl (url : String) : Bool :=
  if strIncludes url "mailto:" || strIncludes url "@" then false
  else VALID_TLDS.any (fun tld => jsEndsWith (jsLower url) tld)

/-- The per-match step of LinkAuditor.findRawUrls: normalize to an https-prefixed URL
and keep it only when isValidUrl accepts it. -/
def rawUrlCheck (url rawUrl : String) : List AuditResult :=
  let fullUrl :=
    if !jsStartsWith rawUrl "http://" && !jsStartsWith rawUrl "https://" then
      "https://" ++ rawUrl
    else rawUrl
  if isValidUrl fullUrl then [⟨url, .inaccessibleLink, "", "", fullUrl, ""⟩] else []

/-- LinkAuditor.findRawUrls: scan `document.body.textContent` for raw URLs. -/
def findRawUrls (url : String) (doc : Dnode) (aborted : Bool) :
    Except JsError (List AuditResult) := do
  let _ ← checkAbortSignal aborted
  auditLoop aborted (rawUrlCheck url) (rawUrlMatches (textContent (docBody doc)))

/-- The try-block of LinkAuditor.audit: inaccessible links, then raw URLs. -/
def linkAuditBody (url : String) (fetched : Except JsError Dnode) (aborted : Bool) :
    Except JsError (List AuditResult) := do
  let _ ← checkAbortSignal aborted
  let doc ← fetched
  let r1 ← auditLoop aborted (linkCheck url)
    (selectAll (fun t a => t == "a" && (getAttr a "href").isSome) doc)
  let r2 ← findRawUrls url doc aborted
  .ok (r1 ++ r2)

/-- An attribute value passed through `?.trim()` and tested for truthiness. -/
def attrTrimmed (e : Dnode) (name : String) : Option String :=
  match getAttr (attrsOf e) name with
  | some v => if jsTrim v == "" then none else some (jsTrim v)
  | none => none

/-- ButtonAuditor.extractButtonLabel: aria-label, title, value, text content, then the
aria-labelledby-referenced element's text; first non-blank source wins, else `""`. -/
def extractButtonLabel (doc e : Dnode) : String :=
  match attrTrimmed e "aria-label" with
  | some v => v
  | none =>
    match attrTrimmed e "title" with
    | some v => v
    | none =>
      match attrTrimmed e "value" with
      | some v => v
      | none =>
        if jsTrim (textContent e) != "" then jsTrim (textContent e)
        else
          match getAttr (attrsOf e) "aria-labelledby" with
          | some labelledBy =>
              if labelledBy == "" then ""
              else
                match getElementById doc labelledBy with
                | some labelElement =>
                    if jsTrim (textContent labelElement) != "" then
                      jsTrim (textContent labelElement)
                    else ""
                | none => ""
          | none => ""

/-- ButtonAuditor.isIconOnlyButton: no label, and an SVG child, an icon-indicator class
name, or an image child. -/
def isIconOnlyButton (e : Dnode) (hasLabel : Bool) : Bool :=
  if hasLabel then false
  else
    let hasSvg := (selectFirst (fun t _ => t == "svg") e).isSome
    let className := (getAttr (attrsOf e) "class").getD ""
    let hasIconClass := strIncludes className "icon" || strIncludes className "fa-" ||
      strIncludes className "glyphicon" || strIncludes className "material-icons"
    let hasIconImage := (selectFirst (fun t _ => t == "img") e).isSome
    hasSvg || hasIconClass || hasIconImage

/-- The per-button check of ButtonAuditor.audit's forEach. -/
def buttonCheck (doc : Dnode) (url : String) (e : Dnode) : List AuditResult :=
  let label := extractButtonLabel doc e
  let labelText := jsLower (jsTrim label)
  let hasLabel := labelText != ""
  let isIconOnly := isIconOnlyButton e hasLabel
  let hasVagueLabel := hasLabel && containsTriggerPhrase labelText TRIGGER_PHRASES
  let isExcluded := containsExcludedPhrase labelText EXCLUDED_PHRASES
  if (isIconOnly || !hasLabel || hasVagueLabel) && !isExcluded then
    let details :=
      if isIconOnly then "Missing accessible label (icon-only)"
      else if !hasLabel then "Missing accessible label"
      else "Vague button label"
    [⟨url, .inaccessibleButton, details, label, "", ""⟩]
  else []

/-- The element list of ButtonAuditor.audit: all buttons, then all submit/button
inputs. -/
def buttonElements (doc : Dnode) : List Dnode :=
  selectAll (fun t _ => t == "button") doc ++
  selectAll (fun t a => t == "input" &&
    (getAttr a "type" == some "submit" || getAttr a "type" == some "button")) doc

/-- The try-block of ButtonAuditor.audit. -/
def buttonAuditBody (url : String) (fetched : Except JsError Dnode) (aborted : Bool) :
    Except JsError (List AuditResult) := do
  let _ ← checkAbortSignal aborted
  let doc ← fetched
  auditLoop aborted (buttonCheck doc url) (buttonElements doc)

/-- The try-block of HeadingAuditor.audit: collect h1-h6, re-check the signal, and emit
one finding when the level sequence is invalid, its details listing the full
sequence. -/
def headingAuditBody (url : String) (fetched : Except JsError Dnode) (aborted : Bool) :
    Except JsError (List AuditResult) := do
  let _ ← checkAbortSignal aborted
  let doc ← fetched
  let headings := selectAll (fun t _ =>
    t == "h1" || t == "h2" || t == "h3" || t == "h4" || t == "h5" || t == "h6") doc
  if headings.isEmpty then .ok []
  else do
    let _ ← checkAbortSignal aborted
    let sequence := headings.map (fun h => headingLevel (tagOf h))
    if !seqValid sequence then
      .ok [⟨url, .headingHierarchy,
            "Improper heading sequence: " ++
              joinSep ", " (sequence.map natToStr),
            "", "", ""⟩]
    else .ok []

/-- The record returned by AuditUtils.analyzeTableStructure. -/
structure TableStructure where
  hasCaption : Bool
  caption : String
  hasColumnHeaders : Bool
  hasRowHeaders : Bool
  deriving DecidableEq, Repr

/-- The first-row check of analyzeTableStructure: every cell of the first row is a
`th` (vacuously true for a row without cells, as `Array.every` is). -/
def firstRowAllTh (table : Dnode) : Bool :=
  match selectFirst (fun t _ => t == "tr") table with
  | some firstRow =>
      (selectDesc (fun t _ => t == "th" || t == "td") firstRow).all
        (fun cell => tagOf cell == "th")
  | none => false

/-- AuditUtils.analyzeTableStructure (baseAuditor.ts lines 203-235). -/
def analyzeTableStructure (table : Dnode) : TableStructure :=
  let captionEl := selectFirst (fun t _ => t == "caption") table
  let theadEl := selectFirst (fun t _ => t == "thead") table
  let hasColumnHeaders :=
    match theadEl with
    | some thead =>
        if !(selectDesc (fun t _ => t == "th") thead).isEmpty then true
        else firstRowAllTh table
    | none => firstRowAllTh table
  let hasRowHeaders := (selectDesc (fun t _ => t == "tr") table).any (fun tr =>
    !(selectDesc (fun t _ => t == "th") tr).isEmpty &&
    !(selectDesc (fun t _ => t == "td") tr).isEmpty)
  { hasCaption := captionEl.isSome
    caption := (captionEl.map (fun c => jsTrim (textContent c))).getD ""
    hasColumnHeaders := hasColumnHeaders
    hasRowHeaders := hasRowHeaders }

/-- The per-table step of TableAuditor.audit's forEach: one informational finding per
table. -/
def tableCheck (url : String) (table : Dnode) : AuditResult :=
  let tableInfo := analyzeTableStructure table
  let details :=
    "Caption: " ++ (if tableInfo.caption != "" then tableInfo.caption else "none") ++
    ", Row headers: " ++ (if tableInfo.hasRowHeaders then "yes" else "no") ++
    ", Column headers: " ++ (if tableInfo.hasColumnHeaders then "yes" else "no")
  ⟨url, .tableInfo, details, "", "", ""⟩

/-- The try-block of TableAuditor.audit. -/
def tableAuditBody (url : String) (fetched : Except JsError Dnode) (aborted : Bool) :
    Except JsError (List AuditResult) := do
  let _ ← checkAbortSignal aborted
  let doc ← fetched
  auditLoop aborted (fun t => [tableCheck url t]) (selectAll (fun t _ => t == "table") doc)

/-- DocumentAuditor.OFFICE_EXTENSIONS. -/
def OFFICE_EXTENSIONS : List String := [".doc", ".docx", ".xls", ".xlsx", ".ppt", ".pptx"]

/-- DocumentAuditor.resolveUrl models `new URL(href, baseUrl).href`: an absolute href
is returned as is, otherwise a crude join (the catch returns href unchanged).  No
theorem below exercises this resolution: the end-to-end scenario has no document
links. -/
def resolveUrl (href baseUrl : String) : String :=
  if jsStartsWith href "http://" || jsStartsWith href "https://" then href
  else baseUrl ++ "/" ++ href

/-- The per-anchor step of DocumentAuditor.audit's forEach: strip query/fragment, then
emit a PdfLink finding for `.pdf` and an OfficeLink finding for the first matching
office extension. -/
def docLinkCheck (url : String) (a : Dnode) : List AuditResult :=
  let href := (getAttr (attrsOf a) "href").getD ""
  let linkText := jsTrim (textContent a)
  let cleanHref := (jsSplitOn ((jsSplitOn href "?").headD "") "#").headD ""
  let pdfResults :=
    if jsEndsWith (jsLower cleanHref) ".pdf" then
      [⟨url, .pdfLink, "", linkText, resolveUrl href url, ""⟩]
    else []
  let officeResults :=
    match OFFICE_EXTENSIONS.find? (fun ext => jsEndsWith (jsLower cleanHref) ext) with
    | some _ => [⟨url, .officeLink, "", linkText, resolveUrl href url, ""⟩]
    | none => []
  pdfResults ++ officeResults

/-- The try-block of DocumentAuditor.audit. -/
def docLinkAuditBody (url : String) (fetched : Except JsError Dnode) (aborted : Bool) :
    Except JsError (List AuditResult) := do
  let _ ← checkAbortSignal aborted
  let doc ← fetched
  auditLoop aborted (docLinkCheck url)
    (selectAll (fun t a => t == "a" && (getAttr a "href").isSome) doc)

/-- The six auditors, tagged; the constructor order matches the order in which
AuditEngine's constructor instantiates them (auditEngine.ts lines 32-39). -/
inductive AuditorKind
  | image | link | button | heading | table | docLink
  deriving DecidableEq, Repr

/-- The try-block of the given auditor's audit method. -/
def auditBody : AuditorKind → String → Except JsError Dnode → Bool →
    Except JsError (List AuditResult)
  | .image => imageAuditBody
  | .link => linkAuditBody
  | .button => buttonAuditBody
  | .heading => headingAuditBody
  | .table => tableAuditBody
  | .docLink => docLinkAuditBody

/-- An auditor's audit method: the try-block wrapped in
`catch (error) { return this.handleError(error, url) }`. -/
def audit (k : AuditorKind) (url : String) (fetched : Except JsError Dnode)
    (aborted : Bool) : Except JsError (List AuditResult) :=
  match auditBody k url fetched aborted with
  | .ok r => .ok r
  | .error e => .ok (handleError e url)

/-- The value of the resolved promise `await auditor.audit(url, signal)`: total,
because audit never rejects. -/
def auditRun (k : AuditorKind) (url : String) (fetched : Except JsError Dnode)
    (aborted : Bool) : List AuditResult :=
  match audit k url fetched aborted with
  | .ok r => r
  | .error _ => []

/-! ## The rate-limited scheduler (src/lib/rateLimiter.ts)

`RateLimiter.processItems` runs on the single-threaded JavaScript event loop.  We model
one run as a transition system.  A state carries the limiter's fields
(`activeRequests`, `isPaused`, `isCancelled`), the run-local claim cursor `completed`,
the promise's settlement, the multiset of runnable continuations (`tasks`), the shared
state of the worker (`eng`), and a ghost event trace.  One step executes one
synchronous segment (the code between two `await`/`setTimeout` suspension points) of
one continuation, chosen nondeterministically — exactly the schedules the event loop
can produce — or is an environment action (`pause`/`resume`/`cancel` called by the
limiter's owner).

The worker (the `processor` callback) is an arbitrary machine: `init i` is the state of
the freshly invoked `processor(items[i])`, and `step i w eng aborted` executes one
synchronous segment of it, returning the updated shared state, the continuation (`none`
once the worker's promise settles — a worker that throws is caught by the limiter's
`try/catch`, so settling by throwing and settling normally are indistinguishable here),
and the callback events it emitted. -/

/-- An event emitted by a worker: an `onProgress` or `onResults` callback invocation of
the engine's processUrl (the `isEnd` flag distinguishes the start-of-processing
progress event from the end-of-processing one). -/
inductive WEv
  | progress (isEnd : Bool) (currentUrl : String) (completed total : Nat)
  | results (rs : List AuditResult)
  deriving DecidableEq, Repr

/-- A ghost-trace entry: an item dispatch, an environment action marker, a worker event
tagged with the item index of the emitting worker, or an engine-level callback
(`onError`, `onComplete`). -/
inductive TraceEv
  | dispatch (i : Nat)
  | cancelMark
  | pauseMark (p : Bool)
  | wev (i : Nat) (e : WEv)
  | errorEv (url msg : String)
  | complete
  deriving DecidableEq, Repr

/-- A worker machine: the `processor` callback handed to processItems, broken at its
suspension points, plus the effect `pause()/resume()` of the limiter's owner on the
worker-shared state. -/
structure WorkerM (σ ω : Type) where
  init : Nat → ω
  step : Nat → ω → σ → Bool → σ × Option ω × List WEv
  pauseHook : Bool → σ → σ

/-- A runnable continuation of one processItems run:
* `entry` — a `processNext` invocation at its top (queued by the initial dispatch loop
  or by the `setTimeout(processNext, 0)` in the `finally` block);
* `pwait` — a `processNext` sleeping inside the pause polling loop (lines 40-42);
* `delay` — the `finally` block sleeping in the inter-batch delay (line 66);
* `work i w` — the in-flight worker for item `i`, at worker state `w`;
* `fin i` — the `finally` block of `await processor(item)` for item `i`, about to run
  (the worker's promise has settled);
* `econt` — the continuation of the caller awaiting the processItems promise
  (`AuditEngine.startAudit` lines 56-67). -/
inductive LTask (ω : Type)
  | entry
  | pwait
  | delay
  | work (i : Nat) (w : ω)
  | fin (i : Nat)
  | econt
  deriving DecidableEq, Repr

/-- The state of one processItems run.  `n` is `items.length`, `completed` the claim
cursor of the same name (line 30; it counts claimed, i.e. dispatched, items),
`delayPos` the fact `delayBetweenBatches > 0`, `aborted` the external signal, and
`settled` the promise settlement (`none` pending, `some none` resolved, `some (some e)`
rejected with `e`). -/
structure LState (σ ω : Type) where
  n : Nat
  maxConcurrent : Nat
  delayPos : Bool
  completed : Nat
  activeRequests : Nat
  isPaused : Bool
  isCancelled : Bool
  aborted : Bool
  settled : Option (Option JsError)
  tasks : List (LTask ω)
  eng : σ
  trace : List TraceEv
  deriving DecidableEq, Repr

/-- Queue a continuation. -/
def pushT (s : LState σ ω) (t : LTask ω) : LState σ ω := {s with tasks := t :: s.tasks}

/-- Append ghost-trace events. -/
def emitT (s : LState σ ω) (evs : List TraceEv) : LState σ ω :=
  {s with trace := s.trace ++ evs}

/-- The call `resolve()` (line 45): settles the promise if still pending and schedules
the awaiting caller's continuation. -/
def resolveP (s : LState σ ω) : LState σ ω :=
  match s.settled with
  | none => pushT {s with settled := some none} .econt
  | some _ => s

/-- The call `reject(new Error('Processing cancelled'))` (line 35): the rejection value
is a plain `Error`, whose `name` property is `"Error"`. -/
def rejectP (s : LState σ ω) : LState σ ω :=
  match s.settled with
  | none =>
      pushT {s with settled := some (some ⟨"Error", "Processing cancelled"⟩)} .econt
  | some _ => s

/-- Lines 44-55 of processNext: the completion check, the concurrency gate, and the
claim-and-dispatch (`const item = items[completed]; completed++; activeRequests++`),
which runs synchronously and atomically. -/
def claimLogic (M : WorkerM σ ω) (s : LState σ ω) : LState σ ω :=
  if s.n ≤ s.completed then resolveP s
  else if s.maxConcurrent ≤ s.activeRequests then s
  else
    { s with completed := s.completed + 1, activeRequests := s.activeRequests + 1,
             tasks := LTask.work s.completed (M.init s.completed) :: s.tasks,
             trace := s.trace ++ [TraceEv.dispatch s.completed] }

/-- Execute one synchronous segment of the given continuation (which has been removed
from the task queue; continuations it schedules are queued again). -/
def applyTask (M : WorkerM σ ω) (s : LState σ ω) : LTask ω → LState σ ω
  | .entry =>
      if s.isCancelled || s.aborted then rejectP s
      else if s.isPaused then pushT s .pwait
      else claimLogic M s
  | .pwait =>
      if s.isPaused && !s.isCancelled && !s.aborted then pushT s .pwait
      else claimLogic M s
  | .delay => pushT s .entry
  | .work i w =>
      match M.step i w s.eng s.aborted with
      | (eng2, some w2, evs) =>
          pushT (emitT {s with eng := eng2} (evs.map (TraceEv.wev i))) (.work i w2)
      | (eng2, none, evs) =>
          pushT (emitT {s with eng := eng2} (evs.map (TraceEv.wev i))) (.fin i)
  | .fin _ =>
      let s2 := {s with activeRequests := s.activeRequests - 1}
      if s2.delayPos && s2.activeRequests == 0 && decide (s2.completed < s2.n) then
        pushT s2 .delay
      else pushT s2 .entry
  | .econt =>
      match s.settled with
      | some none => emitT s [TraceEv.complete]
      | some (some e) =>
          if e.name ≠ "AbortError" then emitT s [TraceEv.errorEv "system" e.message]
          else s
      | none => s

/-- One step of the event loop: run one queued continuation, or an environment action.
`setPause` models `pause()`/`resume()` called on both the engine and the limiter (the
hook updates the worker-shared state); `cancel` models `AuditEngine.cancel()`, which
aborts the signal and sets the limiter's `isCancelled` in one synchronous call. -/
inductive Step (M : WorkerM σ ω) : LState σ ω → LState σ ω → Prop
  | task (s : LState σ ω) (l₁ l₂ : List (LTask ω)) (t : LTask ω) :
      s.tasks = l₁ ++ t :: l₂ →
      Step M s (applyTask M {s with tasks := l₁ ++ l₂} t)
  | setPause (s : LState σ ω) (p : Bool) :
      Step M s {s with isPaused := p, eng := M.pauseHook p s.eng,
                       trace := s.trace ++ [TraceEv.pauseMark p]}
  | cancel (s : LState σ ω) :
      Step M s {s with isCancelled := true, aborted := true,
                       trace := s.trace ++ [TraceEv.cancelMark]}

/-- Reachability under the event-loop step relation. -/
def Reach (M : WorkerM σ ω) : LState σ ω → LState σ ω → Prop :=
  Relation.ReflTransGen (Step M)

/-- The state of a processItems run right after the initial dispatch loop (lines
74-77) has queued its `min(maxConcurrent, items.length)` synchronous `processNext()`
calls: `isCancelled` was just reset (line 27) and nothing has been claimed. -/
def initState (n maxConcurrent : Nat) (delayPos : Bool) (eng0 : σ) : LState σ ω :=
  { n := n, maxConcurrent := maxConcurrent, delayPos := delayPos, completed := 0,
    activeRequests := 0, isPaused := false, isCancelled := false, aborted := false,
    settled := none, tasks := List.replicate (min maxConcurrent n) .entry,
    eng := eng0, trace := [] }

/-- Is this task an in-flight worker? -/
def isWork : LTask ω → Bool
  | .work _ _ => true
  | _ => false

/-- Is this task an in-flight worker or a pending `finally` block (either way the
code's `activeRequests` counter still counts it)? -/
def isWF : LTask ω → Bool
  | .work _ _ => true
  | .fin _ => true
  | _ => false

/-- The number of workers currently running (invocations of the processor whose
promise has not settled). -/
def countWork (ts : List (LTask ω)) : Nat := ts.countP (fun t => isWork t)

/-- The number of tasks the `activeRequests` counter accounts for. -/
def countWF (ts : List (LTask ω)) : Nat := ts.countP (fun t => isWF t)

/-- The sequence of item indices claimed so far, in claim order. -/
def dispatches (tr : List TraceEv) : List Nat :=
  tr.filterMap (fun e => match e with | .dispatch i => some i | _ => none)

/-! ## The scheduler's master invariant -/

theorem dispatches_append (a b : List TraceEv) :
    dispatches (a ++ b) = dispatches a ++ dispatches b :=
  List.filterMap_append a b _

theorem dispatches_wevs (i : Nat) (evs : List WEv) :
    dispatches (evs.map (TraceEv.wev i)) = [] := by
  induction evs with
  | nil => rfl
  | cons e rest ih => simpa [dispatches, List.filterMap_cons] using ih

theorem countP_middle (l₁ l₂ : List (LTask ω)) (t : LTask ω) (p : LTask ω → Bool) :
    (l₁ ++ t :: l₂).countP p = (l₁ ++ l₂).countP p + if p t then 1 else 0 := by
  simp only [List.countP_append, List.countP_cons]
  omega

theorem mem_of_mem_removed {l₁ l₂ : List (LTask ω)} {t x : LTask ω}
    (h : x ∈ l₁ ++ l₂) : x ∈ l₁ ++ t :: l₂ := by
  simp only [List.mem_append, List.mem_cons] at h ⊢
  tauto

theorem ne_nil_of_countP_pos {l : List (LTask ω)} {p : LTask ω → Bool}
    (h : 0 < l.countP p) : l ≠ [] := by
  intro he
  subst he
  simp at h

/-- The (inductive) master invariant of one processItems run:
* the active-request counter never exceeds `maxConcurrent` and counts exactly the
  workers in flight plus the pending `finally` blocks;
* the claim cursor never exceeds the item count, and the claim ghost trace is exactly
  `0, 1, ..., completed-1` in order — every claimed item was claimed once, in index
  order, with none skipped;
* the promise resolves only with every item claimed, and rejects only after
  cancellation or an abort;
* the awaiting caller's continuation exists only once the promise has settled;
* and while unclaimed items remain in a non-cancelled run with `maxConcurrent ≥ 1`,
  some continuation is still runnable (no silent deadlock). -/
structure LInv (s : LState σ ω) : Prop where
  hact : s.activeRequests ≤ s.maxConcurrent
  hwf : countWF s.tasks = s.activeRequests
  hcl : s.completed ≤ s.n
  hdisp : dispatches s.trace = List.range s.completed
  hres : s.settled = some none → s.completed = s.n
  hrej : ∀ e, s.settled = some (some e) → s.isCancelled = true ∨ s.aborted = true
  hecont : LTask.econt ∈ s.tasks → s.settled ≠ none
  hprog : s.isCancelled = false → s.aborted = false → s.completed < s.n →
      1 ≤ s.maxConcurrent → s.tasks ≠ []

/-! ### Small bookkeeping lemmas -/

theorem isWF_entry : isWF (LTask.entry : LTask ω) = false := rfl
theorem isWF_pwait : isWF (LTask.pwait : LTask ω) = false := rfl
theorem isWF_delay : isWF (LTask.delay : LTask ω) = false := rfl
theorem isWF_econt : isWF (LTask.econt : LTask ω) = false := rfl
theorem isWF_work (i : Nat) (w : ω) : isWF (LTask.work i w) = true := rfl
theorem isWF_fin (i : Nat) : isWF (LTask.fin i : LTask ω) = true := rfl

attribute [simp] isWF_entry isWF_pwait isWF_delay isWF_econt isWF_work isWF_fin

theorem dispatches_dispatch (i : Nat) (tr : List TraceEv) :
    dispatches (TraceEv.dispatch i :: tr) = i :: dispatches tr := rfl
theorem dispatches_cancelMark (tr : List TraceEv) :
    dispatches (TraceEv.cancelMark :: tr) = dispatches tr := rfl
theorem dispatches_pauseMark (p : Bool) (tr : List TraceEv) :
    dispatches (TraceEv.pauseMark p :: tr) = dispatches tr := rfl
theorem dispatches_wev (i : Nat) (e : WEv) (tr : List TraceEv) :
    dispatches (TraceEv.wev i e :: tr) = dispatches tr := rfl
theorem dispatches_errorEv (u m : String) (tr : List TraceEv) :
    dispatches (TraceEv.errorEv u m :: tr) = dispatches tr := rfl
theorem dispatches_complete (tr : List TraceEv) :
    dispatches (TraceEv.complete :: tr) = dispatches tr := rfl
theorem dispatches_nil : dispatches ([] : List TraceEv) = [] := rfl

attribute [simp] dispatches_dispatch dispatches_cancelMark dispatches_pauseMark
  dispatches_wev dispatches_errorEv dispatches_complete dispatches_nil
  dispatches_append dispatches_wevs

theorem econt_mem_cons {t : LTask ω} {l : List (LTask ω)} (hne : t ≠ LTask.econt)
    (h : LTask.econt ∈ t :: l) : LTask.econt ∈ l := by
  rcases List.mem_cons.mp h with hh | hh
  · exact absurd hh.symm hne
  · exact hh

theorem countWF_middle_plain {l₁ l₂ : List (LTask ω)} {t : LTask ω} (ht : isWF t = false) :
    countWF (l₁ ++ t :: l₂) = countWF (l₁ ++ l₂) := by
  simp [countWF, List.countP_append, List.countP_cons, ht]

theorem countWF_middle_wf {l₁ l₂ : List (LTask ω)} {t : LTask ω} (ht : isWF t = true) :
    countWF (l₁ ++ t :: l₂) = countWF (l₁ ++ l₂) + 1 := by
  simp only [countWF, List.countP_append, List.countP_cons, ht, if_true]
  omega

/-- The settlement equations of resolveP and rejectP. -/
theorem resolveP_none {b : LState σ ω} (h : b.settled = none) :
    resolveP b = pushT {b with settled := some none} LTask.econt := by
  unfold resolveP
  rw [h]

theorem resolveP_some {b : LState σ ω} {v : Option JsError} (h : b.settled = some v) :
    resolveP b = b := by
  unfold resolveP
  rw [h]

theorem rejectP_none {b : LState σ ω} (h : b.settled = none) :
    rejectP b =
      pushT {b with settled := some (some ⟨"Error", "Processing cancelled"⟩)}
        LTask.econt := by
  unfold rejectP
  rw [h]

theorem rejectP_some {b : LState σ ω} {v : Option JsError} (h : b.settled = some v) :
    rejectP b = b := by
  unfold rejectP
  rw [h]

/-- resolveP preserves the invariant when every item has been claimed. -/
theorem LInv_resolveP {b : LState σ ω}
    (hact : b.activeRequests ≤ b.maxConcurrent)
    (hwf : countWF b.tasks = b.activeRequests)
    (hcl : b.completed ≤ b.n)
    (hdisp : dispatches b.trace = List.range b.completed)
    (hrej : ∀ e, b.settled = some (some e) → b.isCancelled = true ∨ b.aborted = true)
    (hecont : LTask.econt ∈ b.tasks → b.settled ≠ none)
    (hn : b.n ≤ b.completed) :
    LInv (resolveP b) := by
  have hceq : b.completed = b.n := Nat.le_antisymm hcl hn
  cases hset : b.settled with
  | none =>
      rw [resolveP_none hset]
      refine ⟨hact, ?_, hcl, hdisp, fun _ => hceq, ?_, ?_, ?_⟩
      · show countWF (LTask.econt :: b.tasks) = b.activeRequests
        simp [countWF, List.countP_cons] at hwf ⊢
        omega
      · intro e he
        exact absurd he (by simp [pushT])
      · intro _
        simp [pushT]
      · intro _ _ hlt _
        have hltx : b.completed < b.n := hlt
        omega
  | some v =>
      rw [resolveP_some hset]
      exact ⟨hact, hwf, hcl, hdisp, fun _ => hceq, hrej, hecont,
        fun _ _ hlt _ => by omega⟩

/-- rejectP preserves the invariant under cancellation or abort. -/
theorem LInv_rejectP {b : LState σ ω}
    (hact : b.activeRequests ≤ b.maxConcurrent)
    (hwf : countWF b.tasks = b.activeRequests)
    (hcl : b.completed ≤ b.n)
    (hdisp : dispatches b.trace = List.range b.completed)
    (hres : b.settled = some none → b.completed = b.n)
    (hrej : ∀ e, b.settled = some (some e) → b.isCancelled = true ∨ b.aborted = true)
    (hecont : LTask.econt ∈ b.tasks → b.settled ≠ none)
    (hca : b.isCancelled = true ∨ b.aborted = true) :
    LInv (rejectP b) := by
  have hflags : ∀ {q : Prop}, b.isCancelled = false → b.aborted = false → q := by
    intro q h1 h2
    rcases hca with hh | hh
    · rw [h1] at hh
      cases hh
    · rw [h2] at hh
      cases hh
  cases hset : b.settled with
  | none =>
      rw [rejectP_none hset]
      refine ⟨hact, ?_, hcl, hdisp, ?_, ?_, ?_, ?_⟩
      · show countWF (LTask.econt :: b.tasks) = b.activeRequests
        simp [countWF, List.countP_cons] at hwf ⊢
        omega
      · intro hv
        exact absurd hv (by simp [pushT])
      · intro e _
        exact hca
      · intro _
        simp [pushT]
      · intro h1 h2 _ _
        exact hflags h1 h2
  | some v =>
      rw [rejectP_some hset]
      exact ⟨hact, hwf, hcl, hdisp, hres, hrej, hecont,
        fun h1 h2 _ _ => hflags h1 h2⟩

/-- claimLogic preserves the invariant. -/
theorem LInv_claimLogic {M : WorkerM σ ω} {b : LState σ ω}
    (hact : b.activeRequests ≤ b.maxConcurrent)
    (hwf : countWF b.tasks = b.activeRequests)
    (hcl : b.completed ≤ b.n)
    (hdisp : dispatches b.trace = List.range b.completed)
    (hres : b.settled = some none → b.completed = b.n)
    (hrej : ∀ e, b.settled = some (some e) → b.isCancelled = true ∨ b.aborted = true)
    (hecont : LTask.econt ∈ b.tasks → b.settled ≠ none) :
    LInv (claimLogic M b) := by
  unfold claimLogic
  by_cases hn : b.n ≤ b.completed
  · rw [if_pos hn]
    exact LInv_resolveP hact hwf hcl hdisp hrej hecont hn
  · rw [if_neg hn]
    by_cases hgate : b.maxConcurrent ≤ b.activeRequests
    · rw [if_pos hgate]
      refine ⟨hact, hwf, hcl, hdisp, hres, hrej, hecont, ?_⟩
      intro _ _ _ hm
      have hpos : 0 < countWF b.tasks := by omega
      exact ne_nil_of_countP_pos hpos
    · rw [if_neg hgate]
      refine ⟨?_, ?_, ?_, ?_, ?_, ?_, ?_, ?_⟩
      · show b.activeRequests + 1 ≤ b.maxConcurrent
        omega
      · show countWF (LTask.work b.completed (M.init b.completed) :: b.tasks) =
          b.activeRequests + 1
        simp [countWF, List.countP_cons] at hwf ⊢
        omega
      · show b.completed + 1 ≤ b.n
        omega
      · show dispatches (b.trace ++ [TraceEv.dispatch b.completed]) =
          List.range (b.completed + 1)
        rw [dispatches_append, hdisp, List.range_succ]
        rfl
      · intro hv
        have := hres hv
        omega
      · intro e he
        exact hrej e he
      · intro hm
        exact hecont (econt_mem_cons (by simp) hm)
      · intro _ _ _ _
        simp

/-- claimLogic after popping a plain (non-worker, non-caller) continuation. -/
theorem LInv_claimpop {M : WorkerM σ ω} {s : LState σ ω} {l₁ l₂ : List (LTask ω)}
    {t : LTask ω} (hsplit : s.tasks = l₁ ++ t :: l₂) (ht : isWF t = false)
    (hte : t ≠ LTask.econt)
    (hact : s.activeRequests ≤ s.maxConcurrent)
    (hwf : countWF s.tasks = s.activeRequests)
    (hcl : s.completed ≤ s.n)
    (hdisp : dispatches s.trace = List.range s.completed)
    (hres : s.settled = some none → s.completed = s.n)
    (hrej : ∀ e, s.settled = some (some e) → s.isCancelled = true ∨ s.aborted = true)
    (hecont : LTask.econt ∈ s.tasks → s.settled ≠ none) :
    LInv (claimLogic M {s with tasks := l₁ ++ l₂}) := by
  apply LInv_claimLogic
  · exact hact
  · show countWF (l₁ ++ l₂) = s.activeRequests
    rw [← hwf, hsplit, countWF_middle_plain ht]
  · exact hcl
  · exact hdisp
  · exact hres
  · exact hrej
  · intro hm
    refine hecont ?_
    rw [hsplit]
    exact mem_of_mem_removed hm

/-- rejectP after popping a plain continuation, under cancellation or abort. -/
theorem LInv_rejectpop {s : LState σ ω} {l₁ l₂ : List (LTask ω)}
    {t : LTask ω} (hsplit : s.tasks = l₁ ++ t :: l₂) (ht : isWF t = false)
    (hact : s.activeRequests ≤ s.maxConcurrent)
    (hwf : countWF s.tasks = s.activeRequests)
    (hcl : s.completed ≤ s.n)
    (hdisp : dispatches s.trace = List.range s.completed)
    (hres : s.settled = some none → s.completed = s.n)
    (hrej : ∀ e, s.settled = some (some e) → s.isCancelled = true ∨ s.aborted = true)
    (hecont : LTask.econt ∈ s.tasks → s.settled ≠ none)
    (hca : s.isCancelled = true ∨ s.aborted = true) :
    LInv (rejectP {s with tasks := l₁ ++ l₂}) := by
  apply LInv_rejectP
  · exact hact
  · show countWF (l₁ ++ l₂) = s.activeRequests
    rw [← hwf, hsplit, countWF_middle_plain ht]
  · exact hcl
  · exact hdisp
  · exact hres
  · exact hrej
  · intro hm
    refine hecont ?_
    rw [hsplit]
    exact mem_of_mem_removed hm
  · exact hca

/-- One event-loop step preserves the master invariant. -/
theorem LInv_step {M : WorkerM σ ω} {s s2 : LState σ ω} (h : LInv s) (hs : Step M s s2) :
    LInv s2 := by
  obtain ⟨hact, hwf, hcl, hdisp, hres, hrej, hecont, hprog⟩ := h
  cases hs with
  | setPause p =>
      refine ⟨hact, hwf, hcl, ?_, hres, hrej, hecont, fun a b c d => hprog a b c d⟩
      show dispatches (s.trace ++ [TraceEv.pauseMark p]) = List.range s.completed
      simp [hdisp]
  | cancel =>
      refine ⟨hact, hwf, hcl, ?_, hres, fun e _ => Or.inl rfl, hecont, ?_⟩
      · show dispatches (s.trace ++ [TraceEv.cancelMark]) = List.range s.completed
        simp [hdisp]
      · intro h1 _ _ _
        exact Bool.noConfusion h1
  | task l₁ l₂ t hsplit =>
      cases t with
      | entry =>
          show LInv (applyTask M {s with tasks := l₁ ++ l₂} LTask.entry)
          simp only [applyTask]
          split
          next hca =>
            have hcax : (s.isCancelled || s.aborted) = true := hca
            refine LInv_rejectpop hsplit rfl hact hwf hcl hdisp hres hrej hecont ?_
            rcases Bool.or_eq_true_iff.mp hcax with hh | hh
            · exact Or.inl hh
            · exact Or.inr hh
          next =>
            split
            next =>
              refine ⟨hact, ?_, hcl, hdisp, hres, hrej, ?_, ?_⟩
              · show countWF (LTask.pwait :: (l₁ ++ l₂)) = s.activeRequests
                rw [← hwf, hsplit]
                simp [countWF, List.countP_append, List.countP_cons] <;> omega
              · intro hm
                refine hecont ?_
                rw [hsplit]
                exact mem_of_mem_removed (econt_mem_cons (by simp) hm)
              · intro _ _ _ _
                simp [pushT]
            next =>
              exact LInv_claimpop hsplit rfl (by simp) hact hwf hcl hdisp hres hrej hecont
      | pwait =>
          show LInv (applyTask M {s with tasks := l₁ ++ l₂} LTask.pwait)
          simp only [applyTask]
          split
          next =>
            refine ⟨hact, ?_, hcl, hdisp, hres, hrej, ?_, ?_⟩
            · show countWF (LTask.pwait :: (l₁ ++ l₂)) = s.activeRequests
              rw [← hwf, hsplit]
              simp [countWF, List.countP_append, List.countP_cons] <;> omega
            · intro hm
              refine hecont ?_
              rw [hsplit]
              exact mem_of_mem_removed (econt_mem_cons (by simp) hm)
            · intro _ _ _ _
              simp [pushT]
          next =>
            exact LInv_claimpop hsplit rfl (by simp) hact hwf hcl hdisp hres hrej hecont
      | delay =>
          show LInv (applyTask M {s with tasks := l₁ ++ l₂} LTask.delay)
          simp only [applyTask]
          refine ⟨hact, ?_, hcl, hdisp, hres, hrej, ?_, ?_⟩
          · show countWF (LTask.entry :: (l₁ ++ l₂)) = s.activeRequests
            rw [← hwf, hsplit]
            simp [countWF, List.countP_append, List.countP_cons] <;> omega
          · intro hm
            refine hecont ?_
            rw [hsplit]
            exact mem_of_mem_removed (econt_mem_cons (by simp) hm)
          · intro _ _ _ _
            simp [pushT]
      | work i w =>
          show LInv (applyTask M {s with tasks := l₁ ++ l₂} (LTask.work i w))
          simp only [applyTask]
          split
          next eng2 w2 evs heq =>
            refine ⟨hact, ?_, hcl, ?_, hres, hrej, ?_, ?_⟩
            · show countWF (LTask.work i w2 :: (l₁ ++ l₂)) = s.activeRequests
              rw [← hwf, hsplit]
              simp [countWF, List.countP_append, List.countP_cons] <;> omega
            · show dispatches (s.trace ++ evs.map (TraceEv.wev i)) =
                List.range s.completed
              simp [hdisp]
            · intro hm
              refine hecont ?_
              rw [hsplit]
              exact mem_of_mem_removed (econt_mem_cons (by simp) hm)
            · intro _ _ _ _
              simp [pushT, emitT]
          next eng2 evs heq =>
            refine ⟨hact, ?_, hcl, ?_, hres, hrej, ?_, ?_⟩
            · show countWF (LTask.fin i :: (l₁ ++ l₂)) = s.activeRequests
              rw [← hwf, hsplit]
              simp [countWF, List.countP_append, List.countP_cons] <;> omega
            · show dispatches (s.trace ++ evs.map (TraceEv.wev i)) =
                List.range s.completed
              simp [hdisp]
            · intro hm
              refine hecont ?_
              rw [hsplit]
              exact mem_of_mem_removed (econt_mem_cons (by simp) hm)
            · intro _ _ _ _
              simp [pushT, emitT]
      | fin i =>
          show LInv (applyTask M {s with tasks := l₁ ++ l₂} (LTask.fin i))
          simp only [applyTask]
          have hwfb : countWF (l₁ ++ l₂) + 1 = s.activeRequests := by
            rw [← hwf, hsplit, countWF_middle_wf (isWF_fin i)]
          split
          next =>
            refine ⟨?_, ?_, hcl, hdisp, hres, hrej, ?_, ?_⟩
            · show s.activeRequests - 1 ≤ s.maxConcurrent
              omega
            · show countWF (LTask.delay :: (l₁ ++ l₂)) = s.activeRequests - 1
              simp [countWF, List.countP_append, List.countP_cons] at hwfb ⊢ <;> omega
            · intro hm
              refine hecont ?_
              rw [hsplit]
              exact mem_of_mem_removed (econt_mem_cons (by simp) hm)
            · intro _ _ _ _
              simp [pushT]
          next =>
            refine ⟨?_, ?_, hcl, hdisp, hres, hrej, ?_, ?_⟩
            · show s.activeRequests - 1 ≤ s.maxConcurrent
              omega
            · show countWF (LTask.entry :: (l₁ ++ l₂)) = s.activeRequests - 1
              simp [countWF, List.countP_append, List.countP_cons] at hwfb ⊢ <;> omega
            · intro hm
              refine hecont ?_
              rw [hsplit]
              exact mem_of_mem_removed (econt_mem_cons (by simp) hm)
            · intro _ _ _ _
              simp [pushT]
      | econt =>
          have hsome : s.settled ≠ none := hecont (by rw [hsplit]; simp)
          have hwfb : countWF (l₁ ++ l₂) = s.activeRequests := by
            rw [← hwf, hsplit, countWF_middle_plain isWF_econt]
          show LInv (applyTask M {s with tasks := l₁ ++ l₂} LTask.econt)
          simp only [applyTask]
          split
          next heq =>
            refine ⟨hact, hwfb, hcl, ?_, hres, hrej, ?_, ?_⟩
            · show dispatches (s.trace ++ [TraceEv.complete]) = List.range s.completed
              simp [hdisp]
            · intro hm
              refine hecont ?_
              rw [hsplit]
              exact mem_of_mem_removed hm
            · intro _ _ hlt _
              have hltx : s.completed < s.n := hlt
              have hx : s.completed = s.n := hres heq
              omega
          next e heq =>
            split
            next =>
              refine ⟨hact, hwfb, hcl, ?_, hres, hrej, ?_, ?_⟩
              · show dispatches (s.trace ++ [TraceEv.errorEv "system" e.message]) =
                  List.range s.completed
                simp [hdisp]
              · intro hm
                refine hecont ?_
                rw [hsplit]
                exact mem_of_mem_removed hm
              · intro h1 h2 _ _
                have h1x : s.isCancelled = false := h1
                have h2x : s.aborted = false := h2
                rcases hrej e heq with hh | hh
                · rw [h1x] at hh
                  exact Bool.noConfusion hh
                · rw [h2x] at hh
                  exact Bool.noConfusion hh
            next =>
              refine ⟨hact, hwfb, hcl, hdisp, hres, hrej, ?_, ?_⟩
              · intro hm
                refine hecont ?_
                rw [hsplit]
                exact mem_of_mem_removed hm
              · intro h1 h2 _ _
                have h1x : s.isCancelled = false := h1
                have h2x : s.aborted = false := h2
                rcases hrej e heq with hh | hh
                · rw [h1x] at hh
                  exact Bool.noConfusion hh
                · rw [h2x] at hh
                  exact Bool.noConfusion hh
          next heq =>
            exact absurd heq hsome

/-- The master invariant holds at the initial state. -/
theorem LInv_init (n maxC : Nat) (d : Bool) (eng0 : σ) :
    LInv (initState n maxC d eng0 : LState σ ω) := by
  refine ⟨?_, ?_, ?_, rfl, ?_, ?_, ?_, ?_⟩
  · show 0 ≤ maxC
    omega
  · show countWF (List.replicate (min maxC n) (LTask.entry : LTask ω)) = 0
    induction (min maxC n) with
    | zero => rfl
    | succ k ih =>
        simpa [List.replicate_succ, countWF, List.countP_cons] using ih
  · show 0 ≤ n
    omega
  · intro hv
    exact Option.noConfusion hv
  · intro e he
    exact Option.noConfusion he
  · intro hm
    have hx := List.eq_of_mem_replicate hm
    exact absurd hx (by simp)
  · intro _ _ hlt hmc
    have hltx : (0 : Nat) < n := hlt
    have hmcx : 1 ≤ maxC := hmc
    have hpos : 0 < min maxC n := by omega
    show List.replicate (min maxC n) (LTask.entry : LTask ω) ≠ []
    intro he
    have hlen := congrArg List.length he
    simp at hlen
    omega

/-- The master invariant holds in every reachable state. -/
theorem LInv_reach {M : WorkerM σ ω} {s0 s : LState σ ω} (h0 : LInv s0)
    (hr : Reach M s0 s) : LInv s := by
  induction hr with
  | refl => exact h0
  | tail _ hstep ih => exact LInv_step ih hstep

theorem resolveP_consts (b : LState σ ω) :
    (resolveP b).n = b.n ∧ (resolveP b).maxConcurrent = b.maxConcurrent ∧
      (resolveP b).delayPos = b.delayPos := by
  unfold resolveP
  split <;> exact ⟨rfl, rfl, rfl⟩

theorem rejectP_consts (b : LState σ ω) :
    (rejectP b).n = b.n ∧ (rejectP b).maxConcurrent = b.maxConcurrent ∧
      (rejectP b).delayPos = b.delayPos := by
  unfold rejectP
  split <;> exact ⟨rfl, rfl, rfl⟩

theorem claimLogic_consts (M : WorkerM σ ω) (b : LState σ ω) :
    (claimLogic M b).n = b.n ∧ (claimLogic M b).maxConcurrent = b.maxConcurrent ∧
      (claimLogic M b).delayPos = b.delayPos := by
  unfold claimLogic
  split
  · exact resolveP_consts b
  · split
    · exact ⟨rfl, rfl, rfl⟩
    · exact ⟨rfl, rfl, rfl⟩

/-- No step changes the run's configuration (item count, concurrency cap, delay). -/
theorem applyTask_consts (M : WorkerM σ ω) (b : LState σ ω) (t : LTask ω) :
    (applyTask M b t).n = b.n ∧ (applyTask M b t).maxConcurrent = b.maxConcurrent ∧
      (applyTask M b t).delayPos = b.delayPos := by
  cases t with
  | entry =>
      simp only [applyTask]
      split
      · exact rejectP_consts _
      · split
        · exact ⟨rfl, rfl, rfl⟩
        · exact claimLogic_consts M _
  | pwait =>
      simp only [applyTask]
      split
      · exact ⟨rfl, rfl, rfl⟩
      · exact claimLogic_consts M _
  | delay => exact ⟨rfl, rfl, rfl⟩
  | work i w =>
      simp only [applyTask]
      split <;> exact ⟨rfl, rfl, rfl⟩
  | fin i =>
      simp only [applyTask]
      split <;> exact ⟨rfl, rfl, rfl⟩
  | econt =>
      simp only [applyTask]
      split
      · exact ⟨rfl, rfl, rfl⟩
      · split <;> exact ⟨rfl, rfl, rfl⟩
      · exact ⟨rfl, rfl, rfl⟩

theorem Step_consts {M : WorkerM σ ω} {s s2 : LState σ ω} (h : Step M s s2) :
    s2.n = s.n ∧ s2.maxConcurrent = s.maxConcurrent ∧ s2.delayPos = s.delayPos := by
  cases h with
  | task l₁ l₂ t hsplit => exact applyTask_consts M _ t
  | setPause p => exact ⟨rfl, rfl, rfl⟩
  | cancel => exact ⟨rfl, rfl, rfl⟩

/-- The configuration is constant along any run. -/
theorem Reach_consts {M : WorkerM σ ω} {s0 s : LState σ ω} (hr : Reach M s0 s) :
    s.n = s0.n ∧ s.maxConcurrent = s0.maxConcurrent ∧ s.delayPos = s0.delayPos := by
  induction hr with
  | refl => exact ⟨rfl, rfl, rfl⟩
  | tail _ hstep ih =>
      obtain ⟨a, b, c⟩ := Step_consts hstep
      obtain ⟨a2, b2, c2⟩ := ih
      exact ⟨a.trans a2, b.trans b2, c.trans c2⟩


/-! ## Claims about the scheduler (C1, C2, C3) -/

/-- Build the step that runs the continuation at position `l₁.length` of the queue. -/
theorem step_at {M : WorkerM σ ω} {s s2 : LState σ ω} (l₁ : List (LTask ω))
    {t : LTask ω} {l₂ : List (LTask ω)} (h : s.tasks = l₁ ++ t :: l₂)
    (he : applyTask M {s with tasks := l₁ ++ l₂} t = s2) : Step M s s2 := by
  have hstep : Step M s (applyTask M {s with tasks := l₁ ++ l₂} t) :=
    Step.task s l₁ l₂ t h
  exact he ▸ hstep

/-- Every invocation of the processor counts towards `activeRequests`. -/
theorem countWork_le_countWF (ts : List (LTask ω)) : countWork ts ≤ countWF ts := by
  induction ts with
  | nil => exact Nat.le_refl 0
  | cons t rest ih =>
      simp only [countWork, countWF, List.countP_cons] at ih ⊢
      have hle : (if isWork t then 1 else 0) ≤ (if isWF t then 1 else 0) := by
        cases t <;> simp [isWork]
      omega


/-- The simplest processor: a worker whose promise settles on its first scheduled
step, with no shared state and no events — a bare asynchronous callback. -/
def trivM : WorkerM Unit Unit :=
  { init := fun _ => ()
    step := fun _ _ _ _ => ((), none, [])
    pauseHook := fun _ _ => () }

/-- One-item run (items.length 1, maxConcurrent 1, no delay): initial state. -/
def tv0 : LState Unit Unit := initState 1 1 false ()

/-- After the queued processNext claims and dispatches item 0. -/
def tv1 : LState Unit Unit :=
  { n := 1, maxConcurrent := 1, delayPos := false, completed := 1, activeRequests := 1,
    isPaused := false, isCancelled := false, aborted := false, settled := none,
    tasks := [LTask.work 0 ()], eng := (), trace := [TraceEv.dispatch 0] }

/-- After worker 0's promise settles. -/
def tv2 : LState Unit Unit := {tv1 with tasks := [LTask.fin 0]}

/-- After the finally block: activeRequests drops, processNext rescheduled. -/
def tv3 : LState Unit Unit := {tv1 with activeRequests := 0, tasks := [LTask.entry]}

/-- After that processNext sees `completed >= items.length` and resolves. -/
def tv4 : LState Unit Unit :=
  {tv3 with settled := some (none : Option JsError), tasks := [LTask.econt]}

/-- After the awaiting caller's continuation runs (onComplete). -/
def tv5 : LState Unit Unit :=
  {tv4 with tasks := [], trace := [TraceEv.dispatch 0, TraceEv.complete]}

/-- The one-item run is a run of the scheduler. -/
theorem trivReach1 : Reach trivM tv0 tv5 := by
  have h01 : Step trivM tv0 tv1 := step_at [] rfl (by decide)
  have h12 : Step trivM tv1 tv2 := step_at [] rfl (by decide)
  have h23 : Step trivM tv2 tv3 := step_at [] rfl (by decide)
  have h34 : Step trivM tv3 tv4 := step_at [] rfl (by decide)
  have h45 : Step trivM tv4 tv5 := step_at [] rfl (by decide)
  exact .tail (.tail (.tail (.tail (.single h01) h12) h23) h34) h45

/-- Two-item run (items.length 2, maxConcurrent 2, no delay): initial state with both
initial processNext calls queued. -/
def tw0 : LState Unit Unit := initState 2 2 false ()

/-- After the first processNext claims and dispatches item 0. -/
def tw1 : LState Unit Unit :=
  { n := 2, maxConcurrent := 2, delayPos := false, completed := 1, activeRequests := 1,
    isPaused := false, isCancelled := false, aborted := false, settled := none,
    tasks := [LTask.work 0 (), LTask.entry], eng := (),
    trace := [TraceEv.dispatch 0] }

/-- After the second processNext claims and dispatches item 1. -/
def tw2 : LState Unit Unit :=
  { n := 2, maxConcurrent := 2, delayPos := false, completed := 2, activeRequests := 2,
    isPaused := false, isCancelled := false, aborted := false, settled := none,
    tasks := [LTask.work 1 (), LTask.work 0 ()], eng := (),
    trace := [TraceEv.dispatch 0, TraceEv.dispatch 1] }

/-- After worker 0's promise settles (worker 1 still in flight). -/
def tw3 : LState Unit Unit := {tw2 with tasks := [LTask.fin 0, LTask.work 1 ()]}

/-- After worker 0's finally block reschedules processNext. -/
def tw4 : LState Unit Unit :=
  {tw3 with activeRequests := 1, tasks := [LTask.entry, LTask.work 1 ()]}

/-- After that processNext sees `completed >= items.length` and RESOLVES the promise —
while worker 1 is still in flight. -/
def tw5 : LState Unit Unit :=
  { n := 2, maxConcurrent := 2, delayPos := false, completed := 2, activeRequests := 1,
    isPaused := false, isCancelled := false, aborted := false, settled := some none,
    tasks := [LTask.econt, LTask.work 1 ()], eng := (),
    trace := [TraceEv.dispatch 0, TraceEv.dispatch 1] }

/-- The two-item run is a run of the scheduler. -/
theorem trivReach2 : Reach trivM tw0 tw5 := by
  have h01 : Step trivM tw0 tw1 := step_at [] rfl (by decide)
  have h12 : Step trivM tw1 tw2 := step_at [LTask.work 0 ()] rfl (by decide)
  have h23 : Step trivM tw2 tw3 := step_at [LTask.work 1 ()] rfl (by decide)
  have h34 : Step trivM tw3 tw4 := step_at [] rfl (by decide)
  have h45 : Step trivM tw4 tw5 := step_at [] rfl (by decide)
  exact .tail (.tail (.tail (.tail (.single h01) h12) h23) h34) h45

/-- C1.  For every configuration with concurrency `N` (`1 ≤ N ≤ 10`) and every input
list of length at least `N`, at no instant during `RateLimiter.processItems` do more
than `N` workers (invocations of the processor callback) run concurrently, and the
`activeRequests` counter never exceeds `maxConcurrent` — in every reachable state of
every schedule, for every worker machine (i.e. for every processor callback), with
pause/resume/cancel allowed at any point. -/
theorem c1_concurrency_bound {σ ω : Type} (M : WorkerM σ ω) (N len : Nat)
    (hN1 : 1 ≤ N) (hN10 : N ≤ 10) (hlen : N ≤ len) (d : Bool) (eng0 : σ)
    (s : LState σ ω) (hr : Reach M (initState len N d eng0) s) :
    countWork s.tasks ≤ N ∧ s.activeRequests ≤ N := by
  have hinv := LInv_reach (LInv_init len N d eng0) hr
  obtain ⟨_, hmax, _⟩ := Reach_consts hr
  have hmaxx : s.maxConcurrent = N := hmax
  have h1 := countWork_le_countWF s.tasks
  have h2 := hinv.hwf
  have h3 := hinv.hact
  constructor
  · omega
  · omega

/-- Closed witness for C1: the bound holds in a concrete reachable state of a concrete
configuration. -/
theorem c1_witness :
    countWork (initState 1 1 false () : LState Unit Unit).tasks ≤ 1 ∧
      (initState 1 1 false () : LState Unit Unit).activeRequests ≤ 1 :=
  c1_concurrency_bound trivM 1 1 (by decide) (by decide) (by decide) false ()
    (initState 1 1 false ()) Relation.ReflTransGen.refl

/-- C2.  In every reachable state of every schedule and worker machine, the sequence of
claimed item indices is exactly `0, 1, ..., completed-1` — each item is claimed and
passed to the worker at most once, in ascending index order, with no index skipped —
and in any run that was never cancelled (nor aborted) and has fully drained (no
continuation left to run), the claim sequence is exactly `0, ..., len-1`: every item
was claimed exactly once. -/
theorem c2_each_item_once {σ ω : Type} (M : WorkerM σ ω) (N len : Nat) (hN1 : 1 ≤ N)
    (d : Bool) (eng0 : σ) (s : LState σ ω)
    (hr : Reach M (initState len N d eng0) s) :
    (dispatches s.trace = List.range s.completed ∧ s.completed ≤ len) ∧
    (s.isCancelled = false → s.aborted = false → s.tasks = [] →
      dispatches s.trace = List.range len) := by
  have hinv := LInv_reach (LInv_init len N d eng0) hr
  obtain ⟨hn, hmax, _⟩ := Reach_consts hr
  have hnx : s.n = len := hn
  have hmx : s.maxConcurrent = N := hmax
  have hcl := hinv.hcl
  refine ⟨⟨hinv.hdisp, by omega⟩, ?_⟩
  intro hc ha ht
  have hcompleted : s.completed = len := by
    by_contra hne
    have hlt : s.completed < s.n := by omega
    exact (hinv.hprog hc ha hlt (by omega)) ht
  rw [hinv.hdisp, hcompleted]

/-- Closed witness for C2: a fully drained non-cancelled one-item run claimed exactly
item 0. -/
theorem c2_witness : dispatches tv5.trace = List.range 1 :=
  (c2_each_item_once trivM 1 1 (by decide) false () tv5 trivReach1).2 rfl rfl rfl

/-- C3 as the spec states it: the processItems promise resolves only after every
dispatched worker's promise has settled, never while some worker is in flight.  This is
FALSE of the code: in the reachable state below (two items, concurrency 2, no
cancellation: both items dispatched, worker 0 settled, its rescheduled processNext sees
`completed >= items.length` and calls `resolve()`), the promise is resolved while
worker 1 is still running. -/
theorem c3_counterexample :
    Reach trivM (initState 2 2 false ()) tw5 ∧ tw5.settled = some none ∧
      0 < countWork tw5.tasks ∧ tw5.isCancelled = false ∧ tw5.aborted = false := by
  refine ⟨trivReach2, by decide, by decide, rfl, rfl⟩

/-- C3 amended: the promise resolves only once every item has been dispatched (the
claim sequence is full), but it may resolve while dispatched workers are still in
flight. -/
theorem c3_amended_resolve_after_dispatch {σ ω : Type} (M : WorkerM σ ω) (N len : Nat)
    (d : Bool) (eng0 : σ) (s : LState σ ω)
    (hr : Reach M (initState len N d eng0) s) (hset : s.settled = some none) :
    dispatches s.trace = List.range len := by
  have hinv := LInv_reach (LInv_init len N d eng0) hr
  obtain ⟨hn, _, _⟩ := Reach_consts hr
  have hnx : s.n = len := hn
  have hcompleted : s.completed = len := by
    have := hinv.hres hset
    omega
  rw [hinv.hdisp, hcompleted]

/-- Closed witness for the amended C3, at the same concrete resolved state. -/
theorem c3_amended_witness : dispatches tw5.trace = List.range 2 :=
  c3_amended_resolve_after_dispatch trivM 2 2 false () tw5 trivReach2 (by decide)


/-! ## The audit engine as a worker machine (src/lib/auditEngine.ts) -/

/-- The engine-shared state read and written by every processUrl worker: the
`completed` counter of processUrls (line 73) and the engine's `isPaused` flag. -/
structure EngSt where
  completed : Nat
  isPaused : Bool
  deriving DecidableEq, Repr

/-- The program points of one processUrl worker (auditEngine.ts lines 75-114), broken
at its await points:
* `start` — function entry: the abort check (throw when aborted, caught by the
  limiter), the pause gate, and — when running — the first onProgress plus entry into
  auditUrl;
* `wpause` — sleeping in the pause polling loop (lines 81-83);
* `waud k acc` — auditUrl's loop (lines 123-141) about to consider auditor `k` (0-5),
  having accumulated `acc` results so far. -/
inductive WSt
  | start
  | wpause
  | waud (k : Nat) (acc : List AuditResult)
  deriving DecidableEq, Repr

/-- The auditors in the order the AuditEngine constructor instantiates them. -/
def auditorOrder : List AuditorKind :=
  [.image, .link, .button, .heading, .table, .docLink]

/-- The synchronous tail of processUrl after auditUrl resolves (lines 92-113): emit the
per-URL results batch when non-empty, increment `completed`, and emit the second
onProgress whose currentUrl is the next pending URL (or `""` when done). -/
def engFinal (urls : List String) (acc : List AuditResult) (eng : EngSt) :
    EngSt × Option WSt × List WEv :=
  ({eng with completed := eng.completed + 1}, none,
   (if acc.isEmpty then [] else [WEv.results acc]) ++
   [WEv.progress true
     (if eng.completed + 1 < urls.length then urls.getD (eng.completed + 1) "" else "")
     (eng.completed + 1) urls.length])

/-- One synchronous segment of a processUrl worker for item index `i`.  An auditor
call reads the signal while it runs; a segment that runs auditor `k` executes only
when the signal is not aborted, and a cancellation during the auditor's fetch is the
interleaving where the cancel step precedes this segment (the auditor then contributes
nothing and the loop breaks, exactly as the code's per-iteration abort check and the
auditors' internal catch produce). -/
def engStep (urls : List String) (fetchMap : String → Except JsError Dnode) :
    Nat → WSt → EngSt → Bool → EngSt × Option WSt × List WEv
  | i, .start, eng, aborted =>
      if aborted then (eng, none, [])
      else if eng.isPaused then (eng, some .wpause, [])
      else (eng, some (.waud 0 []),
        [WEv.progress false (urls.getD i "") eng.completed urls.length])
  | i, .wpause, eng, aborted =>
      if eng.isPaused && !aborted then (eng, some .wpause, [])
      else (eng, some (.waud 0 []),
        [WEv.progress false (urls.getD i "") eng.completed urls.length])
  | i, .waud k acc, eng, aborted =>
      if aborted || decide (6 ≤ k) then engFinal urls acc eng
      else (eng, some (.waud (k + 1) (acc ++
        auditRun (auditorOrder.getD k .image) (urls.getD i "")
          (fetchMap (urls.getD i "")) false)), [])

/-- The engine's worker machine: processUrl plugged into the scheduler.  The pause
hook is `AuditEngine.pause()/resume()` setting the engine's own isPaused flag (the
same call also pauses the limiter, which the environment step does). -/
def engM (urls : List String) (fetchMap : String → Except JsError Dnode) :
    WorkerM EngSt WSt :=
  { init := fun _ => .start
    step := engStep urls fetchMap
    pauseHook := fun p eng => {eng with isPaused := p} }

/-- The state of AuditEngine.startAudit right after processUrls has handed the URL
list to processItems: fresh AbortController, isPaused false, nothing processed. -/
def engInit (urls : List String) (maxConcurrent : Nat) (delayPos : Bool) :
    LState EngSt WSt :=
  initState urls.length maxConcurrent delayPos ⟨0, false⟩

/-- The concatenation of all onResults batches in a trace, in emission order. -/
def resultsOf (tr : List TraceEv) : List AuditResult :=
  (tr.filterMap (fun e =>
    match e with
    | .wev _ (WEv.results rs) => some rs
    | _ => none)).flatten

/-- The (url, message) pairs of all onError events in a trace, in emission order. -/
def errorsOf (tr : List TraceEv) : List (String × String) :=
  tr.filterMap (fun e => match e with | .errorEv u m => some (u, m) | _ => none)

/-- A step at an explicit queue position, for building concrete runs. -/
theorem step_at2 {M : WorkerM σ ω} (s : LState σ ω) (l₁ : List (LTask ω)) (t : LTask ω)
    (l₂ : List (LTask ω)) (h : s.tasks = l₁ ++ t :: l₂) :
    Step M s (applyTask M {s with tasks := l₁ ++ l₂} t) :=
  Step.task s l₁ l₂ t h


/-! ## Run lifecycle status (src/context/AuditContext reducer) -/

/-- The status values of `ProgressState` (src/types/audit.ts). -/
inductive RunStatus
  | idle | running | paused | completed | cancelled
  deriving DecidableEq, Repr

/-- The audit lifecycle actions dispatched to the AuditContext reducer (cases
START_AUDIT, PAUSE_AUDIT, RESUME_AUDIT, CANCEL_AUDIT, COMPLETE_AUDIT). -/
inductive AuditAction
  | startAudit | pauseAudit | resumeAudit | cancelAudit | completeAudit
  deriving DecidableEq, Repr

/-- The `progress.status` component of the AuditContext reducer: each lifecycle action
overwrites the status of the current session. -/
def statusReduce : RunStatus → AuditAction → RunStatus
  | _, .startAudit => .running
  | _, .pauseAudit => .paused
  | _, .resumeAudit => .running
  | _, .cancelAudit => .cancelled
  | _, .completeAudit => .completed

/-! ## Concrete engine runs -/

/-- A proxy fetch that fails for every URL, as fetchAndParseHTML rethrows a network
error (baseAuditor.ts line 55): a plain Error. -/
def fetchFail : String → Except JsError Dnode :=
  fun u => .error ⟨"Error", "Failed to fetch " ++ u ++ ": Network error"⟩

/-- The parsed document DOMParser produces for the end-to-end scenario markup
`<img src="/x.jpg"><a href="https://a.test">click here</a>`. -/
def scenDoc : Dnode :=
  .elem "html" [] [.elem "body" [] [
    .elem "img" [("src", "/x.jpg")] [],
    .elem "a" [("href", "https://a.test")] [.text "click here"]]]

/-! ### A cancelled two-URL run (for C4): cancel arrives during URL 1's first fetch -/

def urlsC4 : List String := ["u1", "u2"]

def mc4 : WorkerM EngSt WSt := engM urlsC4 fetchFail

def c4s0 : LState EngSt WSt := engInit urlsC4 1 false

/-- processNext claims and dispatches URL index 0. -/
def c4s1 : LState EngSt WSt := applyTask mc4 {c4s0 with tasks := []} LTask.entry

/-- The worker for u1 passes its abort and pause gates and emits the first
onProgress. -/
def c4s2 : LState EngSt WSt :=
  applyTask mc4 {c4s1 with tasks := []} (LTask.work 0 WSt.start)

/-- cancel(): the AbortController aborts and the limiter's isCancelled is set. -/
def c4s3 : LState EngSt WSt :=
  {c4s2 with isCancelled := true, aborted := true,
             trace := c4s2.trace ++ [TraceEv.cancelMark]}

/-- The in-flight worker observes the abort: auditUrl breaks, the final segment still
runs (no results; completed++ and the second onProgress fire). -/
def c4s4 : LState EngSt WSt :=
  applyTask mc4 {c4s3 with tasks := []} (LTask.work 0 (WSt.waud 0 []))

/-- The finally block reschedules processNext. -/
def c4s5 : LState EngSt WSt := applyTask mc4 {c4s4 with tasks := []} (LTask.fin 0)

/-- That processNext sees isCancelled and rejects with
`new Error('Processing cancelled')`. -/
def c4s6 : LState EngSt WSt := applyTask mc4 {c4s5 with tasks := []} LTask.entry

/-- startAudit's catch runs: the error's name is "Error", not "AbortError", so the
guard does not filter it and onError fires with url="system". -/
def c4s7 : LState EngSt WSt := applyTask mc4 {c4s6 with tasks := []} LTask.econt

/-- The cancelled two-URL run is a run of the engine. -/
theorem c4Reach : Reach mc4 c4s0 c4s7 := by
  have h01 : Step mc4 c4s0 c4s1 := step_at2 c4s0 [] LTask.entry [] (by decide)
  have h12 : Step mc4 c4s1 c4s2 := step_at2 c4s1 [] (LTask.work 0 WSt.start) [] (by decide)
  have h23 : Step mc4 c4s2 c4s3 := Step.cancel c4s2
  have h34 : Step mc4 c4s3 c4s4 :=
    step_at2 c4s3 [] (LTask.work 0 (WSt.waud 0 [])) [] (by decide)
  have h45 : Step mc4 c4s4 c4s5 := step_at2 c4s4 [] (LTask.fin 0) [] (by decide)
  have h56 : Step mc4 c4s5 c4s6 := step_at2 c4s5 [] LTask.entry [] (by decide)
  have h67 : Step mc4 c4s6 c4s7 := step_at2 c4s6 [] LTask.econt [] (by decide)
  exact .tail (.tail (.tail (.tail (.tail (.tail (.single h01) h12) h23) h34) h45) h56)
    h67

/-! ### A cancelled one-URL run (for C5): the in-flight worker emits after cancel -/

def urls1 : List String := ["u1"]

def m1 : WorkerM EngSt WSt := engM urls1 fetchFail

def q0 : LState EngSt WSt := engInit urls1 1 false

def q1 : LState EngSt WSt := applyTask m1 {q0 with tasks := []} LTask.entry

def q2 : LState EngSt WSt := applyTask m1 {q1 with tasks := []} (LTask.work 0 WSt.start)

/-- cancel() while u1's worker is inside auditUrl. -/
def q3 : LState EngSt WSt :=
  {q2 with isCancelled := true, aborted := true,
           trace := q2.trace ++ [TraceEv.cancelMark]}

/-- The in-flight worker continues past the cancellation: auditUrl breaks on the
aborted signal, and processUrl still increments `completed` and emits a final
onProgress — after the cancellation. -/
def q4 : LState EngSt WSt :=
  applyTask m1 {q3 with tasks := []} (LTask.work 0 (WSt.waud 0 []))

theorem c5Reach : Reach m1 q0 q4 := by
  have h01 : Step m1 q0 q1 := step_at2 q0 [] LTask.entry [] (by decide)
  have h12 : Step m1 q1 q2 := step_at2 q1 [] (LTask.work 0 WSt.start) [] (by decide)
  have h23 : Step m1 q2 q3 := Step.cancel q2
  have h34 : Step m1 q3 q4 :=
    step_at2 q3 [] (LTask.work 0 (WSt.waud 0 [])) [] (by decide)
  exact .tail (.tail (.tail (.single h01) h12) h23) h34

/-! ### A completed one-URL run with a failing fetch (for C6) -/

def r1 : LState EngSt WSt := applyTask m1 {q0 with tasks := []} LTask.entry

def r2 : LState EngSt WSt := applyTask m1 {r1 with tasks := []} (LTask.work 0 WSt.start)

def r3 : LState EngSt WSt :=
  applyTask m1 {r2 with tasks := []} (LTask.work 0 (WSt.waud 0 []))

def r4 : LState EngSt WSt :=
  applyTask m1 {r3 with tasks := []} (LTask.work 0 (WSt.waud 1 []))

def r5 : LState EngSt WSt :=
  applyTask m1 {r4 with tasks := []} (LTask.work 0 (WSt.waud 2 []))

def r6 : LState EngSt WSt :=
  applyTask m1 {r5 with tasks := []} (LTask.work 0 (WSt.waud 3 []))

def r7 : LState EngSt WSt :=
  applyTask m1 {r6 with tasks := []} (LTask.work 0 (WSt.waud 4 []))

def r8 : LState EngSt WSt :=
  applyTask m1 {r7 with tasks := []} (LTask.work 0 (WSt.waud 5 []))

def r9 : LState EngSt WSt :=
  applyTask m1 {r8 with tasks := []} (LTask.work 0 (WSt.waud 6 []))

def r10 : LState EngSt WSt := applyTask m1 {r9 with tasks := []} (LTask.fin 0)

def r11 : LState EngSt WSt := applyTask m1 {r10 with tasks := []} LTask.entry

def r12 : LState EngSt WSt := applyTask m1 {r11 with tasks := []} LTask.econt

theorem c6Reach : Reach m1 q0 r12 := by
  have h01 : Step m1 q0 r1 := step_at2 q0 [] LTask.entry [] (by decide)
  have h12 : Step m1 r1 r2 := step_at2 r1 [] (LTask.work 0 WSt.start) [] (by decide)
  have h23 : Step m1 r2 r3 :=
    step_at2 r2 [] (LTask.work 0 (WSt.waud 0 [])) [] (by decide)
  have h34 : Step m1 r3 r4 :=
    step_at2 r3 [] (LTask.work 0 (WSt.waud 1 [])) [] (by decide)
  have h45 : Step m1 r4 r5 :=
    step_at2 r4 [] (LTask.work 0 (WSt.waud 2 [])) [] (by decide)
  have h56 : Step m1 r5 r6 :=
    step_at2 r5 [] (LTask.work 0 (WSt.waud 3 [])) [] (by decide)
  have h67 : Step m1 r6 r7 :=
    step_at2 r6 [] (LTask.work 0 (WSt.waud 4 [])) [] (by decide)
  have h78 : Step m1 r7 r8 :=
    step_at2 r7 [] (LTask.work 0 (WSt.waud 5 [])) [] (by decide)
  have h89 : Step m1 r8 r9 :=
    step_at2 r8 [] (LTask.work 0 (WSt.waud 6 [])) [] (by decide)
  have h910 : Step m1 r9 r10 := step_at2 r9 [] (LTask.fin 0) [] (by decide)
  have h1011 : Step m1 r10 r11 := step_at2 r10 [] LTask.entry [] (by decide)
  have h1112 : Step m1 r11 r12 := step_at2 r11 [] LTask.econt [] (by decide)
  exact .tail (.tail (.tail (.tail (.tail (.tail (.tail (.tail (.tail (.tail (.tail
    (.single h01) h12) h23) h34) h45) h56) h67) h78) h89) h910) h1011) h1112

/-! ### The end-to-end scenario run (for C8) -/

def urlsA : List String := ["https://a.test"]

def fetchScen : String → Except JsError Dnode := fun _ => .ok scenDoc

def ma : WorkerM EngSt WSt := engM urlsA fetchScen

def g0 : LState EngSt WSt := engInit urlsA 1 false

def g1 : LState EngSt WSt := applyTask ma {g0 with tasks := []} LTask.entry

def g2 : LState EngSt WSt := applyTask ma {g1 with tasks := []} (LTask.work 0 WSt.start)

def g3 : LState EngSt WSt :=
  applyTask ma {g2 with tasks := []} (LTask.work 0 (WSt.waud 0 []))

/-- The findings the image auditor accumulates on the scenario document. -/
def accImg : List AuditResult :=
  [⟨"https://a.test", .imageMissingAlt, "", "", "/x.jpg", ""⟩]

/-- The findings after the link auditor adds its InaccessibleLink. -/
def accImgLink : List AuditResult :=
  accImg ++ [⟨"https://a.test", .inaccessibleLink, "", "click here", "https://a.test", ""⟩]

def g4 : LState EngSt WSt :=
  applyTask ma {g3 with tasks := []} (LTask.work 0 (WSt.waud 1 accImg))

def g5 : LState EngSt WSt :=
  applyTask ma {g4 with tasks := []} (LTask.work 0 (WSt.waud 2 accImgLink))

def g6 : LState EngSt WSt :=
  applyTask ma {g5 with tasks := []} (LTask.work 0 (WSt.waud 3 accImgLink))

def g7 : LState EngSt WSt :=
  applyTask ma {g6 with tasks := []} (LTask.work 0 (WSt.waud 4 accImgLink))

def g8 : LState EngSt WSt :=
  applyTask ma {g7 with tasks := []} (LTask.work 0 (WSt.waud 5 accImgLink))

def g9 : LState EngSt WSt :=
  applyTask ma {g8 with tasks := []} (LTask.work 0 (WSt.waud 6 accImgLink))

def g10 : LState EngSt WSt := applyTask ma {g9 with tasks := []} (LTask.fin 0)

def g11 : LState EngSt WSt := applyTask ma {g10 with tasks := []} LTask.entry

def g12 : LState EngSt WSt := applyTask ma {g11 with tasks := []} LTask.econt

theorem c8Reach : Reach ma g0 g12 := by
  have h01 : Step ma g0 g1 := step_at2 g0 [] LTask.entry [] (by decide)
  have h12 : Step ma g1 g2 := step_at2 g1 [] (LTask.work 0 WSt.start) [] (by decide)
  have h23 : Step ma g2 g3 :=
    step_at2 g2 [] (LTask.work 0 (WSt.waud 0 [])) [] (by decide)
  have h34 : Step ma g3 g4 :=
    step_at2 g3 [] (LTask.work 0 (WSt.waud 1 accImg)) [] (by decide)
  have h45 : Step ma g4 g5 :=
    step_at2 g4 [] (LTask.work 0 (WSt.waud 2 accImgLink)) [] (by decide)
  have h56 : Step ma g5 g6 :=
    step_at2 g5 [] (LTask.work 0 (WSt.waud 3 accImgLink)) [] (by decide)
  have h67 : Step ma g6 g7 :=
    step_at2 g6 [] (LTask.work 0 (WSt.waud 4 accImgLink)) [] (by decide)
  have h78 : Step ma g7 g8 :=
    step_at2 g7 [] (LTask.work 0 (WSt.waud 5 accImgLink)) [] (by decide)
  have h89 : Step ma g8 g9 :=
    step_at2 g8 [] (LTask.work 0 (WSt.waud 6 accImgLink)) [] (by decide)
  have h910 : Step ma g9 g10 := step_at2 g9 [] (LTask.fin 0) [] (by decide)
  have h1011 : Step ma g10 g11 := step_at2 g10 [] LTask.entry [] (by decide)
  have h1112 : Step ma g11 g12 := step_at2 g11 [] LTask.econt [] (by decide)
  exact .tail (.tail (.tail (.tail (.tail (.tail (.tail (.tail (.tail (.tail (.tail
    (.single h01) h12) h23) h34) h45) h56) h67) h78) h89) h910) h1011) h1112


/-! ## Claims C4, C8 (and the C5/C6 counterexamples) -/

/-- C4.  The claim says cancellation is never reported through onError (no error event
with url="system" on account of the cancellation), while the RunState transitions to
Cancelled.  The status transition does hold — statusReduce sends every status to
`cancelled` on the cancel action — but the code violates the no-error part: the
limiter rejects with `new Error('Processing cancelled')`, whose `name` is `"Error"`,
so startAudit's `error.name !== 'AbortError'` guard does NOT recognize it as a
cancellation, and an onError with url="system", message "Processing cancelled" IS
emitted on account of the cancellation.  This theorem exhibits the failing run: after
the cancel mark, the trace ends with that very error event. -/
theorem c4_cancel_is_reported_as_system_error :
    Reach mc4 c4s0 c4s7 ∧
      (∀ st, statusReduce st AuditAction.cancelAudit = RunStatus.cancelled) ∧
      c4s7.trace =
        [TraceEv.dispatch 0,
         TraceEv.wev 0 (WEv.progress false "u1" 0 2),
         TraceEv.cancelMark,
         TraceEv.wev 0 (WEv.progress true "u2" 1 2),
         TraceEv.errorEv "system" "Processing cancelled"] ∧
      errorsOf c4s7.trace = [("system", "Processing cancelled")] := by
  refine ⟨c4Reach, ?_, by decide, by decide⟩
  intro st
  cases st <;> rfl

/-- C5 counterexample.  The claim says that after cancel() no further onResults or
onProgress callback fires, including from items already in flight.  False: in this
reachable run the worker for u1 was in flight at cancellation, and an onProgress event
(the end-of-processing one, with completedCount 1) is emitted strictly after the
cancel mark. -/
theorem c5_counterexample :
    Reach m1 q0 q4 ∧
      q4.trace =
        [TraceEv.dispatch 0,
         TraceEv.wev 0 (WEv.progress false "u1" 0 1),
         TraceEv.cancelMark,
         TraceEv.wev 0 (WEv.progress true "" 1 1)] := by
  exact ⟨c5Reach, by decide⟩

/-- C6 counterexample.  The claim says a failed fetch is converted into an onError
event carrying that URL.  False: in this completed run the fetch for "u1" fails in
every auditor, yet the error list is empty — each auditor catches the failure itself
and returns no results, no onError is ever emitted for "u1", and the run still
completes (onComplete fires). -/
theorem c6_counterexample :
    Reach m1 q0 r12 ∧ r12.tasks = [] ∧
      (∃ e, fetchFail "u1" = Except.error e) ∧
      errorsOf r12.trace = [] ∧
      resultsOf r12.trace = [] ∧
      TraceEv.complete ∈ r12.trace := by
  refine ⟨c6Reach, by decide, ⟨⟨"Error", "Failed to fetch u1: Network error"⟩, rfl⟩,
    by decide, by decide, by decide⟩

/-- C8.  The end-to-end scenario: input ["https://a.test"], fetch returning
`<img src="/x.jpg"><a href="https://a.test">click here</a>`.  The run completes with
completedCount 1, no errors, one ImageMissingAlt finding with targetUrl "/x.jpg" and
one InaccessibleLink finding with linkText "click here" and targetUrl
"https://a.test" — but the ImageMissingAlt finding's imageFilename is "" rather than
the claimed "x.jpg": `AuditUtils.extractFilename` calls `new URL('/x.jpg')`, which
throws on a relative URL, and the catch returns "" (the basename IS extracted for an
absolute URL, as the last conjunct shows, so the relative-src case is the slip — the
repository's own ImageAuditor unit test expects 'image1.jpg' for src '/image1.jpg'). -/
theorem c8_end_to_end_scenario :
    Reach ma g0 g12 ∧ g12.tasks = [] ∧ g12.eng.completed = 1 ∧
      errorsOf g12.trace = [] ∧ TraceEv.complete ∈ g12.trace ∧
      resultsOf g12.trace =
        [⟨"https://a.test", .imageMissingAlt, "", "", "/x.jpg", ""⟩,
         ⟨"https://a.test", .inaccessibleLink, "", "click here", "https://a.test", ""⟩] ∧
      extractFilename "/x.jpg" = "" ∧
      extractFilename "https://a.test/x.jpg" = "x.jpg" := by
  exact ⟨c8Reach, by decide, by decide, by decide, by decide, by decide, by decide,
    by decide⟩

/-! ## Claim C9: the heading evaluator -/

/-- The heading elements of a document, as HeadingAuditor collects them. -/
def headingSel (doc : Dnode) : List Dnode :=
  selectAll (fun t _ =>
    t == "h1" || t == "h2" || t == "h3" || t == "h4" || t == "h5" || t == "h6") doc

/-- The document-order heading level sequence. -/
def headingSeq (doc : Dnode) : List Nat :=
  (headingSel doc).map (fun h => headingLevel (tagOf h))

/-- Bind of a successful Except computation, for unfolding the auditors' bodies. -/
theorem exbind_ok {α β : Type} (a : α) (f : α → Except JsError β) :
    ((Except.ok a : Except JsError α) >>= f) = f a := rfl

/-- The heading auditor on a successfully fetched document, in closed form. -/
theorem headingAudit_ok (u : String) (doc : Dnode) :
    auditRun .heading u (.ok doc) false =
      (if (headingSel doc).isEmpty then []
       else if !seqValid (headingSeq doc) then
         [⟨u, .headingHierarchy,
           "Improper heading sequence: " ++
             joinSep ", " ((headingSeq doc).map natToStr), "", "", ""⟩]
       else []) := by
  by_cases h1 : (headingSel doc).isEmpty
  · have h1x := h1
    simp only [headingSel] at h1x
    simp [auditRun, audit, auditBody, headingAuditBody, checkAbortSignal, exbind_ok,
      headingSel, headingSeq, h1x]
  · have h1x := h1
    simp only [headingSel] at h1x
    by_cases h2 : seqValid (headingSeq doc) = true
    · have h2x := h2
      simp only [headingSeq, headingSel] at h2x
      simp [auditRun, audit, auditBody, headingAuditBody, checkAbortSignal, exbind_ok,
        headingSel, headingSeq, h1x, h2x]
    · have h2x : seqValid (headingSeq doc) = false := by
        cases hv : seqValid (headingSeq doc)
        · rfl
        · exact absurd hv h2
      have h2y := h2x
      simp only [headingSeq, headingSel] at h2y
      simp [auditRun, audit, auditBody, headingAuditBody, checkAbortSignal, exbind_ok,
        headingSel, headingSeq, h1x, h2y]

/-- `seqValid` is false exactly when some adjacent pair steps up by more than one
level. -/
theorem seqValid_eq_false_iff (l : List Nat) :
    seqValid l = false ↔
      ∃ i, i + 1 < l.length ∧ l.getD i 0 + 1 < l.getD (i + 1) 0 := by
  induction l with
  | nil => simp [seqValid]
  | cons a rest ih =>
      cases rest with
      | nil => simp [seqValid]
      | cons b rest2 =>
          constructor
          · intro h
            rw [seqValid, Bool.and_eq_false_iff] at h
            rcases h with h | h
            · refine ⟨0, by simp, ?_⟩
              simp only [List.getD_cons_zero, List.getD_cons_succ]
              simp at h
              omega
            · obtain ⟨i, hi, hv⟩ := ih.mp h
              refine ⟨i + 1, ?_, ?_⟩
              · simpa using hi
              · simpa using hv
          · rintro ⟨i, hi, hv⟩
            rw [seqValid, Bool.and_eq_false_iff]
            cases i with
            | zero =>
                left
                simp only [List.getD_cons_zero, List.getD_cons_succ] at hv
                simp
                omega
            | succ j =>
                right
                apply ih.mpr
                refine ⟨j, ?_, ?_⟩
                · simpa using hi
                · simpa using hv

/-- A document whose body holds exactly two headings, of the given levels. -/
def hdoc2 (a b : Nat) : Dnode :=
  .elem "html" [] [.elem "body" []
    [.elem ("h" ++ natToStr a) [] [.text "t"],
     .elem ("h" ++ natToStr b) [] [.text "t"]]]

/-- A document whose body holds exactly three headings, of the given levels. -/
def hdoc3 (a b c : Nat) : Dnode :=
  .elem "html" [] [.elem "body" []
    [.elem ("h" ++ natToStr a) [] [.text "t"],
     .elem ("h" ++ natToStr b) [] [.text "t"],
     .elem ("h" ++ natToStr c) [] [.text "t"]]]

/-- C9.  The heading evaluator emits a finding only when some adjacent pair of the
document-order h1-h6 level sequence increases by more than one level; on the sequence
[1,2,3] it emits nothing, on [1,3] exactly one HeadingHierarchyIssue whose details
contains the full sequence "1, 3", and on [2,1,2] nothing (decreases and same-level
repeats are not violations). -/
theorem c9_heading_hierarchy :
    (∀ (u : String) (doc : Dnode), auditRun .heading u (.ok doc) false ≠ [] →
      ∃ i, i + 1 < (headingSeq doc).length ∧
        (headingSeq doc).getD i 0 + 1 < (headingSeq doc).getD (i + 1) 0) ∧
    auditRun .heading "u" (.ok (hdoc3 1 2 3)) false = [] ∧
    auditRun .heading "u" (.ok (hdoc2 1 3)) false =
      [⟨"u", .headingHierarchy, "Improper heading sequence: 1, 3", "", "", ""⟩] ∧
    strIncludes "Improper heading sequence: 1, 3" "1, 3" = true ∧
    auditRun .heading "u" (.ok (hdoc3 2 1 2)) false = [] := by
  refine ⟨?_, by decide, by decide, by decide, by decide⟩
  intro u doc hne
  rw [headingAudit_ok] at hne
  by_cases h1 : (headingSel doc).isEmpty
  · rw [if_pos h1] at hne
    exact absurd rfl hne
  · rw [if_neg h1] at hne
    cases hsv : seqValid (headingSeq doc) with
    | true => rw [hsv] at hne; simp at hne
    | false => exact (seqValid_eq_false_iff _).mp hsv

/-- Closed witness for C9, at the invalid sequence [1,3]. -/
theorem c9_witness :
    ∃ i, i + 1 < (headingSeq (hdoc2 1 3)).length ∧
      (headingSeq (hdoc2 1 3)).getD i 0 + 1 < (headingSeq (hdoc2 1 3)).getD (i + 1) 0 :=
  c9_heading_hierarchy.1 "u" (hdoc2 1 3) (by decide)

/-! ## Claim C10: every auditor's audit always resolves -/

/-- C10.  For every auditor in the rule set, every url, every fetch outcome and every
abort state, the audit method always resolves and never rejects: the try/catch wrapped
around the whole body funnels every internal error — an abort observed at entry or
mid-iteration, a failed fetch or parse — through handleError, which yields the empty
result list for that URL/rule pair. -/
theorem c10_audit_never_rejects (k : AuditorKind) (u : String)
    (f : Except JsError Dnode) (a : Bool) :
    (∃ r, audit k u f a = .ok r) ∧
    (a = true → audit k u f a = .ok []) ∧
    (∀ e, f = .error e → audit k u f a = .ok []) := by
  refine ⟨?_, ?_, ?_⟩
  · cases hb : auditBody k u f a with
    | ok r => exact ⟨r, by simp [audit, hb]⟩
    | error e => exact ⟨[], by simp [audit, hb, handleError]⟩
  · intro ha
    subst ha
    have hb : auditBody k u f true = .error ⟨"Error", "Audit was cancelled"⟩ := by
      cases k <;> rfl
    simp [audit, hb, handleError]
  · intro e hf
    subst hf
    cases a with
    | true =>
        have hb : auditBody k u (.error e) true =
            .error ⟨"Error", "Audit was cancelled"⟩ := by
          cases k <;> rfl
        simp [audit, hb, handleError]
    | false =>
        have hb : auditBody k u (.error e) false = .error e := by cases k <;> rfl
        simp [audit, hb, handleError]

/-- Closed witness for C10: a failed fetch yields an empty ok result. -/
theorem c10_witness :
    audit AuditorKind.image "u" (.error ⟨"Error", "boom"⟩) false = .ok [] :=
  (c10_audit_never_rejects AuditorKind.image "u" (.error ⟨"Error", "boom"⟩) false).2.2
    ⟨"Error", "boom"⟩ rfl


/-! ## Claim C6: where failures are caught -/

/-- The error-reporting invariant: the only onError events a run ever emits carry
url "system" and message "Processing cancelled" (the limiter's sole rejection value
filtered through startAudit's catch); per-URL fetch or evaluator failures never
surface as onError, because every auditor catches them itself. -/
structure ErrInv (s : LState σ ω) : Prop where
  herr : ∀ u m, TraceEv.errorEv u m ∈ s.trace →
      u = "system" ∧ m = "Processing cancelled"
  hset : ∀ e, s.settled = some (some e) → e = ⟨"Error", "Processing cancelled"⟩

theorem errorEv_not_mem_wevs {u m : String} {i : Nat} {evs : List WEv} :
    TraceEv.errorEv u m ∉ evs.map (TraceEv.wev i) := by
  intro h
  obtain ⟨a, _, ha⟩ := List.mem_map.mp h
  exact TraceEv.noConfusion ha

theorem ErrInv_step {M : WorkerM σ ω} {s s2 : LState σ ω} (h : ErrInv s)
    (hs : Step M s s2) : ErrInv s2 := by
  obtain ⟨herr, hset⟩ := h
  cases hs with
  | setPause p =>
      refine ⟨?_, hset⟩
      intro u m hm
      simp only [List.mem_append, List.mem_singleton] at hm
      rcases hm with hm | hm
      · exact herr u m hm
      · exact TraceEv.noConfusion hm
  | cancel =>
      refine ⟨?_, hset⟩
      intro u m hm
      simp only [List.mem_append, List.mem_singleton] at hm
      rcases hm with hm | hm
      · exact herr u m hm
      · exact TraceEv.noConfusion hm
  | task l₁ l₂ t hsplit =>
      cases t with
      | entry =>
          show ErrInv (applyTask M {s with tasks := l₁ ++ l₂} LTask.entry)
          simp only [applyTask]
          split
          next =>
            unfold rejectP
            split
            next hset2 =>
                refine ⟨fun u m hm => herr u m hm, ?_⟩
                intro e he
                simp only [pushT] at he
                have : some (some (⟨"Error", "Processing cancelled"⟩ : JsError)) =
                    some (some e) := he
                injection this with h1
                injection h1 with h2
                exact h2.symm
            next => exact ⟨fun u m hm => herr u m hm, hset⟩
          next =>
            split
            next => exact ⟨fun u m hm => herr u m hm, hset⟩
            next =>
              unfold claimLogic
              split
              next =>
                unfold resolveP
                split
                next =>
                  refine ⟨fun u m hm => herr u m hm, ?_⟩
                  intro e he
                  simp only [pushT] at he
                  exact absurd he (by simp)
                next => exact ⟨fun u m hm => herr u m hm, hset⟩
              next =>
                split
                next => exact ⟨fun u m hm => herr u m hm, hset⟩
                next =>
                  refine ⟨?_, hset⟩
                  intro u m hm
                  simp only [List.mem_append, List.mem_singleton] at hm
                  rcases hm with hm | hm
                  · exact herr u m hm
                  · exact TraceEv.noConfusion hm
      | pwait =>
          show ErrInv (applyTask M {s with tasks := l₁ ++ l₂} LTask.pwait)
          simp only [applyTask]
          split
          next => exact ⟨fun u m hm => herr u m hm, hset⟩
          next =>
            unfold claimLogic
            split
            next =>
              unfold resolveP
              split
              next =>
                refine ⟨fun u m hm => herr u m hm, ?_⟩
                intro e he
                simp only [pushT] at he
                exact absurd he (by simp)
              next => exact ⟨fun u m hm => herr u m hm, hset⟩
            next =>
              split
              next => exact ⟨fun u m hm => herr u m hm, hset⟩
              next =>
                refine ⟨?_, hset⟩
                intro u m hm
                simp only [List.mem_append, List.mem_singleton] at hm
                rcases hm with hm | hm
                · exact herr u m hm
                · exact TraceEv.noConfusion hm
      | delay =>
          exact ⟨fun u m hm => herr u m hm, hset⟩
      | work i w =>
          show ErrInv (applyTask M {s with tasks := l₁ ++ l₂} (LTask.work i w))
          simp only [applyTask]
          split
          all_goals
            refine ⟨?_, hset⟩
            intro u m hm
            simp only [pushT, emitT, List.mem_append] at hm
            rcases hm with hm | hm
            · exact herr u m hm
            · exact absurd hm errorEv_not_mem_wevs
      | fin i =>
          show ErrInv (applyTask M {s with tasks := l₁ ++ l₂} (LTask.fin i))
          simp only [applyTask]
          split
          all_goals exact ⟨fun u m hm => herr u m hm, hset⟩
      | econt =>
          show ErrInv (applyTask M {s with tasks := l₁ ++ l₂} LTask.econt)
          simp only [applyTask]
          split
          next => -- resolved: appends complete
            refine ⟨?_, hset⟩
            intro u m hm
            simp only [emitT, List.mem_append, List.mem_singleton] at hm
            rcases hm with hm | hm
            · exact herr u m hm
            · exact TraceEv.noConfusion hm
          next e heq =>
            split
            next =>
              refine ⟨?_, hset⟩
              intro u m hm
              simp only [emitT, List.mem_append, List.mem_singleton] at hm
              rcases hm with hm | hm
              · exact herr u m hm
              · have hx : e = ⟨"Error", "Processing cancelled"⟩ := hset e heq
                subst hx
                injection hm with hm1 hm2
                exact ⟨hm1, hm2⟩
            next => exact ⟨fun u m hm => herr u m hm, hset⟩
          next => exact ⟨fun u m hm => herr u m hm, hset⟩

theorem ErrInv_init (n maxC : Nat) (d : Bool) (eng0 : σ) :
    ErrInv (initState n maxC d eng0 : LState σ ω) := by
  refine ⟨?_, ?_⟩
  · intro u m hm
    exact absurd hm (List.not_mem_nil _)
  · intro e he
    exact Option.noConfusion he

/-- C6 amended: a failed fetch (and any evaluator failure) is caught inside the
auditor itself — at the per-auditor boundary, not the per-URL worker boundary — and
yields the empty result list for that URL/rule pair; no onError event carrying that
URL is ever emitted (the only onError a run can emit has url "system"), and no such
failure aborts the run. -/
theorem c6_amended_failures_swallowed :
    (∀ (k : AuditorKind) (u : String) (e : JsError) (a : Bool),
      audit k u (.error e) a = .ok []) ∧
    (∀ {σ ω : Type} (M : WorkerM σ ω) (n N : Nat) (d : Bool) (eng0 : σ)
      (s : LState σ ω), Reach M (initState n N d eng0) s →
      ∀ u m, TraceEv.errorEv u m ∈ s.trace → u = "system") := by
  constructor
  · intro k u e a
    exact (c10_audit_never_rejects k u (.error e) a).2.2 e rfl
  · intro σ ω M n N d eng0 s hr
    have hinv : ErrInv s := by
      induction hr with
      | refl => exact ErrInv_init n N d eng0
      | tail _ hstep ih => exact ErrInv_step ih hstep
    intro u m hm
    exact (hinv.herr u m hm).1

/-- Closed witness for the amended C6: a concrete failed fetch yields ok [], and the
only error event of the cancelled concrete run indeed has url "system". -/
theorem c6_amended_witness :
    audit AuditorKind.link "u1" (.error ⟨"Error", "nope"⟩) false = .ok [] ∧
      "system" = "system" := by
  constructor
  · exact c6_amended_failures_swallowed.1 AuditorKind.link "u1" ⟨"Error", "nope"⟩ false
  · exact c6_amended_failures_swallowed.2 mc4 urlsC4.length 1 false ⟨0, false⟩ c4s7
      c4Reach "system" "Processing cancelled" (by decide)


/-! ## Claim C5: what can still happen after cancellation -/

/-- The trace prefix before the first cancellation mark: the events that happened
before cancel() was called. -/
def preMark : List TraceEv → List TraceEv
  | [] => []
  | e :: tr => if e == TraceEv.cancelMark then [] else e :: preMark tr

theorem preMark_of_not_mem {tr : List TraceEv} (h : TraceEv.cancelMark ∉ tr) :
    preMark tr = tr := by
  induction tr with
  | nil => rfl
  | cons a t ih =>
      have ha : ¬(a == TraceEv.cancelMark) = true := by
        simp only [beq_iff_eq]
        intro he
        exact h (by simp [he])
      have ht : TraceEv.cancelMark ∉ t := fun hx => h (List.mem_cons.mpr (Or.inr hx))
      simp only [preMark, if_neg ha]
      rw [ih ht]

theorem preMark_mono {tr E : List TraceEv} {x : TraceEv} (h : x ∈ preMark tr) :
    x ∈ preMark (tr ++ E) := by
  induction tr with
  | nil => simp [preMark] at h
  | cons a t ih =>
      rw [List.cons_append]
      simp only [preMark] at h ⊢
      by_cases ha : (a == TraceEv.cancelMark) = true
      · rw [if_pos ha] at h
        simp at h
      · rw [if_neg ha] at h ⊢
        rcases List.mem_cons.mp h with hh | hh
        · exact List.mem_cons.mpr (Or.inl hh)
        · exact List.mem_cons.mpr (Or.inr (ih hh))

theorem preMark_stable {tr : List TraceEv} (h : TraceEv.cancelMark ∈ tr)
    (E : List TraceEv) : preMark (tr ++ E) = preMark tr := by
  induction tr with
  | nil => exact absurd h (List.not_mem_nil _)
  | cons a t ih =>
      rw [List.cons_append]
      simp only [preMark]
      by_cases ha : (a == TraceEv.cancelMark) = true
      · rw [if_pos ha, if_pos ha]
      · rw [if_neg ha, if_neg ha]
        have ht : TraceEv.cancelMark ∈ t := by
          rcases List.mem_cons.mp h with hh | hh
          · refine absurd hh.symm ?_
            simpa [beq_iff_eq] using ha
          · exact hh
        rw [ih ht]

theorem cancelMark_not_mem_wevs {i : Nat} {evs : List WEv} :
    TraceEv.cancelMark ∉ evs.map (TraceEv.wev i) := by
  intro h
  obtain ⟨a, _, ha⟩ := List.mem_map.mp h
  exact TraceEv.noConfusion ha

theorem wev_mem_wevs_idx {j i : Nat} {e : WEv} {evs : List WEv}
    (h : TraceEv.wev j e ∈ evs.map (TraceEv.wev i)) : j = i := by
  obtain ⟨a, _, ha⟩ := List.mem_map.mp h
  injection ha with h1 _
  exact h1.symm

theorem mark_mem_append_nonmark {tr E : List TraceEv} (hE : TraceEv.cancelMark ∉ E) :
    (TraceEv.cancelMark ∈ tr ++ E) ↔ TraceEv.cancelMark ∈ tr := by
  simp only [List.mem_append]
  constructor
  · rintro (h | h)
    · exact h
    · exact absurd h hE
  · exact Or.inl

/-- A claimed index appears as a dispatch event in the trace. -/
theorem dispatch_mem_of_lt {tr : List TraceEv} {c i : Nat}
    (h : dispatches tr = List.range c) (hi : i < c) : TraceEv.dispatch i ∈ tr := by
  have hmem : i ∈ dispatches tr := by
    rw [h]
    exact List.mem_range.mpr hi
  obtain ⟨ev, hev, hfe⟩ := List.mem_filterMap.mp hmem
  cases ev with
  | dispatch j =>
      simp only [Option.some.injEq] at hfe
      exact hfe ▸ hev
  | cancelMark => exact Option.noConfusion hfe
  | pauseMark p => exact Option.noConfusion hfe
  | wev j e => exact Option.noConfusion hfe
  | errorEv u m => exact Option.noConfusion hfe
  | complete => exact Option.noConfusion hfe

/-- Extending a trace with mark-free events preserves the attribution property,
provided each appended worker event is itself attributed when a mark is present. -/
theorem hattr_extend {tr E : List TraceEv}
    (hnomark : TraceEv.cancelMark ∉ E)
    (hold : ∀ a b, tr = a ++ TraceEv.cancelMark :: b →
      ∀ i e, TraceEv.wev i e ∈ b → TraceEv.dispatch i ∈ preMark tr)
    (hnew : TraceEv.cancelMark ∈ tr →
      ∀ i e, TraceEv.wev i e ∈ E → TraceEv.dispatch i ∈ preMark tr) :
    ∀ a b, tr ++ E = a ++ TraceEv.cancelMark :: b →
      ∀ i e, TraceEv.wev i e ∈ b → TraceEv.dispatch i ∈ preMark (tr ++ E) := by
  intro a b hsplit i e hmem
  rcases List.append_eq_append_iff.mp hsplit with ⟨k, hk1, hk2⟩ | ⟨k, hk1, hk2⟩
  · -- a = tr ++ k and E = k ++ cancelMark :: b: the mark would lie inside E
    exact absurd (by rw [hk2]; simp : TraceEv.cancelMark ∈ E) hnomark
  · -- tr = a ++ k and cancelMark :: b = k ++ E
    cases k with
    | nil =>
        simp only [List.nil_append] at hk2
        exact absurd (by rw [← hk2]; simp : TraceEv.cancelMark ∈ E) hnomark
    | cons k0 kr =>
        simp only [List.cons_append, List.cons.injEq] at hk2
        obtain ⟨hk0, hb⟩ := hk2
        subst hk0
        have hmarktr : TraceEv.cancelMark ∈ tr := by
          rw [hk1]
          simp
        have hstable := preMark_stable hmarktr E
        rw [hstable]
        rw [hb] at hmem
        rcases List.mem_append.mp hmem with hh | hh
        · exact hold a kr (by rw [hk1]) i e hh
        · exact hnew hmarktr i e hh

/-- The attribution invariant: cancellation is marked in the trace exactly when the
signal is aborted; every in-flight worker's index is below the claim cursor; after an
abort, every worker past its entry gate was dispatched before the cancellation; and
every worker event after a cancellation mark belongs to an item dispatched before the
first mark. -/
structure AInv (s : LState EngSt WSt) : Prop where
  hmark : s.aborted = true ↔ TraceEv.cancelMark ∈ s.trace
  hidx : ∀ i w, LTask.work i w ∈ s.tasks → i < s.completed
  hlive : s.aborted = true → ∀ i w, LTask.work i w ∈ s.tasks → w ≠ WSt.start →
      TraceEv.dispatch i ∈ preMark s.trace
  hattr : ∀ a b, s.trace = a ++ TraceEv.cancelMark :: b →
      ∀ i e, TraceEv.wev i e ∈ b → TraceEv.dispatch i ∈ preMark s.trace

/-- Transfer of the attribution invariant across any step that appends mark-free
events and moves workers in an accounted way. -/
theorem AInv_transfer {s s2 : LState EngSt WSt} (E : List TraceEv)
    (h : AInv s)
    (hcomp : s.completed ≤ s2.completed)
    (hab : s2.aborted = s.aborted)
    (htr : s2.trace = s.trace ++ E)
    (hnomark : TraceEv.cancelMark ∉ E)
    (htasks : ∀ i w, LTask.work i w ∈ s2.tasks →
        LTask.work i w ∈ s.tasks ∨
        (i < s2.completed ∧ (s.aborted = true → w ≠ WSt.start →
            TraceEv.dispatch i ∈ preMark s.trace)))
    (hnewevs : s.aborted = true → ∀ i e, TraceEv.wev i e ∈ E →
        TraceEv.dispatch i ∈ preMark s.trace) :
    AInv s2 := by
  obtain ⟨hmark, hidx, hlive, hattr⟩ := h
  refine ⟨?_, ?_, ?_, ?_⟩
  · rw [hab, htr, mark_mem_append_nonmark hnomark]
    exact hmark
  · intro i w hw
    rcases htasks i w hw with hh | hh
    · exact Nat.lt_of_lt_of_le (hidx i w hh) hcomp
    · exact hh.1
  · intro hab2 i w hw hwne
    rw [hab] at hab2
    have hstable : preMark s2.trace = preMark s.trace := by
      rw [htr]
      exact preMark_stable (hmark.mp hab2) E
    rw [hstable]
    rcases htasks i w hw with hh | hh
    · exact hlive hab2 i w hh hwne
    · exact hh.2 hab2 hwne
  · rw [htr]
    exact hattr_extend hnomark hattr (fun hmk => hnewevs (hmark.mpr hmk))

/-- The attribution invariant survives the cancel() environment step. -/
theorem AInv_cancel {s : LState EngSt WSt} (h : AInv s) (hL : LInv s) :
    AInv {s with isCancelled := true, aborted := true,
                 trace := s.trace ++ [TraceEv.cancelMark]} := by
  obtain ⟨hmark, hidx, hlive, hattr⟩ := h
  refine ⟨?_, ?_, ?_, ?_⟩
  · constructor
    · intro _
      show TraceEv.cancelMark ∈ s.trace ++ [TraceEv.cancelMark]
      simp
    · intro _
      rfl
  · intro i w hw
    exact hidx i w hw
  · intro _ i w hw hwne
    show TraceEv.dispatch i ∈ preMark (s.trace ++ [TraceEv.cancelMark])
    cases hab : s.aborted with
    | true => exact preMark_mono (hlive hab i w hw hwne)
    | false =>
        have hnomk : TraceEv.cancelMark ∉ s.trace := by
          intro hx
          have hx2 := hmark.mpr hx
          rw [hab] at hx2
          exact Bool.noConfusion hx2
        have hd : TraceEv.dispatch i ∈ s.trace :=
          dispatch_mem_of_lt hL.hdisp (hidx i w hw)
        refine preMark_mono ?_
        rw [preMark_of_not_mem hnomk]
        exact hd
  · intro a b hsplit i e hmem
    show TraceEv.dispatch i ∈ preMark (s.trace ++ [TraceEv.cancelMark])
    have hsplit2 : s.trace ++ [TraceEv.cancelMark] = a ++ TraceEv.cancelMark :: b :=
      hsplit
    rcases List.append_eq_append_iff.mp hsplit2 with ⟨k, hk1, hk2⟩ | ⟨k, hk1, hk2⟩
    · have hlen := congrArg List.length hk2
      simp only [List.length_singleton, List.length_append, List.length_cons, List.length_nil] at hlen
      have hb : b = [] := List.length_eq_zero.mp (by omega)
      rw [hb] at hmem
      exact absurd hmem (List.not_mem_nil _)
    · cases k with
      | nil =>
          simp only [List.nil_append] at hk2
          have hb : b = [] := by
            have h2 := congrArg List.tail hk2
            exact h2
          rw [hb] at hmem
          exact absurd hmem (List.not_mem_nil _)
      | cons k0 kr =>
          simp only [List.cons_append, List.cons.injEq] at hk2
          obtain ⟨hk0, hb⟩ := hk2
          rw [hb] at hmem
          rcases List.mem_append.mp hmem with hh | hh
          · refine preMark_mono (hattr a kr ?_ i e hh)
            rw [hk1, ← hk0]
          · have hx := List.mem_singleton.mp hh
            exact absurd hx (by intro hc; exact TraceEv.noConfusion hc)


/-! ### engStep facts used by the attribution and counting invariants -/

/-- A worker segment that continues (returns a next state) under an aborted signal
cannot be at its entry gate: a `start` segment with the signal aborted throws at the
abort check and its promise settles. -/
theorem engStep_some_ab_ne_start {urls : List String}
    {fetchMap : String → Except JsError Dnode} {i : Nat} {w : WSt} {eng eng2 : EngSt}
    {w2 : WSt} {evs : List WEv}
    (heq : engStep urls fetchMap i w eng true = (eng2, some w2, evs)) :
    w ≠ WSt.start := by
  intro hw
  subst hw
  simp [engStep] at heq

/-- A worker segment that settles under an aborted signal either was the entry gate
(which emits nothing) or was already past it. -/
theorem engStep_none_ab_attr {urls : List String}
    {fetchMap : String → Except JsError Dnode} {i : Nat} {w : WSt} {eng eng2 : EngSt}
    {evs : List WEv}
    (heq : engStep urls fetchMap i w eng true = (eng2, none, evs)) :
    evs = [] ∨ w ≠ WSt.start := by
  cases w with
  | start =>
      have heq3 : ((eng, none, []) : EngSt × Option WSt × List WEv) =
          (eng2, none, evs) := heq
      exact Or.inl (congrArg (fun p => p.2.2) heq3).symm
  | wpause => exact Or.inr (fun hw => WSt.noConfusion hw)
  | waud k acc => exact Or.inr (fun hw => WSt.noConfusion hw)

/-- The engine-shared `completed` counter moves by at most one per worker segment, and
only in the segment in which the worker settles (the synchronous tail of processUrl). -/
theorem engStep_completed_le {urls : List String}
    {fetchMap : String → Except JsError Dnode} {i : Nat} {w : WSt} {eng eng2 : EngSt}
    {ab : Bool} {o : Option WSt} {evs : List WEv}
    (heq : engStep urls fetchMap i w eng ab = (eng2, o, evs)) :
    eng2.completed ≤ eng.completed + 1 ∧ (o ≠ none → eng2.completed = eng.completed) := by
  cases w with
  | start =>
      simp only [engStep] at heq
      split at heq
      · simp only [Prod.mk.injEq] at heq
        obtain ⟨h1, h2, h3⟩ := heq
        subst h1
        subst h2
        exact ⟨Nat.le_succ _, fun hno => absurd rfl hno⟩
      · split at heq
        · simp only [Prod.mk.injEq] at heq
          obtain ⟨h1, h2, h3⟩ := heq
          subst h1
          subst h2
          exact ⟨Nat.le_succ _, fun _ => rfl⟩
        · simp only [Prod.mk.injEq] at heq
          obtain ⟨h1, h2, h3⟩ := heq
          subst h1
          subst h2
          exact ⟨Nat.le_succ _, fun _ => rfl⟩
  | wpause =>
      simp only [engStep] at heq
      split at heq
      · simp only [Prod.mk.injEq] at heq
        obtain ⟨h1, h2, h3⟩ := heq
        subst h1
        subst h2
        exact ⟨Nat.le_succ _, fun _ => rfl⟩
      · simp only [Prod.mk.injEq] at heq
        obtain ⟨h1, h2, h3⟩ := heq
        subst h1
        subst h2
        exact ⟨Nat.le_succ _, fun _ => rfl⟩
  | waud k acc =>
      simp only [engStep, engFinal] at heq
      split at heq
      · simp only [Prod.mk.injEq] at heq
        obtain ⟨h1, h2, h3⟩ := heq
        subst h1
        subst h2
        exact ⟨Nat.le.refl, fun hno => absurd rfl hno⟩
      · simp only [Prod.mk.injEq] at heq
        obtain ⟨h1, h2, h3⟩ := heq
        subst h1
        subst h2
        exact ⟨Nat.le_succ _, fun _ => rfl⟩

/-! ### Preservation of the attribution invariant -/

/-- claimLogic (for the engine machine) preserves the attribution invariant: the only
new task it can queue is a fresh worker at its entry gate, for the item it just
dispatched. -/
theorem AInv_claimpop {urls : List String} {fetchMap : String → Except JsError Dnode}
    {s : LState EngSt WSt} {l₁ l₂ : List (LTask WSt)} {t : LTask WSt}
    (h : AInv s) (hsplit : s.tasks = l₁ ++ t :: l₂) :
    AInv (claimLogic (engM urls fetchMap) {s with tasks := l₁ ++ l₂}) := by
  unfold claimLogic
  split
  next hn =>
    cases hset : s.settled with
    | none =>
        refine AInv_transfer ([] : List TraceEv) h ?_ ?_ ?_ ?_ ?_ ?_
        · exact Nat.le.refl
        · rfl
        · exact (List.append_nil s.trace).symm
        · exact List.not_mem_nil _
        · intro i w hm
          have hm2 : LTask.work i w ∈ LTask.econt :: (l₁ ++ l₂) := hm
          rcases List.mem_cons.mp hm2 with hh | hh
          · exact LTask.noConfusion hh
          · refine Or.inl ?_
            rw [hsplit]
            exact mem_of_mem_removed hh
        · intro _ i e hm
          exact absurd hm (List.not_mem_nil _)
    | some v =>
        refine AInv_transfer ([] : List TraceEv) h ?_ ?_ ?_ ?_ ?_ ?_
        · exact Nat.le.refl
        · rfl
        · exact (List.append_nil s.trace).symm
        · exact List.not_mem_nil _
        · intro i w hm
          have hm2 : LTask.work i w ∈ l₁ ++ l₂ := hm
          refine Or.inl ?_
          rw [hsplit]
          exact mem_of_mem_removed hm2
        · intro _ i e hm
          exact absurd hm (List.not_mem_nil _)
  next hn =>
    split
    next hgate =>
      refine AInv_transfer ([] : List TraceEv) h ?_ ?_ ?_ ?_ ?_ ?_
      · exact Nat.le.refl
      · rfl
      · exact (List.append_nil s.trace).symm
      · exact List.not_mem_nil _
      · intro i w hm
        have hm2 : LTask.work i w ∈ l₁ ++ l₂ := hm
        refine Or.inl ?_
        rw [hsplit]
        exact mem_of_mem_removed hm2
      · intro _ i e hm
        exact absurd hm (List.not_mem_nil _)
    next hgate =>
      refine AInv_transfer [TraceEv.dispatch s.completed] h ?_ ?_ ?_ ?_ ?_ ?_
      · exact Nat.le_succ _
      · rfl
      · rfl
      · intro hm
        exact TraceEv.noConfusion (List.mem_singleton.mp hm)
      · intro i w hm
        have hm2 : LTask.work i w ∈
            LTask.work s.completed WSt.start :: (l₁ ++ l₂) := hm
        rcases List.mem_cons.mp hm2 with hh | hh
        · injection hh with h1 h2
          subst h1
          subst h2
          refine Or.inr ⟨Nat.lt_succ_self _, ?_⟩
          intro _ hwne
          exact absurd rfl hwne
        · refine Or.inl ?_
          rw [hsplit]
          exact mem_of_mem_removed hh
      · intro _ i e hm
        exact TraceEv.noConfusion (List.mem_singleton.mp hm)

/-- One event-loop step of the engine machine preserves the attribution invariant. -/
theorem AInv_step {urls : List String} {fetchMap : String → Except JsError Dnode}
    {s s2 : LState EngSt WSt} (h : AInv s) (hL : LInv s)
    (hs : Step (engM urls fetchMap) s s2) : AInv s2 := by
  cases hs with
  | setPause p =>
      refine AInv_transfer [TraceEv.pauseMark p] h ?_ ?_ ?_ ?_ ?_ ?_
      · exact Nat.le.refl
      · rfl
      · rfl
      · intro hm
        exact TraceEv.noConfusion (List.mem_singleton.mp hm)
      · intro i w hm
        exact Or.inl hm
      · intro _ i e hm
        exact TraceEv.noConfusion (List.mem_singleton.mp hm)
  | cancel => exact AInv_cancel h hL
  | task l₁ l₂ t hsplit =>
      cases t with
      | entry =>
          show AInv (applyTask (engM urls fetchMap) {s with tasks := l₁ ++ l₂}
            LTask.entry)
          simp only [applyTask]
          split
          next hca =>
            cases hset : s.settled with
            | none =>
                refine AInv_transfer ([] : List TraceEv) h ?_ ?_ ?_ ?_ ?_ ?_
                · exact Nat.le.refl
                · rfl
                · exact (List.append_nil s.trace).symm
                · exact List.not_mem_nil _
                · intro i w hm
                  have hm2 : LTask.work i w ∈ LTask.econt :: (l₁ ++ l₂) := hm
                  rcases List.mem_cons.mp hm2 with hh | hh
                  · exact LTask.noConfusion hh
                  · refine Or.inl ?_
                    rw [hsplit]
                    exact mem_of_mem_removed hh
                · intro _ i e hm
                  exact absurd hm (List.not_mem_nil _)
            | some v =>
                refine AInv_transfer ([] : List TraceEv) h ?_ ?_ ?_ ?_ ?_ ?_
                · exact Nat.le.refl
                · rfl
                · exact (List.append_nil s.trace).symm
                · exact List.not_mem_nil _
                · intro i w hm
                  have hm2 : LTask.work i w ∈ l₁ ++ l₂ := hm
                  refine Or.inl ?_
                  rw [hsplit]
                  exact mem_of_mem_removed hm2
                · intro _ i e hm
                  exact absurd hm (List.not_mem_nil _)
          next =>
            split
            next =>
              refine AInv_transfer ([] : List TraceEv) h ?_ ?_ ?_ ?_ ?_ ?_
              · exact Nat.le.refl
              · rfl
              · exact (List.append_nil s.trace).symm
              · exact List.not_mem_nil _
              · intro i w hm
                have hm2 : LTask.work i w ∈ LTask.pwait :: (l₁ ++ l₂) := hm
                rcases List.mem_cons.mp hm2 with hh | hh
                · exact LTask.noConfusion hh
                · refine Or.inl ?_
                  rw [hsplit]
                  exact mem_of_mem_removed hh
              · intro _ i e hm
                exact absurd hm (List.not_mem_nil _)
            next =>
              exact AInv_claimpop h hsplit
      | pwait =>
          show AInv (applyTask (engM urls fetchMap) {s with tasks := l₁ ++ l₂}
            LTask.pwait)
          simp only [applyTask]
          split
          next =>
            refine AInv_transfer ([] : List TraceEv) h ?_ ?_ ?_ ?_ ?_ ?_
            · exact Nat.le.refl
            · rfl
            · exact (List.append_nil s.trace).symm
            · exact List.not_mem_nil _
            · intro i w hm
              have hm2 : LTask.work i w ∈ LTask.pwait :: (l₁ ++ l₂) := hm
              rcases List.mem_cons.mp hm2 with hh | hh
              · exact LTask.noConfusion hh
              · refine Or.inl ?_
                rw [hsplit]
                exact mem_of_mem_removed hh
            · intro _ i e hm
              exact absurd hm (List.not_mem_nil _)
          next =>
            exact AInv_claimpop h hsplit
      | delay =>
          show AInv (applyTask (engM urls fetchMap) {s with tasks := l₁ ++ l₂}
            LTask.delay)
          simp only [applyTask]
          refine AInv_transfer ([] : List TraceEv) h ?_ ?_ ?_ ?_ ?_ ?_
          · exact Nat.le.refl
          · rfl
          · exact (List.append_nil s.trace).symm
          · exact List.not_mem_nil _
          · intro i w hm
            have hm2 : LTask.work i w ∈ LTask.entry :: (l₁ ++ l₂) := hm
            rcases List.mem_cons.mp hm2 with hh | hh
            · exact LTask.noConfusion hh
            · refine Or.inl ?_
              rw [hsplit]
              exact mem_of_mem_removed hh
          · intro _ i e hm
            exact absurd hm (List.not_mem_nil _)
      | work i w =>
          have horig : LTask.work i w ∈ s.tasks := by
            rw [hsplit]
            simp
          show AInv (applyTask (engM urls fetchMap) {s with tasks := l₁ ++ l₂}
            (LTask.work i w))
          simp only [applyTask]
          split
          next eng2 w2 evs heq =>
            have heq2 : engStep urls fetchMap i w s.eng s.aborted =
                (eng2, some w2, evs) := heq
            refine AInv_transfer (evs.map (TraceEv.wev i)) h ?_ ?_ ?_ ?_ ?_ ?_
            · exact Nat.le.refl
            · rfl
            · rfl
            · exact cancelMark_not_mem_wevs
            · intro j wj hm
              have hm2 : LTask.work j wj ∈ LTask.work i w2 :: (l₁ ++ l₂) := hm
              rcases List.mem_cons.mp hm2 with hh | hh
              · injection hh with h1 h2
                rw [h1]
                refine Or.inr ⟨h.hidx i w horig, ?_⟩
                intro habt _
                have hne : w ≠ WSt.start := by
                  rw [habt] at heq2
                  exact engStep_some_ab_ne_start heq2
                exact h.hlive habt i w horig hne
              · refine Or.inl ?_
                rw [hsplit]
                exact mem_of_mem_removed hh
            · intro habt j e hm
              have hj := wev_mem_wevs_idx hm
              rw [hj]
              have hne : w ≠ WSt.start := by
                rw [habt] at heq2
                exact engStep_some_ab_ne_start heq2
              exact h.hlive habt i w horig hne
          next eng2 evs heq =>
            have heq2 : engStep urls fetchMap i w s.eng s.aborted =
                (eng2, none, evs) := heq
            refine AInv_transfer (evs.map (TraceEv.wev i)) h ?_ ?_ ?_ ?_ ?_ ?_
            · exact Nat.le.refl
            · rfl
            · rfl
            · exact cancelMark_not_mem_wevs
            · intro j wj hm
              have hm2 : LTask.work j wj ∈ LTask.fin i :: (l₁ ++ l₂) := hm
              rcases List.mem_cons.mp hm2 with hh | hh
              · exact LTask.noConfusion hh
              · refine Or.inl ?_
                rw [hsplit]
                exact mem_of_mem_removed hh
            · intro habt j e hm
              rw [habt] at heq2
              rcases engStep_none_ab_attr heq2 with he | hne
              · rw [he] at hm
                exact absurd hm (List.not_mem_nil _)
              · have hj := wev_mem_wevs_idx hm
                rw [hj]
                exact h.hlive habt i w horig hne
      | fin j =>
          show AInv (applyTask (engM urls fetchMap) {s with tasks := l₁ ++ l₂}
            (LTask.fin j))
          simp only [applyTask]
          split
          next =>
            refine AInv_transfer ([] : List TraceEv) h ?_ ?_ ?_ ?_ ?_ ?_
            · exact Nat.le.refl
            · rfl
            · exact (List.append_nil s.trace).symm
            · exact List.not_mem_nil _
            · intro i w hm
              have hm2 : LTask.work i w ∈ LTask.delay :: (l₁ ++ l₂) := hm
              rcases List.mem_cons.mp hm2 with hh | hh
              · exact LTask.noConfusion hh
              · refine Or.inl ?_
                rw [hsplit]
                exact mem_of_mem_removed hh
            · intro _ i e hm
              exact absurd hm (List.not_mem_nil _)
          next =>
            refine AInv_transfer ([] : List TraceEv) h ?_ ?_ ?_ ?_ ?_ ?_
            · exact Nat.le.refl
            · rfl
            · exact (List.append_nil s.trace).symm
            · exact List.not_mem_nil _
            · intro i w hm
              have hm2 : LTask.work i w ∈ LTask.entry :: (l₁ ++ l₂) := hm
              rcases List.mem_cons.mp hm2 with hh | hh
              · exact LTask.noConfusion hh
              · refine Or.inl ?_
                rw [hsplit]
                exact mem_of_mem_removed hh
            · intro _ i e hm
              exact absurd hm (List.not_mem_nil _)
      | econt =>
          show AInv (applyTask (engM urls fetchMap) {s with tasks := l₁ ++ l₂}
            LTask.econt)
          simp only [applyTask]
          split
          next heq =>
            refine AInv_transfer [TraceEv.complete] h ?_ ?_ ?_ ?_ ?_ ?_
            · exact Nat.le.refl
            · rfl
            · rfl
            · intro hm
              exact TraceEv.noConfusion (List.mem_singleton.mp hm)
            · intro i w hm
              have hm2 : LTask.work i w ∈ l₁ ++ l₂ := hm
              refine Or.inl ?_
              rw [hsplit]
              exact mem_of_mem_removed hm2
            · intro _ i e hm
              exact TraceEv.noConfusion (List.mem_singleton.mp hm)
          next e heq =>
            split
            next =>
              refine AInv_transfer [TraceEv.errorEv "system" e.message] h ?_ ?_ ?_ ?_ ?_ ?_
              · exact Nat.le.refl
              · rfl
              · rfl
              · intro hm
                exact TraceEv.noConfusion (List.mem_singleton.mp hm)
              · intro i w hm
                have hm2 : LTask.work i w ∈ l₁ ++ l₂ := hm
                refine Or.inl ?_
                rw [hsplit]
                exact mem_of_mem_removed hm2
              · intro _ i e hm
                exact TraceEv.noConfusion (List.mem_singleton.mp hm)
            next =>
              refine AInv_transfer ([] : List TraceEv) h ?_ ?_ ?_ ?_ ?_ ?_
              · exact Nat.le.refl
              · rfl
              · exact (List.append_nil s.trace).symm
              · exact List.not_mem_nil _
              · intro i w hm
                have hm2 : LTask.work i w ∈ l₁ ++ l₂ := hm
                refine Or.inl ?_
                rw [hsplit]
                exact mem_of_mem_removed hm2
              · intro _ i e hm
                exact absurd hm (List.not_mem_nil _)
          next heq =>
            refine AInv_transfer ([] : List TraceEv) h ?_ ?_ ?_ ?_ ?_ ?_
            · exact Nat.le.refl
            · rfl
            · exact (List.append_nil s.trace).symm
            · exact List.not_mem_nil _
            · intro i w hm
              have hm2 : LTask.work i w ∈ l₁ ++ l₂ := hm
              refine Or.inl ?_
              rw [hsplit]
              exact mem_of_mem_removed hm2
            · intro _ i e hm
              exact absurd hm (List.not_mem_nil _)

/-- The attribution invariant holds at the initial state. -/
theorem AInv_init (n maxC : Nat) (d : Bool) (eng0 : EngSt) :
    AInv (initState n maxC d eng0) := by
  refine ⟨?_, ?_, ?_, ?_⟩
  · constructor
    · intro hab
      exact Bool.noConfusion hab
    · intro hm
      exact absurd hm (List.not_mem_nil _)
  · intro i w hm
    have hx := List.eq_of_mem_replicate hm
    exact LTask.noConfusion hx
  · intro hab
    exact Bool.noConfusion hab
  · intro a b hsp i e hm
    have h0 : ([] : List TraceEv) = a ++ TraceEv.cancelMark :: b := hsp
    have hlen := congrArg List.length h0
    simp only [List.length_nil, List.length_append, List.length_cons] at hlen
    exact absurd hlen (by omega)

/-- The attribution invariant holds in every state an engine run reaches. -/
theorem AInv_reach {urls : List String} {fetchMap : String → Except JsError Dnode}
    {maxC : Nat} {d : Bool} {s : LState EngSt WSt}
    (hr : Reach (engM urls fetchMap) (engInit urls maxC d) s) : AInv s := by
  have hcomb : AInv s ∧ LInv s := by
    induction hr with
    | refl =>
        have h1 : AInv (initState urls.length maxC d (⟨0, false⟩ : EngSt)) :=
          AInv_init urls.length maxC d ⟨0, false⟩
        have h2 : LInv (initState urls.length maxC d (⟨0, false⟩ : EngSt) :
            LState EngSt WSt) :=
          LInv_init urls.length maxC d ⟨0, false⟩
        exact ⟨h1, h2⟩
    | tail hr2 hstep ih => exact ⟨AInv_step ih.1 ih.2 hstep, LInv_step ih.2 hstep⟩
  exact hcomb.1

/-! ### The engine-completed counter never outruns the claim cursor -/

theorem isWork_entry : isWork (LTask.entry : LTask ω) = false := rfl
theorem isWork_pwait : isWork (LTask.pwait : LTask ω) = false := rfl
theorem isWork_delay : isWork (LTask.delay : LTask ω) = false := rfl
theorem isWork_econt : isWork (LTask.econt : LTask ω) = false := rfl
theorem isWork_work (i : Nat) (w : ω) : isWork (LTask.work i w) = true := rfl
theorem isWork_fin (i : Nat) : isWork (LTask.fin i : LTask ω) = false := rfl

attribute [simp] isWork_entry isWork_pwait isWork_delay isWork_econt isWork_work
  isWork_fin

/-- The engine's own `completed` counter plus the workers still in flight never
exceeds the limiter's claim cursor: processUrl increments `completed` exactly once,
when its worker settles, and every worker was claimed first. -/
def ECnt (s : LState EngSt WSt) : Prop :=
  s.eng.completed + countWork s.tasks ≤ s.completed

theorem countWork_cons_plain {u : LTask ω} {l : List (LTask ω)}
    (hu : isWork u = false) : countWork (u :: l) = countWork l := by
  simp [countWork, List.countP_cons, hu]

theorem ECnt_claimpop {urls : List String} {fetchMap : String → Except JsError Dnode}
    {s : LState EngSt WSt} {l₁ l₂ : List (LTask WSt)}
    (hw : s.eng.completed + countWork (l₁ ++ l₂) ≤ s.completed) :
    ECnt (claimLogic (engM urls fetchMap) {s with tasks := l₁ ++ l₂}) := by
  unfold claimLogic
  split
  next hn =>
    cases hset : s.settled with
    | none =>
        show s.eng.completed + countWork (LTask.econt :: (l₁ ++ l₂)) ≤ s.completed
        rw [countWork_cons_plain isWork_econt]
        exact hw
    | some v =>
        exact hw
  next hn =>
    split
    next hgate => exact hw
    next hgate =>
      show s.eng.completed +
          countWork (LTask.work s.completed WSt.start :: (l₁ ++ l₂)) ≤ s.completed + 1
      have hx : countWork (LTask.work s.completed WSt.start :: (l₁ ++ l₂)) =
          countWork (l₁ ++ l₂) + 1 := by
        simp [countWork, List.countP_cons]
      omega

/-- One event-loop step of the engine machine preserves the counting bound. -/
theorem ECnt_step {urls : List String} {fetchMap : String → Except JsError Dnode}
    {s s2 : LState EngSt WSt} (h : ECnt s)
    (hs : Step (engM urls fetchMap) s s2) : ECnt s2 := by
  cases hs with
  | setPause p => exact h
  | cancel => exact h
  | task l₁ l₂ t hsplit =>
      have hw0 : s.eng.completed + countWork (l₁ ++ t :: l₂) ≤ s.completed := by
        rw [← hsplit]
        exact h
      have hmid := countP_middle l₁ l₂ t (fun t => isWork t)
      have hw : s.eng.completed + countWork (l₁ ++ l₂) ≤ s.completed := by
        have hmid2 : countWork (l₁ ++ t :: l₂) =
            countWork (l₁ ++ l₂) + if isWork t then 1 else 0 := hmid
        omega
      cases t with
      | entry =>
          show ECnt (applyTask (engM urls fetchMap) {s with tasks := l₁ ++ l₂}
            LTask.entry)
          simp only [applyTask]
          split
          next =>
            cases hset : s.settled with
            | none =>
                show s.eng.completed + countWork (LTask.econt :: (l₁ ++ l₂)) ≤
                  s.completed
                rw [countWork_cons_plain isWork_econt]
                exact hw
            | some v =>
                exact hw
          next =>
            split
            next =>
              show s.eng.completed + countWork (LTask.pwait :: (l₁ ++ l₂)) ≤
                s.completed
              rw [countWork_cons_plain isWork_pwait]
              exact hw
            next =>
              exact ECnt_claimpop hw
      | pwait =>
          show ECnt (applyTask (engM urls fetchMap) {s with tasks := l₁ ++ l₂}
            LTask.pwait)
          simp only [applyTask]
          split
          next =>
            show s.eng.completed + countWork (LTask.pwait :: (l₁ ++ l₂)) ≤ s.completed
            rw [countWork_cons_plain isWork_pwait]
            exact hw
          next =>
            exact ECnt_claimpop hw
      | delay =>
          show ECnt (applyTask (engM urls fetchMap) {s with tasks := l₁ ++ l₂}
            LTask.delay)
          simp only [applyTask]
          show s.eng.completed + countWork (LTask.entry :: (l₁ ++ l₂)) ≤ s.completed
          rw [countWork_cons_plain isWork_entry]
          exact hw
      | work i w =>
          have hmid3 : countWork (l₁ ++ LTask.work i w :: l₂) =
              countWork (l₁ ++ l₂) + 1 := by
            have hmid2 : countWork (l₁ ++ LTask.work i w :: l₂) =
                countWork (l₁ ++ l₂) + if isWork (LTask.work i w) then 1 else 0 :=
              countP_middle l₁ l₂ _ _
            simpa using hmid2
          show ECnt (applyTask (engM urls fetchMap) {s with tasks := l₁ ++ l₂}
            (LTask.work i w))
          simp only [applyTask]
          split
          next eng2 w2 evs heq =>
            have heq2 : engStep urls fetchMap i w s.eng s.aborted =
                (eng2, some w2, evs) := heq
            have hc := (engStep_completed_le heq2).2 (by intro hx; exact Option.noConfusion hx)
            show eng2.completed + countWork (LTask.work i w2 :: (l₁ ++ l₂)) ≤
              s.completed
            have hx : countWork (LTask.work i w2 :: (l₁ ++ l₂)) =
                countWork (l₁ ++ l₂) + 1 := by
              simp [countWork, List.countP_cons]
            omega
          next eng2 evs heq =>
            have heq2 : engStep urls fetchMap i w s.eng s.aborted =
                (eng2, none, evs) := heq
            have hc := (engStep_completed_le heq2).1
            show eng2.completed + countWork (LTask.fin i :: (l₁ ++ l₂)) ≤ s.completed
            rw [countWork_cons_plain (isWork_fin i)]
            omega
      | fin j =>
          show ECnt (applyTask (engM urls fetchMap) {s with tasks := l₁ ++ l₂}
            (LTask.fin j))
          simp only [applyTask]
          split
          next =>
            show s.eng.completed + countWork (LTask.delay :: (l₁ ++ l₂)) ≤ s.completed
            rw [countWork_cons_plain isWork_delay]
            exact hw
          next =>
            show s.eng.completed + countWork (LTask.entry :: (l₁ ++ l₂)) ≤ s.completed
            rw [countWork_cons_plain isWork_entry]
            exact hw
      | econt =>
          show ECnt (applyTask (engM urls fetchMap) {s with tasks := l₁ ++ l₂}
            LTask.econt)
          simp only [applyTask]
          split
          next heq => exact hw
          next e heq =>
            split
            next => exact hw
            next => exact hw
          next heq => exact hw

theorem countWork_replicate_entry (k : Nat) :
    countWork (List.replicate k (LTask.entry : LTask ω)) = 0 := by
  induction k with
  | zero => rfl
  | succ m ih => simpa [List.replicate_succ, countWork, List.countP_cons] using ih

/-- The counting bound holds initially and hence in every reachable state. -/
theorem ECnt_reach {urls : List String} {fetchMap : String → Except JsError Dnode}
    {maxC : Nat} {d : Bool} {s : LState EngSt WSt}
    (hr : Reach (engM urls fetchMap) (engInit urls maxC d) s) : ECnt s := by
  induction hr with
  | refl =>
      show (0 : Nat) + countWork (List.replicate (min maxC urls.length)
        (LTask.entry : LTask WSt)) ≤ 0
      rw [countWork_replicate_entry]
  | tail hr2 hstep ih => exact ECnt_step ih hstep

/-- In every reachable engine state the reported completed count is bounded by the
URL count. -/
theorem engCompleted_le {urls : List String} {fetchMap : String → Except JsError Dnode}
    {maxC : Nat} {d : Bool} {s : LState EngSt WSt}
    (hr : Reach (engM urls fetchMap) (engInit urls maxC d) s) :
    s.eng.completed ≤ urls.length := by
  have hE : ECnt s := ECnt_reach hr
  have h0 : LInv (engInit urls maxC d) :=
    LInv_init urls.length maxC d (⟨0, false⟩ : EngSt)
  have hL : LInv s := LInv_reach h0 hr
  have hn : s.n = urls.length := (Reach_consts hr).1
  have hcl := hL.hcl
  have hEx : s.eng.completed + countWork s.tasks ≤ s.completed := hE
  omega

/-- C5 amended: after cancel() the status becomes Cancelled; the completed count
reported by the engine never exceeds the URL count; and no item that had not been
dispatched before the cancellation ever emits an onResults/onProgress event after it —
every worker event recorded after the cancel mark belongs to an item whose dispatch
precedes the (first) cancel mark.  (The counterexample run shows the converse: an item
in flight at cancellation may still emit after it.) -/
theorem c5_amended :
    (∀ st, statusReduce st AuditAction.cancelAudit = RunStatus.cancelled) ∧
    (∀ (urls : List String) (fetchMap : String → Except JsError Dnode)
      (maxC : Nat) (d : Bool) (s : LState EngSt WSt),
      Reach (engM urls fetchMap) (engInit urls maxC d) s →
      s.eng.completed ≤ urls.length ∧
      (∀ a b, s.trace = a ++ TraceEv.cancelMark :: b →
        ∀ i e, TraceEv.wev i e ∈ b → TraceEv.dispatch i ∈ preMark s.trace)) := by
  constructor
  · intro st
    cases st <;> rfl
  · intro urls fetchMap maxC d s hr
    exact ⟨engCompleted_le hr, (AInv_reach hr).hattr⟩

/-- Closed witness for the amended C5, at the concrete cancelled two-URL run: the
status transition, the completed-count bound, and the attribution of the post-cancel
onProgress event of item 0 to its pre-cancel dispatch. -/
theorem c5_amended_witness :
    statusReduce RunStatus.running AuditAction.cancelAudit = RunStatus.cancelled ∧
    c4s7.eng.completed ≤ urlsC4.length ∧
    TraceEv.dispatch 0 ∈ preMark c4s7.trace := by
  have hmain := c5_amended
  have h2 := hmain.2 urlsC4 fetchFail 1 false c4s7 c4Reach
  refine ⟨hmain.1 RunStatus.running, h2.1, ?_⟩
  exact h2.2
    [TraceEv.dispatch 0, TraceEv.wev 0 (WEv.progress false "u1" 0 2)]
    [TraceEv.wev 0 (WEv.progress true "u2" 1 2),
     TraceEv.errorEv "system" "Processing cancelled"]
    (by decide) 0 (WEv.progress true "u2" 1 2) (by decide)


/-! ## Claim C7: per-item progress events and the final completed count -/

/-- Is this trace event the start-of-processing onProgress of item `i`? -/
def isStartEv (i : Nat) : TraceEv → Bool
  | .wev j (.progress false _ _ _) => j == i
  | _ => false

/-- Is this trace event the end-of-processing onProgress of item `i`? -/
def isEndEv (i : Nat) : TraceEv → Bool
  | .wev j (.progress true _ _ _) => j == i
  | _ => false

/-- How many start-of-processing onProgress events item `i` has emitted. -/
def startCount (i : Nat) (tr : List TraceEv) : Nat := tr.countP (isStartEv i)

/-- How many end-of-processing onProgress events item `i` has emitted. -/
def endCount (i : Nat) (tr : List TraceEv) : Nat := tr.countP (isEndEv i)

/-- The item index a continuation is working on, if any. -/
def pIdx : LTask WSt → Option Nat
  | .work i _ => some i
  | .fin i => some i
  | _ => none

/-- How many continuations in the queue carry item index `i`. -/
def countIdx (i : Nat) (ts : List (LTask WSt)) : Nat :=
  ts.countP (fun t => pIdx t == some i)

/-- How many start events a processUrl worker in state `w` has emitted. -/
def phaseOf : WSt → Nat
  | .start => 0
  | .wpause => 0
  | .waud _ _ => 1

theorem startCount_append (j : Nat) (a b : List TraceEv) :
    startCount j (a ++ b) = startCount j a + startCount j b := by
  simp [startCount, List.countP_append]

theorem endCount_append (j : Nat) (a b : List TraceEv) :
    endCount j (a ++ b) = endCount j a + endCount j b := by
  simp [endCount, List.countP_append]

theorem scount_map_ne {j i : Nat} (h : j ≠ i) (evs : List WEv) :
    startCount j (evs.map (TraceEv.wev i)) = 0 := by
  induction evs with
  | nil => rfl
  | cons e rest ih =>
      have hp : isStartEv j (TraceEv.wev i e) = false := by
        cases e with
        | progress b u c n =>
            cases b with
            | false =>
                show (i == j) = false
                exact beq_eq_false_iff_ne.mpr (fun hx => h hx.symm)
            | true => rfl
        | results rs => rfl
      show startCount j (TraceEv.wev i e :: rest.map (TraceEv.wev i)) = 0
      simp only [startCount, List.countP_cons, hp, if_false]
      exact ih

theorem ecount_map_ne {j i : Nat} (h : j ≠ i) (evs : List WEv) :
    endCount j (evs.map (TraceEv.wev i)) = 0 := by
  induction evs with
  | nil => rfl
  | cons e rest ih =>
      have hp : isEndEv j (TraceEv.wev i e) = false := by
        cases e with
        | progress b u c n =>
            cases b with
            | true =>
                show (i == j) = false
                exact beq_eq_false_iff_ne.mpr (fun hx => h hx.symm)
            | false => rfl
        | results rs => rfl
      show endCount j (TraceEv.wev i e :: rest.map (TraceEv.wev i)) = 0
      simp only [endCount, List.countP_cons, hp, if_false]
      exact ih

theorem scount_start_emit (i : Nat) (u : String) (c n : Nat) :
    startCount i (List.map (TraceEv.wev i) [WEv.progress false u c n]) = 1 := by
  show startCount i [TraceEv.wev i (WEv.progress false u c n)] = 1
  simp [startCount, List.countP_cons, isStartEv]

theorem ecount_start_emit (i : Nat) (u : String) (c n : Nat) :
    endCount i (List.map (TraceEv.wev i) [WEv.progress false u c n]) = 0 := rfl

theorem scount_end_emit1 (i : Nat) (u : String) (c n : Nat) :
    startCount i (List.map (TraceEv.wev i) [WEv.progress true u c n]) = 0 := rfl

theorem ecount_end_emit1 (i : Nat) (u : String) (c n : Nat) :
    endCount i (List.map (TraceEv.wev i) [WEv.progress true u c n]) = 1 := by
  show endCount i [TraceEv.wev i (WEv.progress true u c n)] = 1
  simp [endCount, List.countP_cons, isEndEv]

theorem scount_end_emit2 (i : Nat) (rs : List AuditResult) (u : String) (c n : Nat) :
    startCount i
      (List.map (TraceEv.wev i) [WEv.results rs, WEv.progress true u c n]) = 0 := rfl

theorem ecount_end_emit2 (i : Nat) (rs : List AuditResult) (u : String) (c n : Nat) :
    endCount i
      (List.map (TraceEv.wev i) [WEv.results rs, WEv.progress true u c n]) = 1 := by
  show endCount i
    [TraceEv.wev i (WEv.results rs), TraceEv.wev i (WEv.progress true u c n)] = 1
  simp [endCount, List.countP_cons, isEndEv]

theorem pIdx_entry : pIdx LTask.entry = none := rfl
theorem pIdx_pwait : pIdx LTask.pwait = none := rfl
theorem pIdx_delay : pIdx LTask.delay = none := rfl
theorem pIdx_econt : pIdx LTask.econt = none := rfl
theorem pIdx_work (i : Nat) (w : WSt) : pIdx (LTask.work i w) = some i := rfl
theorem pIdx_fin (i : Nat) : pIdx (LTask.fin i) = some i := rfl

theorem isWork_of_pIdx_none {t : LTask WSt} (h : pIdx t = none) :
    isWork t = false := by
  cases t <;> first | rfl | exact Option.noConfusion h

theorem countIdx_cons (i : Nat) (u : LTask WSt) (l : List (LTask WSt)) :
    countIdx i (u :: l) = countIdx i l + if pIdx u == some i then 1 else 0 := by
  simp only [countIdx, List.countP_cons]

theorem countIdx_middle (i : Nat) (l₁ l₂ : List (LTask WSt)) (t : LTask WSt) :
    countIdx i (l₁ ++ t :: l₂) =
      countIdx i (l₁ ++ l₂) + if pIdx t == some i then 1 else 0 :=
  countP_middle l₁ l₂ t _

theorem countIdx_cons_none {u : LTask WSt} (hu : pIdx u = none) (i : Nat)
    (l : List (LTask WSt)) : countIdx i (u :: l) = countIdx i l := by
  rw [countIdx_cons, hu]
  rfl

theorem countIdx_middle_none {t : LTask WSt} (ht : pIdx t = none) (i : Nat)
    (l₁ l₂ : List (LTask WSt)) : countIdx i (l₁ ++ t :: l₂) = countIdx i (l₁ ++ l₂) := by
  rw [countIdx_middle, ht]
  rfl

theorem countIdx_zero_of_middle {i : Nat} {l₁ l₂ : List (LTask WSt)} {t : LTask WSt}
    (huniq : countIdx i (l₁ ++ t :: l₂) ≤ 1) (ht : pIdx t = some i) :
    countIdx i (l₁ ++ l₂) = 0 := by
  have hm := countIdx_middle i l₁ l₂ t
  rw [ht] at hm
  simp only [beq_self_eq_true, if_true] at hm
  omega

theorem pIdx_ne_of_countIdx_zero {i : Nat} {l : List (LTask WSt)}
    (h : countIdx i l = 0) {x : LTask WSt} (hx : x ∈ l) : ¬(pIdx x = some i) := by
  intro hp
  have hz := List.countP_eq_zero.mp h x hx
  rw [hp] at hz
  simp at hz

/-- The full case analysis of one processUrl segment: it either keeps sleeping in the
pause loop, emits its start onProgress and enters auditUrl, silently advances one
auditor, dies at the abort gate, or runs the synchronous tail (one end onProgress with
the incremented completed count, preceded by an onResults batch when non-empty). -/
theorem engStep_cases {urls : List String} {fetchMap : String → Except JsError Dnode}
    {i : Nat} {w : WSt} {eng eng2 : EngSt} {ab : Bool} {o : Option WSt}
    {evs : List WEv} (heq : engStep urls fetchMap i w eng ab = (eng2, o, evs)) :
    (o = some WSt.wpause ∧ phaseOf w = 0 ∧ evs = [] ∧ eng2 = eng) ∨
    ((∃ u c n, evs = [WEv.progress false u c n]) ∧ phaseOf w = 0 ∧
        (∃ k a, o = some (WSt.waud k a)) ∧ eng2 = eng) ∨
    (phaseOf w = 1 ∧ (∃ k a, o = some (WSt.waud k a)) ∧ evs = [] ∧ eng2 = eng) ∨
    (w = WSt.start ∧ ab = true ∧ o = none ∧ evs = [] ∧ eng2 = eng) ∨
    (phaseOf w = 1 ∧ o = none ∧
        (∃ u, evs = [WEv.progress true u (eng.completed + 1) urls.length] ∨
          ∃ rs, evs = [WEv.results rs,
            WEv.progress true u (eng.completed + 1) urls.length]) ∧
        eng2.completed = eng.completed + 1) := by
  cases w with
  | start =>
      simp only [engStep] at heq
      split at heq
      next hab2 =>
        simp only [Prod.mk.injEq] at heq
        obtain ⟨h1, h2, h3⟩ := heq
        exact Or.inr (Or.inr (Or.inr (Or.inl ⟨rfl, hab2, h2.symm, h3.symm, h1.symm⟩)))
      next hab2 =>
        split at heq
        next hp =>
          simp only [Prod.mk.injEq] at heq
          obtain ⟨h1, h2, h3⟩ := heq
          exact Or.inl ⟨h2.symm, rfl, h3.symm, h1.symm⟩
        next hp =>
          simp only [Prod.mk.injEq] at heq
          obtain ⟨h1, h2, h3⟩ := heq
          exact Or.inr (Or.inl ⟨⟨_, _, _, h3.symm⟩, rfl, ⟨0, [], h2.symm⟩, h1.symm⟩)
  | wpause =>
      simp only [engStep] at heq
      split at heq
      next hp =>
        simp only [Prod.mk.injEq] at heq
        obtain ⟨h1, h2, h3⟩ := heq
        exact Or.inl ⟨h2.symm, rfl, h3.symm, h1.symm⟩
      next hp =>
        simp only [Prod.mk.injEq] at heq
        obtain ⟨h1, h2, h3⟩ := heq
        exact Or.inr (Or.inl ⟨⟨_, _, _, h3.symm⟩, rfl, ⟨0, [], h2.symm⟩, h1.symm⟩)
  | waud k acc =>
      simp only [engStep, engFinal] at heq
      split at heq
      next hc =>
        simp only [Prod.mk.injEq] at heq
        obtain ⟨h1, h2, h3⟩ := heq
        refine Or.inr (Or.inr (Or.inr (Or.inr ⟨rfl, h2.symm,
          ⟨(if eng.completed + 1 < urls.length then urls.getD (eng.completed + 1) ""
            else ""), ?_⟩, ?_⟩)))
        · by_cases hae : acc.isEmpty = true
          · refine Or.inl ?_
            rw [← h3, if_pos hae, List.nil_append]
          · refine Or.inr ⟨acc, ?_⟩
            rw [← h3, if_neg hae]
            rfl
        · rw [← h1]
      next hc =>
        simp only [Prod.mk.injEq] at heq
        obtain ⟨h1, h2, h3⟩ := heq
        exact Or.inr (Or.inr (Or.inl ⟨rfl, ⟨k + 1, _, h2.symm⟩, h3.symm, h1.symm⟩))


/-- The per-item progress bookkeeping invariant of an engine run:
* an item at or past the claim cursor has emitted nothing;
* every queued worker/finally continuation works on a claimed item, and no item has
  two continuations;
* a worker has emitted exactly the start events of its phase and no end event;
* a settled worker (pending finally) has emitted one start and one end — unless it
  died at the abort gate, which can only happen once the signal is aborted;
* a retired item (claimed, no continuation left) likewise;
* while the signal is not aborted, the engine's completed counter accounts exactly
  for the settled workers;
* and the engine's completed counter value, when positive, was reported by some end
  onProgress event together with the total URL count. -/
structure PInv (urls : List String) (s : LState EngSt WSt) : Prop where
  hundisp : ∀ i, s.completed ≤ i → startCount i s.trace = 0 ∧ endCount i s.trace = 0
  hwidx : ∀ i w, LTask.work i w ∈ s.tasks → i < s.completed
  hfidx : ∀ i, LTask.fin i ∈ s.tasks → i < s.completed
  huniq : ∀ i, countIdx i s.tasks ≤ 1
  hw : ∀ i w, LTask.work i w ∈ s.tasks →
      startCount i s.trace = phaseOf w ∧ endCount i s.trace = 0
  hf : ∀ i, LTask.fin i ∈ s.tasks →
      (startCount i s.trace = 1 ∧ endCount i s.trace = 1) ∨
      (s.aborted = true ∧ startCount i s.trace = 0 ∧ endCount i s.trace = 0)
  hdone : ∀ i, i < s.completed → countIdx i s.tasks = 0 →
      (startCount i s.trace = 1 ∧ endCount i s.trace = 1) ∨
      (s.aborted = true ∧ startCount i s.trace = 0 ∧ endCount i s.trace = 0)
  heq2 : s.aborted = false → s.eng.completed + countWork s.tasks = s.completed
  hrch : s.eng.completed = 0 ∨
      ∃ j u, TraceEv.wev j (WEv.progress true u s.eng.completed urls.length) ∈ s.trace

/-- Transfer of the bookkeeping invariant across a step that emits no progress
events, claims nothing, leaves the engine counter alone, and only pops or pushes
index-free continuations. -/
theorem PInv_transfer (urls : List String) {s s2 : LState EngSt WSt}
    (E : List TraceEv) (h : PInv urls s)
    (hcomp : s2.completed = s.completed)
    (hab : s2.aborted = s.aborted)
    (hengc : s2.eng.completed = s.eng.completed)
    (htr : s2.trace = s.trace ++ E)
    (hE : ∀ j, startCount j E = 0 ∧ endCount j E = 0)
    (htk : s2.tasks = s.tasks ∨
      ∃ l₁ l₂ t, s.tasks = l₁ ++ t :: l₂ ∧ pIdx t = none ∧
        (s2.tasks = l₁ ++ l₂ ∨ ∃ u, pIdx u = none ∧ s2.tasks = u :: (l₁ ++ l₂))) :
    PInv urls s2 := by
  have hsc : ∀ j, startCount j s2.trace = startCount j s.trace := by
    intro j
    rw [htr, startCount_append, (hE j).1]
    exact Nat.add_zero _
  have hec : ∀ j, endCount j s2.trace = endCount j s.trace := by
    intro j
    rw [htr, endCount_append, (hE j).2]
    exact Nat.add_zero _
  have hmem : ∀ x, x ∈ s2.tasks → x ∈ s.tasks ∨ pIdx x = none := by
    intro x hx
    rcases htk with hh | ⟨l₁, l₂, t, hsp, ht, hh⟩
    · rw [hh] at hx
      exact Or.inl hx
    · rcases hh with hh | ⟨u, hu, hh⟩
      · rw [hh] at hx
        refine Or.inl ?_
        rw [hsp]
        exact mem_of_mem_removed hx
      · rw [hh] at hx
        rcases List.mem_cons.mp hx with hx2 | hx2
        · rw [hx2]
          exact Or.inr hu
        · refine Or.inl ?_
          rw [hsp]
          exact mem_of_mem_removed hx2
  have hcidx : ∀ j, countIdx j s2.tasks = countIdx j s.tasks := by
    intro j
    rcases htk with hh | ⟨l₁, l₂, t, hsp, ht, hh⟩
    · rw [hh]
    · rcases hh with hh | ⟨u, hu, hh⟩
      · rw [hh, hsp, countIdx_middle_none ht]
      · rw [hh, hsp, countIdx_middle_none ht, countIdx_cons_none hu]
  have hcw : countWork s2.tasks = countWork s.tasks := by
    rcases htk with hh | ⟨l₁, l₂, t, hsp, ht, hh⟩
    · rw [hh]
    · have htw := isWork_of_pIdx_none ht
      rcases hh with hh | ⟨u, hu, hh⟩
      · rw [hh, hsp]
        show countWork (l₁ ++ l₂) = countWork (l₁ ++ t :: l₂)
        unfold countWork
        rw [countP_middle l₁ l₂ t _, htw]
        rfl
      · have huw := isWork_of_pIdx_none hu
        rw [hh, hsp]
        show countWork (u :: (l₁ ++ l₂)) = countWork (l₁ ++ t :: l₂)
        unfold countWork
        rw [List.countP_cons, countP_middle l₁ l₂ t _, htw, huw]
  refine ⟨?_, ?_, ?_, ?_, ?_, ?_, ?_, ?_, ?_⟩
  · intro i hi
    rw [hcomp] at hi
    rw [hsc, hec]
    exact h.hundisp i hi
  · intro i w hm
    rcases hmem _ hm with hh | hh
    · rw [hcomp]
      exact h.hwidx i w hh
    · exact Option.noConfusion hh
  · intro i hm
    rcases hmem _ hm with hh | hh
    · rw [hcomp]
      exact h.hfidx i hh
    · exact Option.noConfusion hh
  · intro i
    rw [hcidx]
    exact h.huniq i
  · intro i w hm
    rcases hmem _ hm with hh | hh
    · rw [hsc, hec]
      exact h.hw i w hh
    · exact Option.noConfusion hh
  · intro i hm
    rcases hmem _ hm with hh | hh
    · rw [hsc, hec, hab]
      exact h.hf i hh
    · exact Option.noConfusion hh
  · intro i hi hz
    rw [hcomp] at hi
    rw [hcidx] at hz
    rw [hsc, hec, hab]
    exact h.hdone i hi hz
  · intro habf
    rw [hab] at habf
    rw [hengc, hcw, hcomp]
    exact h.heq2 habf
  · rcases h.hrch with h0 | ⟨j, u, hm⟩
    · refine Or.inl ?_
      rw [hengc]
      exact h0
    · refine Or.inr ⟨j, u, ?_⟩
      rw [hengc, htr]
      exact List.mem_append_left E hm

/-- Singleton non-worker trace events carry no progress counts. -/
theorem hE_dispatch (c : Nat) :
    ∀ j, startCount j [TraceEv.dispatch c] = 0 ∧ endCount j [TraceEv.dispatch c] = 0 :=
  fun _ => ⟨rfl, rfl⟩

theorem hE_pauseMark (p : Bool) :
    ∀ j, startCount j [TraceEv.pauseMark p] = 0 ∧
      endCount j [TraceEv.pauseMark p] = 0 :=
  fun _ => ⟨rfl, rfl⟩

theorem hE_cancelMark :
    ∀ j, startCount j [TraceEv.cancelMark] = 0 ∧ endCount j [TraceEv.cancelMark] = 0 :=
  fun _ => ⟨rfl, rfl⟩

theorem hE_complete :
    ∀ j, startCount j [TraceEv.complete] = 0 ∧ endCount j [TraceEv.complete] = 0 :=
  fun _ => ⟨rfl, rfl⟩

theorem hE_errorEv (u m : String) :
    ∀ j, startCount j [TraceEv.errorEv u m] = 0 ∧
      endCount j [TraceEv.errorEv u m] = 0 :=
  fun _ => ⟨rfl, rfl⟩

theorem hE_nil :
    ∀ j, startCount j ([] : List TraceEv) = 0 ∧ endCount j ([] : List TraceEv) = 0 :=
  fun _ => ⟨rfl, rfl⟩

/-- The bookkeeping invariant survives cancel(): every clause tolerates the abort
flag flipping to true, and the cancel mark carries no progress counts. -/
theorem PInv_cancel (urls : List String) {s : LState EngSt WSt} (h : PInv urls s) :
    PInv urls {s with isCancelled := true, aborted := true,
                      trace := s.trace ++ [TraceEv.cancelMark]} := by
  have hsc : ∀ j, startCount j (s.trace ++ [TraceEv.cancelMark]) =
      startCount j s.trace := by
    intro j
    rw [startCount_append, (hE_cancelMark j).1]
    exact Nat.add_zero _
  have hec : ∀ j, endCount j (s.trace ++ [TraceEv.cancelMark]) =
      endCount j s.trace := by
    intro j
    rw [endCount_append, (hE_cancelMark j).2]
    exact Nat.add_zero _
  refine ⟨?_, ?_, ?_, ?_, ?_, ?_, ?_, ?_, ?_⟩
  · intro i hi
    show startCount i (s.trace ++ [TraceEv.cancelMark]) = 0 ∧
      endCount i (s.trace ++ [TraceEv.cancelMark]) = 0
    rw [hsc, hec]
    exact h.hundisp i hi
  · intro i w hm
    exact h.hwidx i w hm
  · intro i hm
    exact h.hfidx i hm
  · intro i
    exact h.huniq i
  · intro i w hm
    show startCount i (s.trace ++ [TraceEv.cancelMark]) = phaseOf w ∧
      endCount i (s.trace ++ [TraceEv.cancelMark]) = 0
    rw [hsc, hec]
    exact h.hw i w hm
  · intro i hm
    show (startCount i (s.trace ++ [TraceEv.cancelMark]) = 1 ∧
        endCount i (s.trace ++ [TraceEv.cancelMark]) = 1) ∨
      (true = true ∧ startCount i (s.trace ++ [TraceEv.cancelMark]) = 0 ∧
        endCount i (s.trace ++ [TraceEv.cancelMark]) = 0)
    rw [hsc, hec]
    rcases h.hf i hm with hh | ⟨_, hh⟩
    · exact Or.inl hh
    · exact Or.inr ⟨rfl, hh⟩
  · intro i hi hz
    show (startCount i (s.trace ++ [TraceEv.cancelMark]) = 1 ∧
        endCount i (s.trace ++ [TraceEv.cancelMark]) = 1) ∨
      (true = true ∧ startCount i (s.trace ++ [TraceEv.cancelMark]) = 0 ∧
        endCount i (s.trace ++ [TraceEv.cancelMark]) = 0)
    rw [hsc, hec]
    rcases h.hdone i hi hz with hh | ⟨_, hh⟩
    · exact Or.inl hh
    · exact Or.inr ⟨rfl, hh⟩
  · intro habf
    exact Bool.noConfusion habf
  · rcases h.hrch with h0 | ⟨j, u, hm⟩
    · exact Or.inl h0
    · exact Or.inr ⟨j, u, List.mem_append_left _ hm⟩

/-- claimLogic preserves the bookkeeping invariant: a dispatch claims a fresh index
(all queued continuations work on lower indices) and queues its worker at phase 0. -/
theorem PInv_claimpop (urls : List String) {fetchMap : String → Except JsError Dnode}
    {s : LState EngSt WSt} {l₁ l₂ : List (LTask WSt)} {t : LTask WSt}
    (h : PInv urls s) (hsplit : s.tasks = l₁ ++ t :: l₂) (ht : pIdx t = none) :
    PInv urls (claimLogic (engM urls fetchMap) {s with tasks := l₁ ++ l₂}) := by
  unfold claimLogic
  split
  next hn =>
    cases hset : s.settled with
    | none =>
        refine PInv_transfer urls ([] : List TraceEv) h rfl rfl rfl
          (List.append_nil s.trace).symm hE_nil ?_
        exact Or.inr ⟨l₁, l₂, t, hsplit, ht, Or.inr ⟨LTask.econt, rfl, rfl⟩⟩
    | some v =>
        refine PInv_transfer urls ([] : List TraceEv) h rfl rfl rfl
          (List.append_nil s.trace).symm hE_nil ?_
        exact Or.inr ⟨l₁, l₂, t, hsplit, ht, Or.inl rfl⟩
  next hn =>
    split
    next hgate =>
      refine PInv_transfer urls ([] : List TraceEv) h rfl rfl rfl
        (List.append_nil s.trace).symm hE_nil ?_
      exact Or.inr ⟨l₁, l₂, t, hsplit, ht, Or.inl rfl⟩
    next hgate =>
      have hsc : ∀ j, startCount j (s.trace ++ [TraceEv.dispatch s.completed]) =
          startCount j s.trace := by
        intro j
        rw [startCount_append, (hE_dispatch s.completed j).1]
        exact Nat.add_zero _
      have hec : ∀ j, endCount j (s.trace ++ [TraceEv.dispatch s.completed]) =
          endCount j s.trace := by
        intro j
        rw [endCount_append, (hE_dispatch s.completed j).2]
        exact Nat.add_zero _
      have hcnone : countIdx s.completed (l₁ ++ l₂) = 0 := by
        refine List.countP_eq_zero.mpr ?_
        intro x hx
        have hx2 : x ∈ s.tasks := by
          rw [hsplit]
          exact mem_of_mem_removed hx
        show ¬(pIdx x == some s.completed) = true
        cases x with
        | work j w =>
            have hj := h.hwidx j w hx2
            show ¬(some j == some s.completed) = true
            simp only [beq_iff_eq, Option.some.injEq]
            omega
        | fin j =>
            have hj := h.hfidx j hx2
            show ¬(some j == some s.completed) = true
            simp only [beq_iff_eq, Option.some.injEq]
            omega
        | entry => simp [pIdx]
        | pwait => simp [pIdx]
        | delay => simp [pIdx]
        | econt => simp [pIdx]
      have hcmid : ∀ j, countIdx j (l₁ ++ l₂) ≤ countIdx j s.tasks := by
        intro j
        rw [hsplit, countIdx_middle]
        omega
      refine ⟨?_, ?_, ?_, ?_, ?_, ?_, ?_, ?_, ?_⟩
      · intro i hi
        have hix : s.completed + 1 ≤ i := hi
        show startCount i (s.trace ++ [TraceEv.dispatch s.completed]) = 0 ∧
          endCount i (s.trace ++ [TraceEv.dispatch s.completed]) = 0
        rw [hsc, hec]
        exact h.hundisp i (by omega)
      · intro i w hm
        have hm2 : LTask.work i w ∈
            LTask.work s.completed WSt.start :: (l₁ ++ l₂) := hm
        show i < s.completed + 1
        rcases List.mem_cons.mp hm2 with hh | hh
        · injection hh with h1 _
          omega
        · have := h.hwidx i w (by rw [hsplit]; exact mem_of_mem_removed hh)
          omega
      · intro i hm
        have hm2 : LTask.fin i ∈
            LTask.work s.completed WSt.start :: (l₁ ++ l₂) := hm
        show i < s.completed + 1
        rcases List.mem_cons.mp hm2 with hh | hh
        · exact LTask.noConfusion hh
        · have := h.hfidx i (by rw [hsplit]; exact mem_of_mem_removed hh)
          omega
      · intro i
        show countIdx i (LTask.work s.completed WSt.start :: (l₁ ++ l₂)) ≤ 1
        rw [countIdx_cons]
        by_cases hic : s.completed = i
        · subst hic
          rw [hcnone]
          split <;> omega
        · have hbeq : (pIdx (LTask.work s.completed WSt.start) == some i) = false := by
            show (some s.completed == some i) = false
            refine beq_eq_false_iff_ne.mpr ?_
            intro hx
            exact hic (Option.some.inj hx)
          rw [hbeq]
          have := hcmid i
          have := h.huniq i
          simp only [Bool.false_eq_true, if_false]
          omega
      · intro i w hm
        have hm2 : LTask.work i w ∈
            LTask.work s.completed WSt.start :: (l₁ ++ l₂) := hm
        show startCount i (s.trace ++ [TraceEv.dispatch s.completed]) = phaseOf w ∧
          endCount i (s.trace ++ [TraceEv.dispatch s.completed]) = 0
        rw [hsc, hec]
        rcases List.mem_cons.mp hm2 with hh | hh
        · injection hh with h1 h2
          rw [h1, h2]
          have := h.hundisp s.completed Nat.le.refl
          exact ⟨this.1, this.2⟩
        · exact h.hw i w (by rw [hsplit]; exact mem_of_mem_removed hh)
      · intro i hm
        have hm2 : LTask.fin i ∈
            LTask.work s.completed WSt.start :: (l₁ ++ l₂) := hm
        rcases List.mem_cons.mp hm2 with hh | hh
        · exact LTask.noConfusion hh
        · show (startCount i (s.trace ++ [TraceEv.dispatch s.completed]) = 1 ∧
              endCount i (s.trace ++ [TraceEv.dispatch s.completed]) = 1) ∨
            (s.aborted = true ∧
              startCount i (s.trace ++ [TraceEv.dispatch s.completed]) = 0 ∧
              endCount i (s.trace ++ [TraceEv.dispatch s.completed]) = 0)
          rw [hsc, hec]
          exact h.hf i (by rw [hsplit]; exact mem_of_mem_removed hh)
      · intro i hi hz
        have hzx : countIdx i (LTask.work s.completed WSt.start :: (l₁ ++ l₂)) = 0 :=
          hz
        rw [countIdx_cons] at hzx
        have hix : i < s.completed + 1 := hi
        by_cases hic : s.completed = i
        · exfalso
          subst hic
          split at hzx
          · omega
          next hcond =>
            exact hcond (beq_self_eq_true _)
        · have hiz : countIdx i (l₁ ++ l₂) = 0 := by omega
          have hioz : countIdx i s.tasks = 0 := by
            rw [hsplit, countIdx_middle_none ht]
            exact hiz
          show (startCount i (s.trace ++ [TraceEv.dispatch s.completed]) = 1 ∧
              endCount i (s.trace ++ [TraceEv.dispatch s.completed]) = 1) ∨
            (s.aborted = true ∧
              startCount i (s.trace ++ [TraceEv.dispatch s.completed]) = 0 ∧
              endCount i (s.trace ++ [TraceEv.dispatch s.completed]) = 0)
          rw [hsc, hec]
          exact h.hdone i (by omega) hioz
      · intro habf
        have hab2 : s.aborted = false := habf
        have hold := h.heq2 hab2
        show s.eng.completed +
            countWork (LTask.work s.completed WSt.start :: (l₁ ++ l₂)) =
          s.completed + 1
        have hx : countWork (LTask.work s.completed WSt.start :: (l₁ ++ l₂)) =
            countWork (l₁ ++ l₂) + 1 := by
          simp [countWork, List.countP_cons]
        have hy : countWork s.tasks = countWork (l₁ ++ l₂) := by
          rw [hsplit]
          show countWork (l₁ ++ t :: l₂) = countWork (l₁ ++ l₂)
          unfold countWork
          rw [countP_middle l₁ l₂ t _, isWork_of_pIdx_none ht]
          rfl
        omega
      · rcases h.hrch with h0 | ⟨j, u, hm⟩
        · exact Or.inl h0
        · exact Or.inr ⟨j, u, List.mem_append_left _ hm⟩

/-- Retiring a finally block preserves the bookkeeping invariant: the settled worker
becomes a retired item, whose counts clause it already satisfied. -/
theorem PInv_finpop (urls : List String) {s : LState EngSt WSt}
    {l₁ l₂ : List (LTask WSt)} {jf : Nat} {u : LTask WSt}
    (h : PInv urls s) (hsplit : s.tasks = l₁ ++ LTask.fin jf :: l₂)
    (hu : pIdx u = none) (huw : isWork u = false)
    (htk2 : ∀ i w, LTask.work i w ∈ u :: (l₁ ++ l₂) → LTask.work i w ∈ l₁ ++ l₂)
    (hfk2 : ∀ i, LTask.fin i ∈ u :: (l₁ ++ l₂) → LTask.fin i ∈ l₁ ++ l₂) :
    PInv urls {s with activeRequests := s.activeRequests - 1,
                      tasks := u :: (l₁ ++ l₂)} := by
  have hfmem : LTask.fin jf ∈ s.tasks := by
    rw [hsplit]
    simp
  have hcidx : ∀ j, countIdx j (u :: (l₁ ++ l₂)) =
      countIdx j (l₁ ++ l₂) := fun j => countIdx_cons_none hu j _
  have hcmid : ∀ j, countIdx j (l₁ ++ l₂) ≤ countIdx j s.tasks := by
    intro j
    rw [hsplit, countIdx_middle]
    omega
  refine ⟨?_, ?_, ?_, ?_, ?_, ?_, ?_, ?_, ?_⟩
  · intro i hi
    exact h.hundisp i hi
  · intro i w hm
    have hm2 := htk2 i w hm
    exact h.hwidx i w (by rw [hsplit]; exact mem_of_mem_removed hm2)
  · intro i hm
    have hm2 := hfk2 i hm
    exact h.hfidx i (by rw [hsplit]; exact mem_of_mem_removed hm2)
  · intro i
    show countIdx i (u :: (l₁ ++ l₂)) ≤ 1
    rw [hcidx]
    have := hcmid i
    have := h.huniq i
    omega
  · intro i w hm
    have hm2 := htk2 i w hm
    exact h.hw i w (by rw [hsplit]; exact mem_of_mem_removed hm2)
  · intro i hm
    have hm2 := hfk2 i hm
    exact h.hf i (by rw [hsplit]; exact mem_of_mem_removed hm2)
  · intro i hi hz
    have hzx : countIdx i (l₁ ++ l₂) = 0 := by
      rw [← hcidx]
      exact hz
    by_cases hij : i = jf
    · subst hij
      exact h.hf i hfmem
    · have hioz : countIdx i s.tasks = 0 := by
        rw [hsplit, countIdx_middle]
        have hbeq : (pIdx (LTask.fin jf) == some i) = false := by
          show (some jf == some i) = false
          refine beq_eq_false_iff_ne.mpr ?_
          intro hx
          exact hij (Option.some.inj hx).symm
        rw [hbeq]
        simp only [Bool.false_eq_true, if_false]
        omega
      exact h.hdone i hi hioz
  · intro habf
    have hab2 : s.aborted = false := habf
    have hold := h.heq2 hab2
    show s.eng.completed + countWork (u :: (l₁ ++ l₂)) = s.completed
    have hx : countWork (u :: (l₁ ++ l₂)) = countWork (l₁ ++ l₂) := by
      simp [countWork, List.countP_cons, huw]
    have hy : countWork s.tasks = countWork (l₁ ++ l₂) := by
      rw [hsplit]
      show countWork (l₁ ++ LTask.fin jf :: l₂) = countWork (l₁ ++ l₂)
      unfold countWork
      rw [countP_middle l₁ l₂ _ _]
      rfl
    omega
  · rcases h.hrch with h0 | ⟨j, u2, hm⟩
    · exact Or.inl h0
    · exact Or.inr ⟨j, u2, hm⟩


/-- A worker segment that continues (possibly after emitting its start onProgress)
preserves the bookkeeping invariant. -/
theorem PInv_work_some (urls : List String) {s : LState EngSt WSt}
    {l₁ l₂ : List (LTask WSt)} {iw : Nat} {w w2 : WSt} {eng2 : EngSt}
    (E : List TraceEv) (h : PInv urls s)
    (hsplit : s.tasks = l₁ ++ LTask.work iw w :: l₂)
    (hengc : eng2.completed = s.eng.completed)
    (hsE : startCount iw E + phaseOf w = phaseOf w2)
    (heE : endCount iw E = 0)
    (hnE : ∀ j, j ≠ iw → startCount j E = 0 ∧ endCount j E = 0) :
    PInv urls {s with eng := eng2, tasks := LTask.work iw w2 :: (l₁ ++ l₂),
                      trace := s.trace ++ E} := by
  have horig : LTask.work iw w ∈ s.tasks := by
    rw [hsplit]
    simp
  have hiwlt : iw < s.completed := h.hwidx iw w horig
  have hu1 : countIdx iw (l₁ ++ LTask.work iw w :: l₂) ≤ 1 := by
    rw [← hsplit]
    exact h.huniq iw
  have hcz : countIdx iw (l₁ ++ l₂) = 0 := countIdx_zero_of_middle hu1 rfl
  have hne2 : ∀ x, x ∈ l₁ ++ l₂ → ¬(pIdx x = some iw) :=
    fun x hx => pIdx_ne_of_countIdx_zero hcz hx
  have hwc := h.hw iw w horig
  have hscj : ∀ j, j ≠ iw → startCount j (s.trace ++ E) = startCount j s.trace := by
    intro j hj
    rw [startCount_append, (hnE j hj).1]
    exact Nat.add_zero _
  have hecj : ∀ j, j ≠ iw → endCount j (s.trace ++ E) = endCount j s.trace := by
    intro j hj
    rw [endCount_append, (hnE j hj).2]
    exact Nat.add_zero _
  have hsci : startCount iw (s.trace ++ E) = phaseOf w2 := by
    rw [startCount_append, hwc.1]
    omega
  have heci : endCount iw (s.trace ++ E) = 0 := by
    rw [endCount_append, hwc.2, heE]
  refine ⟨?_, ?_, ?_, ?_, ?_, ?_, ?_, ?_, ?_⟩
  · intro i hi
    have hix : s.completed ≤ i := hi
    have hii : i ≠ iw := by omega
    show startCount i (s.trace ++ E) = 0 ∧ endCount i (s.trace ++ E) = 0
    rw [hscj i hii, hecj i hii]
    exact h.hundisp i hix
  · intro i wx hm
    have hm2 : LTask.work i wx ∈ LTask.work iw w2 :: (l₁ ++ l₂) := hm
    show i < s.completed
    rcases List.mem_cons.mp hm2 with hh | hh
    · injection hh with h1 _
      rw [h1]
      exact hiwlt
    · exact h.hwidx i wx (by rw [hsplit]; exact mem_of_mem_removed hh)
  · intro i hm
    have hm2 : LTask.fin i ∈ LTask.work iw w2 :: (l₁ ++ l₂) := hm
    show i < s.completed
    rcases List.mem_cons.mp hm2 with hh | hh
    · exact LTask.noConfusion hh
    · exact h.hfidx i (by rw [hsplit]; exact mem_of_mem_removed hh)
  · intro i
    show countIdx i (LTask.work iw w2 :: (l₁ ++ l₂)) ≤ 1
    rw [countIdx_cons]
    by_cases hic : i = iw
    · subst hic
      rw [hcz]
      split <;> omega
    · have hbeq : (pIdx (LTask.work iw w2) == some i) = false := by
        show (some iw == some i) = false
        refine beq_eq_false_iff_ne.mpr ?_
        intro hx
        exact hic (Option.some.inj hx).symm
      rw [hbeq]
      simp only [Bool.false_eq_true, if_false]
      have hmid : countIdx i (l₁ ++ l₂) ≤ countIdx i s.tasks := by
        rw [hsplit, countIdx_middle]
        omega
      have := h.huniq i
      omega
  · intro i wx hm
    have hm2 : LTask.work i wx ∈ LTask.work iw w2 :: (l₁ ++ l₂) := hm
    show startCount i (s.trace ++ E) = phaseOf wx ∧ endCount i (s.trace ++ E) = 0
    rcases List.mem_cons.mp hm2 with hh | hh
    · injection hh with h1 h2
      rw [h1, h2]
      exact ⟨hsci, heci⟩
    · have hj : ¬(pIdx (LTask.work i wx) = some iw) := hne2 _ hh
      have hji : i ≠ iw := by
        intro hx
        exact hj (by rw [hx]; exact rfl)
      rw [hscj i hji, hecj i hji]
      exact h.hw i wx (by rw [hsplit]; exact mem_of_mem_removed hh)
  · intro i hm
    have hm2 : LTask.fin i ∈ LTask.work iw w2 :: (l₁ ++ l₂) := hm
    rcases List.mem_cons.mp hm2 with hh | hh
    · exact LTask.noConfusion hh
    · have hj : ¬(pIdx (LTask.fin i) = some iw) := hne2 _ hh
      have hji : i ≠ iw := by
        intro hx
        exact hj (by rw [hx]; exact rfl)
      show (startCount i (s.trace ++ E) = 1 ∧ endCount i (s.trace ++ E) = 1) ∨
        (s.aborted = true ∧ startCount i (s.trace ++ E) = 0 ∧
          endCount i (s.trace ++ E) = 0)
      rw [hscj i hji, hecj i hji]
      exact h.hf i (by rw [hsplit]; exact mem_of_mem_removed hh)
  · intro i hi hz
    have hzx : countIdx i (LTask.work iw w2 :: (l₁ ++ l₂)) = 0 := hz
    rw [countIdx_cons] at hzx
    by_cases hic : i = iw
    · exfalso
      subst hic
      split at hzx
      · omega
      next hcond => exact hcond (beq_self_eq_true _)
    · have hbeq : (pIdx (LTask.work iw w2) == some i) = false := by
        show (some iw == some i) = false
        refine beq_eq_false_iff_ne.mpr ?_
        intro hx
        exact hic (Option.some.inj hx).symm
      rw [hbeq] at hzx
      simp only [Bool.false_eq_true, if_false] at hzx
      have hioz : countIdx i s.tasks = 0 := by
        rw [hsplit, countIdx_middle]
        have hbeq2 : (pIdx (LTask.work iw w) == some i) = false := by
          show (some iw == some i) = false
          refine beq_eq_false_iff_ne.mpr ?_
          intro hx
          exact hic (Option.some.inj hx).symm
        rw [hbeq2]
        simp only [Bool.false_eq_true, if_false]
        omega
      have hii : i < s.completed := hi
      show (startCount i (s.trace ++ E) = 1 ∧ endCount i (s.trace ++ E) = 1) ∨
        (s.aborted = true ∧ startCount i (s.trace ++ E) = 0 ∧
          endCount i (s.trace ++ E) = 0)
      rw [hscj i hic, hecj i hic]
      exact h.hdone i hii hioz
  · intro habf
    have hab2 : s.aborted = false := habf
    have hold := h.heq2 hab2
    show eng2.completed + countWork (LTask.work iw w2 :: (l₁ ++ l₂)) = s.completed
    have hx : countWork (LTask.work iw w2 :: (l₁ ++ l₂)) =
        countWork (l₁ ++ l₂) + 1 := by
      simp [countWork, List.countP_cons]
    have hy : countWork s.tasks = countWork (l₁ ++ l₂) + 1 := by
      rw [hsplit]
      show countWork (l₁ ++ LTask.work iw w :: l₂) = countWork (l₁ ++ l₂) + 1
      unfold countWork
      rw [countP_middle l₁ l₂ _ _]
      rfl
    omega
  · rcases h.hrch with h0 | ⟨j, u, hm⟩
    · refine Or.inl ?_
      show eng2.completed = 0
      rw [hengc]
      exact h0
    · refine Or.inr ⟨j, u, ?_⟩
      show TraceEv.wev j (WEv.progress true u eng2.completed urls.length) ∈
        s.trace ++ E
      rw [hengc]
      exact List.mem_append_left E hm

/-- A worker dying at its abort gate (signal aborted, nothing emitted, nothing
counted) preserves the bookkeeping invariant. -/
theorem PInv_work_abort (urls : List String) {s : LState EngSt WSt}
    {l₁ l₂ : List (LTask WSt)} {iw : Nat} {w : WSt} {eng2 : EngSt}
    (h : PInv urls s) (hsplit : s.tasks = l₁ ++ LTask.work iw w :: l₂)
    (hen : eng2 = s.eng) (hab2 : s.aborted = true) (hph : phaseOf w = 0) :
    PInv urls {s with eng := eng2, tasks := LTask.fin iw :: (l₁ ++ l₂),
                      trace := s.trace ++ ([] : List TraceEv)} := by
  have horig : LTask.work iw w ∈ s.tasks := by
    rw [hsplit]
    simp
  have hiwlt : iw < s.completed := h.hwidx iw w horig
  have hu1 : countIdx iw (l₁ ++ LTask.work iw w :: l₂) ≤ 1 := by
    rw [← hsplit]
    exact h.huniq iw
  have hcz : countIdx iw (l₁ ++ l₂) = 0 := countIdx_zero_of_middle hu1 rfl
  have hne2 : ∀ x, x ∈ l₁ ++ l₂ → ¬(pIdx x = some iw) :=
    fun x hx => pIdx_ne_of_countIdx_zero hcz hx
  have hwc := h.hw iw w horig
  have htr0 : s.trace ++ ([] : List TraceEv) = s.trace := List.append_nil _
  refine ⟨?_, ?_, ?_, ?_, ?_, ?_, ?_, ?_, ?_⟩
  · intro i hi
    show startCount i (s.trace ++ ([] : List TraceEv)) = 0 ∧
      endCount i (s.trace ++ ([] : List TraceEv)) = 0
    rw [htr0]
    exact h.hundisp i hi
  · intro i wx hm
    have hm2 : LTask.work i wx ∈ LTask.fin iw :: (l₁ ++ l₂) := hm
    show i < s.completed
    rcases List.mem_cons.mp hm2 with hh | hh
    · exact LTask.noConfusion hh
    · exact h.hwidx i wx (by rw [hsplit]; exact mem_of_mem_removed hh)
  · intro i hm
    have hm2 : LTask.fin i ∈ LTask.fin iw :: (l₁ ++ l₂) := hm
    show i < s.completed
    rcases List.mem_cons.mp hm2 with hh | hh
    · injection hh with h1
      rw [h1]
      exact hiwlt
    · exact h.hfidx i (by rw [hsplit]; exact mem_of_mem_removed hh)
  · intro i
    show countIdx i (LTask.fin iw :: (l₁ ++ l₂)) ≤ 1
    rw [countIdx_cons]
    by_cases hic : i = iw
    · subst hic
      rw [hcz]
      split <;> omega
    · have hbeq : (pIdx (LTask.fin iw) == some i) = false := by
        show (some iw == some i) = false
        refine beq_eq_false_iff_ne.mpr ?_
        intro hx
        exact hic (Option.some.inj hx).symm
      rw [hbeq]
      simp only [Bool.false_eq_true, if_false]
      have hmid : countIdx i (l₁ ++ l₂) ≤ countIdx i s.tasks := by
        rw [hsplit, countIdx_middle]
        omega
      have := h.huniq i
      omega
  · intro i wx hm
    have hm2 : LTask.work i wx ∈ LTask.fin iw :: (l₁ ++ l₂) := hm
    show startCount i (s.trace ++ ([] : List TraceEv)) = phaseOf wx ∧
      endCount i (s.trace ++ ([] : List TraceEv)) = 0
    rw [htr0]
    rcases List.mem_cons.mp hm2 with hh | hh
    · exact LTask.noConfusion hh
    · exact h.hw i wx (by rw [hsplit]; exact mem_of_mem_removed hh)
  · intro i hm
    have hm2 : LTask.fin i ∈ LTask.fin iw :: (l₁ ++ l₂) := hm
    show (startCount i (s.trace ++ ([] : List TraceEv)) = 1 ∧
        endCount i (s.trace ++ ([] : List TraceEv)) = 1) ∨
      (s.aborted = true ∧ startCount i (s.trace ++ ([] : List TraceEv)) = 0 ∧
        endCount i (s.trace ++ ([] : List TraceEv)) = 0)
    rw [htr0]
    rcases List.mem_cons.mp hm2 with hh | hh
    · injection hh with h1
      rw [h1]
      refine Or.inr ⟨hab2, ?_, hwc.2⟩
      rw [hwc.1, hph]
    · exact h.hf i (by rw [hsplit]; exact mem_of_mem_removed hh)
  · intro i hi hz
    have hzx : countIdx i (LTask.fin iw :: (l₁ ++ l₂)) = 0 := hz
    rw [countIdx_cons] at hzx
    by_cases hic : i = iw
    · exfalso
      subst hic
      split at hzx
      · omega
      next hcond => exact hcond (beq_self_eq_true _)
    · have hbeq : (pIdx (LTask.fin iw) == some i) = false := by
        show (some iw == some i) = false
        refine beq_eq_false_iff_ne.mpr ?_
        intro hx
        exact hic (Option.some.inj hx).symm
      rw [hbeq] at hzx
      simp only [Bool.false_eq_true, if_false] at hzx
      have hioz : countIdx i s.tasks = 0 := by
        rw [hsplit, countIdx_middle]
        have hbeq2 : (pIdx (LTask.work iw w) == some i) = false := by
          show (some iw == some i) = false
          refine beq_eq_false_iff_ne.mpr ?_
          intro hx
          exact hic (Option.some.inj hx).symm
        rw [hbeq2]
        simp only [Bool.false_eq_true, if_false]
        omega
      have hii : i < s.completed := hi
      show (startCount i (s.trace ++ ([] : List TraceEv)) = 1 ∧
          endCount i (s.trace ++ ([] : List TraceEv)) = 1) ∨
        (s.aborted = true ∧ startCount i (s.trace ++ ([] : List TraceEv)) = 0 ∧
          endCount i (s.trace ++ ([] : List TraceEv)) = 0)
      rw [htr0]
      exact h.hdone i hii hioz
  · intro habf
    have habfx : s.aborted = false := habf
    rw [habfx] at hab2
    exact Bool.noConfusion hab2
  · rcases h.hrch with h0 | ⟨j, u, hm⟩
    · refine Or.inl ?_
      show eng2.completed = 0
      rw [hen]
      exact h0
    · refine Or.inr ⟨j, u, ?_⟩
      show TraceEv.wev j (WEv.progress true u eng2.completed urls.length) ∈
        s.trace ++ ([] : List TraceEv)
      rw [hen, htr0]
      exact hm

/-- The synchronous tail of processUrl (one end onProgress reporting the incremented
completed count, possibly preceded by an onResults batch) preserves the bookkeeping
invariant. -/
theorem PInv_work_final (urls : List String) {s : LState EngSt WSt}
    {l₁ l₂ : List (LTask WSt)} {iw : Nat} {w : WSt} {eng2 : EngSt}
    (E : List TraceEv) (h : PInv urls s)
    (hsplit : s.tasks = l₁ ++ LTask.work iw w :: l₂)
    (hph : phaseOf w = 1)
    (hengc : eng2.completed = s.eng.completed + 1)
    (hsE : startCount iw E = 0) (heE : endCount iw E = 1)
    (hnE : ∀ j, j ≠ iw → startCount j E = 0 ∧ endCount j E = 0)
    (hrev : ∃ u, TraceEv.wev iw (WEv.progress true u eng2.completed urls.length) ∈ E) :
    PInv urls {s with eng := eng2, tasks := LTask.fin iw :: (l₁ ++ l₂),
                      trace := s.trace ++ E} := by
  have horig : LTask.work iw w ∈ s.tasks := by
    rw [hsplit]
    simp
  have hiwlt : iw < s.completed := h.hwidx iw w horig
  have hu1 : countIdx iw (l₁ ++ LTask.work iw w :: l₂) ≤ 1 := by
    rw [← hsplit]
    exact h.huniq iw
  have hcz : countIdx iw (l₁ ++ l₂) = 0 := countIdx_zero_of_middle hu1 rfl
  have hne2 : ∀ x, x ∈ l₁ ++ l₂ → ¬(pIdx x = some iw) :=
    fun x hx => pIdx_ne_of_countIdx_zero hcz hx
  have hwc := h.hw iw w horig
  have hscj : ∀ j, j ≠ iw → startCount j (s.trace ++ E) = startCount j s.trace := by
    intro j hj
    rw [startCount_append, (hnE j hj).1]
    exact Nat.add_zero _
  have hecj : ∀ j, j ≠ iw → endCount j (s.trace ++ E) = endCount j s.trace := by
    intro j hj
    rw [endCount_append, (hnE j hj).2]
    exact Nat.add_zero _
  have hsci : startCount iw (s.trace ++ E) = 1 := by
    rw [startCount_append, hwc.1, hph, hsE]
  have heci : endCount iw (s.trace ++ E) = 1 := by
    rw [endCount_append, hwc.2, heE]
  refine ⟨?_, ?_, ?_, ?_, ?_, ?_, ?_, ?_, ?_⟩
  · intro i hi
    have hix : s.completed ≤ i := hi
    have hii : i ≠ iw := by omega
    show startCount i (s.trace ++ E) = 0 ∧ endCount i (s.trace ++ E) = 0
    rw [hscj i hii, hecj i hii]
    exact h.hundisp i hix
  · intro i wx hm
    have hm2 : LTask.work i wx ∈ LTask.fin iw :: (l₁ ++ l₂) := hm
    show i < s.completed
    rcases List.mem_cons.mp hm2 with hh | hh
    · exact LTask.noConfusion hh
    · exact h.hwidx i wx (by rw [hsplit]; exact mem_of_mem_removed hh)
  · intro i hm
    have hm2 : LTask.fin i ∈ LTask.fin iw :: (l₁ ++ l₂) := hm
    show i < s.completed
    rcases List.mem_cons.mp hm2 with hh | hh
    · injection hh with h1
      rw [h1]
      exact hiwlt
    · exact h.hfidx i (by rw [hsplit]; exact mem_of_mem_removed hh)
  · intro i
    show countIdx i (LTask.fin iw :: (l₁ ++ l₂)) ≤ 1
    rw [countIdx_cons]
    by_cases hic : i = iw
    · subst hic
      rw [hcz]
      split <;> omega
    · have hbeq : (pIdx (LTask.fin iw) == some i) = false := by
        show (some iw == some i) = false
        refine beq_eq_false_iff_ne.mpr ?_
        intro hx
        exact hic (Option.some.inj hx).symm
      rw [hbeq]
      simp only [Bool.false_eq_true, if_false]
      have hmid : countIdx i (l₁ ++ l₂) ≤ countIdx i s.tasks := by
        rw [hsplit, countIdx_middle]
        omega
      have := h.huniq i
      omega
  · intro i wx hm
    have hm2 : LTask.work i wx ∈ LTask.fin iw :: (l₁ ++ l₂) := hm
    show startCount i (s.trace ++ E) = phaseOf wx ∧ endCount i (s.trace ++ E) = 0
    rcases List.mem_cons.mp hm2 with hh | hh
    · exact LTask.noConfusion hh
    · have hj : ¬(pIdx (LTask.work i wx) = some iw) := hne2 _ hh
      have hji : i ≠ iw := by
        intro hx
        exact hj (by rw [hx]; exact rfl)
      rw [hscj i hji, hecj i hji]
      exact h.hw i wx (by rw [hsplit]; exact mem_of_mem_removed hh)
  · intro i hm
    have hm2 : LTask.fin i ∈ LTask.fin iw :: (l₁ ++ l₂) := hm
    rcases List.mem_cons.mp hm2 with hh | hh
    · injection hh with h1
      show (startCount i (s.trace ++ E) = 1 ∧ endCount i (s.trace ++ E) = 1) ∨
        (s.aborted = true ∧ startCount i (s.trace ++ E) = 0 ∧
          endCount i (s.trace ++ E) = 0)
      rw [h1]
      exact Or.inl ⟨hsci, heci⟩
    · have hj : ¬(pIdx (LTask.fin i) = some iw) := hne2 _ hh
      have hji : i ≠ iw := by
        intro hx
        exact hj (by rw [hx]; exact rfl)
      show (startCount i (s.trace ++ E) = 1 ∧ endCount i (s.trace ++ E) = 1) ∨
        (s.aborted = true ∧ startCount i (s.trace ++ E) = 0 ∧
          endCount i (s.trace ++ E) = 0)
      rw [hscj i hji, hecj i hji]
      exact h.hf i (by rw [hsplit]; exact mem_of_mem_removed hh)
  · intro i hi hz
    have hzx : countIdx i (LTask.fin iw :: (l₁ ++ l₂)) = 0 := hz
    rw [countIdx_cons] at hzx
    by_cases hic : i = iw
    · exfalso
      subst hic
      split at hzx
      · omega
      next hcond => exact hcond (beq_self_eq_true _)
    · have hbeq : (pIdx (LTask.fin iw) == some i) = false := by
        show (some iw == some i) = false
        refine beq_eq_false_iff_ne.mpr ?_
        intro hx
        exact hic (Option.some.inj hx).symm
      rw [hbeq] at hzx
      simp only [Bool.false_eq_true, if_false] at hzx
      have hioz : countIdx i s.tasks = 0 := by
        rw [hsplit, countIdx_middle]
        have hbeq2 : (pIdx (LTask.work iw w) == some i) = false := by
          show (some iw == some i) = false
          refine beq_eq_false_iff_ne.mpr ?_
          intro hx
          exact hic (Option.some.inj hx).symm
        rw [hbeq2]
        simp only [Bool.false_eq_true, if_false]
        omega
      have hii : i < s.completed := hi
      show (startCount i (s.trace ++ E) = 1 ∧ endCount i (s.trace ++ E) = 1) ∨
        (s.aborted = true ∧ startCount i (s.trace ++ E) = 0 ∧
          endCount i (s.trace ++ E) = 0)
      rw [hscj i hic, hecj i hic]
      exact h.hdone i hii hioz
  · intro habf
    have hab2 : s.aborted = false := habf
    have hold := h.heq2 hab2
    show eng2.completed + countWork (LTask.fin iw :: (l₁ ++ l₂)) = s.completed
    have hx : countWork (LTask.fin iw :: (l₁ ++ l₂)) = countWork (l₁ ++ l₂) := by
      simp [countWork, List.countP_cons]
    have hy : countWork s.tasks = countWork (l₁ ++ l₂) + 1 := by
      rw [hsplit]
      show countWork (l₁ ++ LTask.work iw w :: l₂) = countWork (l₁ ++ l₂) + 1
      unfold countWork
      rw [countP_middle l₁ l₂ _ _]
      rfl
    omega
  · obtain ⟨u, hm⟩ := hrev
    refine Or.inr ⟨iw, u, ?_⟩
    show TraceEv.wev iw (WEv.progress true u eng2.completed urls.length) ∈
      s.trace ++ E
    exact List.mem_append_right _ hm

/-- Popping and running a worker continuation preserves the bookkeeping invariant. -/
theorem PInv_workpop (urls : List String) {fetchMap : String → Except JsError Dnode}
    {s : LState EngSt WSt} {l₁ l₂ : List (LTask WSt)} {iw : Nat} {w : WSt}
    (h : PInv urls s) (hsplit : s.tasks = l₁ ++ LTask.work iw w :: l₂) :
    PInv urls (applyTask (engM urls fetchMap) {s with tasks := l₁ ++ l₂}
      (LTask.work iw w)) := by
  simp only [applyTask]
  split
  next eng2 w2 evs heq =>
    have heq2 : engStep urls fetchMap iw w s.eng s.aborted = (eng2, some w2, evs) :=
      heq
    show PInv urls {s with eng := eng2,
                           tasks := LTask.work iw w2 :: (l₁ ++ l₂),
                           trace := s.trace ++ List.map (TraceEv.wev iw) evs}
    rcases engStep_cases heq2 with
      ⟨ho, hph, hevs, hen⟩ | ⟨⟨u, c, n, hevs⟩, hph, ⟨k, a, ho⟩, hen⟩ |
      ⟨hph, ⟨k, a, ho⟩, hevs, hen⟩ | ⟨hwst, hab2, ho, hevs, hen⟩ |
      ⟨hph, ho, hsh, henc⟩
    · have hw2 : w2 = WSt.wpause := Option.some.inj ho
      refine PInv_work_some urls (evs.map (TraceEv.wev iw)) h hsplit ?_ ?_ ?_ ?_
      · rw [hen]
      · rw [hevs, hw2, hph]
        exact rfl
      · rw [hevs]
        exact rfl
      · intro j hj
        rw [hevs]
        exact ⟨rfl, rfl⟩
    · have hw2 : w2 = WSt.waud k a := Option.some.inj ho
      refine PInv_work_some urls (evs.map (TraceEv.wev iw)) h hsplit ?_ ?_ ?_ ?_
      · rw [hen]
      · rw [hevs, hw2, hph, scount_start_emit]
        exact rfl
      · rw [hevs]
        exact ecount_start_emit iw u c n
      · intro j hj
        exact ⟨scount_map_ne hj evs, ecount_map_ne hj evs⟩
    · have hw2 : w2 = WSt.waud k a := Option.some.inj ho
      refine PInv_work_some urls (evs.map (TraceEv.wev iw)) h hsplit ?_ ?_ ?_ ?_
      · rw [hen]
      · rw [hevs, hw2, hph]
        exact rfl
      · rw [hevs]
        exact rfl
      · intro j hj
        rw [hevs]
        exact ⟨rfl, rfl⟩
    · exact Option.noConfusion ho
    · exact Option.noConfusion ho
  next eng2 evs heq =>
    have heq2 : engStep urls fetchMap iw w s.eng s.aborted = (eng2, none, evs) := heq
    show PInv urls {s with eng := eng2,
                           tasks := LTask.fin iw :: (l₁ ++ l₂),
                           trace := s.trace ++ List.map (TraceEv.wev iw) evs}
    rcases engStep_cases heq2 with
      ⟨ho, hph, hevs, hen⟩ | ⟨⟨u, c, n, hevs⟩, hph, ⟨k, a, ho⟩, hen⟩ |
      ⟨hph, ⟨k, a, ho⟩, hevs, hen⟩ | ⟨hwst, hab2, ho, hevs, hen⟩ |
      ⟨hph, ho, hsh, henc⟩
    · exact Option.noConfusion ho
    · exact Option.noConfusion ho
    · exact Option.noConfusion ho
    · rw [hevs]
      exact PInv_work_abort urls h hsplit hen hab2 (by rw [hwst]; exact rfl)
    · obtain ⟨u, hsh2⟩ := hsh
      rcases hsh2 with hevs | ⟨rs, hevs⟩
      · refine PInv_work_final urls (evs.map (TraceEv.wev iw)) h hsplit hph henc
          ?_ ?_ ?_ ?_
        · rw [hevs]
          exact scount_end_emit1 iw u _ _
        · rw [hevs]
          exact ecount_end_emit1 iw u _ _
        · intro j hj
          exact ⟨scount_map_ne hj evs, ecount_map_ne hj evs⟩
        · refine ⟨u, ?_⟩
          rw [hevs, henc]
          exact List.mem_singleton.mpr rfl
      · refine PInv_work_final urls (evs.map (TraceEv.wev iw)) h hsplit hph henc
          ?_ ?_ ?_ ?_
        · rw [hevs]
          exact scount_end_emit2 iw rs u _ _
        · rw [hevs]
          exact ecount_end_emit2 iw rs u _ _
        · intro j hj
          exact ⟨scount_map_ne hj evs, ecount_map_ne hj evs⟩
        · refine ⟨u, ?_⟩
          rw [hevs, henc]
          exact List.mem_cons.mpr (Or.inr (List.mem_singleton.mpr rfl))

/-- One event-loop step of the engine machine preserves the bookkeeping invariant. -/
theorem PInv_step (urls : List String) {fetchMap : String → Except JsError Dnode}
    {s s2 : LState EngSt WSt} (h : PInv urls s)
    (hs : Step (engM urls fetchMap) s s2) : PInv urls s2 := by
  cases hs with
  | setPause p =>
      exact PInv_transfer urls [TraceEv.pauseMark p] h rfl rfl rfl rfl
        (hE_pauseMark p) (Or.inl rfl)
  | cancel => exact PInv_cancel urls h
  | task l₁ l₂ t hsplit =>
      cases t with
      | entry =>
          show PInv urls (applyTask (engM urls fetchMap) {s with tasks := l₁ ++ l₂}
            LTask.entry)
          simp only [applyTask]
          split
          next hca =>
            cases hset : s.settled with
            | none =>
                refine PInv_transfer urls ([] : List TraceEv) h rfl rfl rfl
                  (List.append_nil s.trace).symm hE_nil ?_
                exact Or.inr ⟨l₁, l₂, LTask.entry, hsplit, rfl,
                  Or.inr ⟨LTask.econt, rfl, rfl⟩⟩
            | some v =>
                refine PInv_transfer urls ([] : List TraceEv) h rfl rfl rfl
                  (List.append_nil s.trace).symm hE_nil ?_
                exact Or.inr ⟨l₁, l₂, LTask.entry, hsplit, rfl, Or.inl rfl⟩
          next =>
            split
            next =>
              refine PInv_transfer urls ([] : List TraceEv) h rfl rfl rfl
                (List.append_nil s.trace).symm hE_nil ?_
              exact Or.inr ⟨l₁, l₂, LTask.entry, hsplit, rfl,
                Or.inr ⟨LTask.pwait, rfl, rfl⟩⟩
            next =>
              exact PInv_claimpop urls h hsplit rfl
      | pwait =>
          show PInv urls (applyTask (engM urls fetchMap) {s with tasks := l₁ ++ l₂}
            LTask.pwait)
          simp only [applyTask]
          split
          next =>
            refine PInv_transfer urls ([] : List TraceEv) h rfl rfl rfl
              (List.append_nil s.trace).symm hE_nil ?_
            exact Or.inr ⟨l₁, l₂, LTask.pwait, hsplit, rfl,
              Or.inr ⟨LTask.pwait, rfl, rfl⟩⟩
          next =>
            exact PInv_claimpop urls h hsplit rfl
      | delay =>
          show PInv urls (applyTask (engM urls fetchMap) {s with tasks := l₁ ++ l₂}
            LTask.delay)
          simp only [applyTask]
          refine PInv_transfer urls ([] : List TraceEv) h rfl rfl rfl
            (List.append_nil s.trace).symm hE_nil ?_
          exact Or.inr ⟨l₁, l₂, LTask.delay, hsplit, rfl,
            Or.inr ⟨LTask.entry, rfl, rfl⟩⟩
      | work i w =>
          show PInv urls (applyTask (engM urls fetchMap) {s with tasks := l₁ ++ l₂}
            (LTask.work i w))
          exact PInv_workpop urls h hsplit
      | fin j =>
          show PInv urls (applyTask (engM urls fetchMap) {s with tasks := l₁ ++ l₂}
            (LTask.fin j))
          simp only [applyTask]
          split
          next =>
            refine PInv_finpop urls h hsplit rfl rfl ?_ ?_
            · intro i w hm
              rcases List.mem_cons.mp hm with hh | hh
              · exact LTask.noConfusion hh
              · exact hh
            · intro i hm
              rcases List.mem_cons.mp hm with hh | hh
              · exact LTask.noConfusion hh
              · exact hh
          next =>
            refine PInv_finpop urls h hsplit rfl rfl ?_ ?_
            · intro i w hm
              rcases List.mem_cons.mp hm with hh | hh
              · exact LTask.noConfusion hh
              · exact hh
            · intro i hm
              rcases List.mem_cons.mp hm with hh | hh
              · exact LTask.noConfusion hh
              · exact hh
      | econt =>
          show PInv urls (applyTask (engM urls fetchMap) {s with tasks := l₁ ++ l₂}
            LTask.econt)
          simp only [applyTask]
          split
          next heq =>
            refine PInv_transfer urls [TraceEv.complete] h rfl rfl rfl rfl
              hE_complete ?_
            exact Or.inr ⟨l₁, l₂, LTask.econt, hsplit, rfl, Or.inl rfl⟩
          next e heq =>
            split
            next =>
              refine PInv_transfer urls [TraceEv.errorEv "system" e.message] h rfl
                rfl rfl rfl (hE_errorEv "system" e.message) ?_
              exact Or.inr ⟨l₁, l₂, LTask.econt, hsplit, rfl, Or.inl rfl⟩
            next =>
              refine PInv_transfer urls ([] : List TraceEv) h rfl rfl rfl
                (List.append_nil s.trace).symm hE_nil ?_
              exact Or.inr ⟨l₁, l₂, LTask.econt, hsplit, rfl, Or.inl rfl⟩
          next heq =>
            refine PInv_transfer urls ([] : List TraceEv) h rfl rfl rfl
              (List.append_nil s.trace).symm hE_nil ?_
            exact Or.inr ⟨l₁, l₂, LTask.econt, hsplit, rfl, Or.inl rfl⟩

theorem countIdx_replicate_entry (i k : Nat) :
    countIdx i (List.replicate k (LTask.entry : LTask WSt)) = 0 := by
  induction k with
  | zero => rfl
  | succ m ih =>
      rw [List.replicate_succ, countIdx_cons, ih]
      rfl

/-- The bookkeeping invariant holds at the initial state of an engine run. -/
theorem PInv_init (urls : List String) (maxC : Nat) (d : Bool) :
    PInv urls (engInit urls maxC d) := by
  refine ⟨?_, ?_, ?_, ?_, ?_, ?_, ?_, ?_, ?_⟩
  · intro i _
    exact ⟨rfl, rfl⟩
  · intro i w hm
    have hx := List.eq_of_mem_replicate hm
    exact LTask.noConfusion hx
  · intro i hm
    have hx := List.eq_of_mem_replicate hm
    exact LTask.noConfusion hx
  · intro i
    show countIdx i (List.replicate (min maxC urls.length)
      (LTask.entry : LTask WSt)) ≤ 1
    rw [countIdx_replicate_entry]
    omega
  · intro i w hm
    have hx := List.eq_of_mem_replicate hm
    exact LTask.noConfusion hx
  · intro i hm
    have hx := List.eq_of_mem_replicate hm
    exact LTask.noConfusion hx
  · intro i hi _
    have hix : i < 0 := hi
    omega
  · intro _
    show (0 : Nat) + countWork (List.replicate (min maxC urls.length)
      (LTask.entry : LTask WSt)) = 0
    rw [countWork_replicate_entry]
  · exact Or.inl rfl

/-- The bookkeeping invariant holds in every state an engine run reaches. -/
theorem PInv_reach {urls : List String} {fetchMap : String → Except JsError Dnode}
    {maxC : Nat} {d : Bool} {s : LState EngSt WSt}
    (hr : Reach (engM urls fetchMap) (engInit urls maxC d) s) : PInv urls s := by
  induction hr with
  | refl => exact PInv_init urls maxC d
  | tail hr2 hstep ih => exact PInv_step urls ih hstep

/-- C7.  In a quiescent (drained task queue), non-cancelled, non-aborted engine run
with positive concurrency, every URL index has emitted exactly one start onProgress
and exactly one end onProgress, the engine's completed count equals the URL count,
and (for a non-empty list) an onProgress event reported completedCount = totalCount =
urls.length. -/
theorem c7_completeness {urls : List String} {fetchMap : String → Except JsError Dnode}
    {maxC : Nat} {d : Bool} {s : LState EngSt WSt}
    (hr : Reach (engM urls fetchMap) (engInit urls maxC d) s)
    (hmax : 1 ≤ maxC) (hnc : s.isCancelled = false) (habf : s.aborted = false)
    (hq : s.tasks = []) :
    (∀ i, i < urls.length → startCount i s.trace = 1 ∧ endCount i s.trace = 1) ∧
    s.eng.completed = urls.length ∧
    (urls ≠ [] → ∃ j u,
      TraceEv.wev j (WEv.progress true u urls.length urls.length) ∈ s.trace) := by
  have hP : PInv urls s := PInv_reach hr
  have h0 : LInv (engInit urls maxC d) :=
    LInv_init urls.length maxC d (⟨0, false⟩ : EngSt)
  have hL : LInv s := LInv_reach h0 hr
  have hconsts := Reach_consts hr
  have hn : s.n = urls.length := hconsts.1
  have hmc : s.maxConcurrent = maxC := hconsts.2.1
  have hcompl : s.completed = urls.length := by
    by_cases hlt : s.completed < s.n
    · exact absurd hq (hL.hprog hnc habf hlt (by rw [hmc]; exact hmax))
    · have hcl := hL.hcl
      omega
  have hengcompl : s.eng.completed = urls.length := by
    have heqx := hP.heq2 habf
    rw [hq] at heqx
    have hcw : countWork ([] : List (LTask WSt)) = 0 := rfl
    omega
  refine ⟨?_, hengcompl, ?_⟩
  · intro i hi
    have hiz : countIdx i s.tasks = 0 := by
      rw [hq]
      rfl
    rcases hP.hdone i (by omega) hiz with hh | ⟨habt, _⟩
    · exact hh
    · rw [habf] at habt
      exact Bool.noConfusion habt
  · intro hne
    rcases hP.hrch with h0x | ⟨j, u, hm⟩
    · exfalso
      rw [hengcompl] at h0x
      exact hne (List.length_eq_zero.mp h0x)
    · rw [hengcompl] at hm
      exact ⟨j, u, hm⟩

/-- Closed witness for C7 at the concrete completed one-URL run: its only URL emitted
exactly one start and one end onProgress, the engine finished with completed count 1
= urlsA.length, and an onProgress event reported 1 of 1. -/
theorem c7_witness :
    (startCount 0 g12.trace = 1 ∧ endCount 0 g12.trace = 1) ∧
    g12.eng.completed = urlsA.length ∧
    (∃ j u, TraceEv.wev j (WEv.progress true u urlsA.length urlsA.length) ∈
      g12.trace) := by
  have hmain := c7_completeness c8Reach (by decide) (by decide) (by decide)
    (by decide)
  exact ⟨hmain.1 0 (by decide), hmain.2.1, hmain.2.2 (by decide)⟩


end A11y
